import Mathlib

/-!
Verification development for the ketos compilation pipeline
(`src/ketos/compile.rs`, `src/ketos/module.rs`).

The Rust sources are shallowly embedded as executable Lean definitions.
Machine integers (`u32`) are modelled as `Nat` (counts, indices) or `Int`
(the simulated stack offset, where subtraction must not truncate); the
values involved are small, so overflow is not a concern.  Fallible Rust
functions returning `Result` become functions into `Except`.  Recursion
through macro expansion re-enters the compiler on values produced by the
VM, so the compiler traversal takes an explicit fuel parameter; running
out of fuel is a distinguished outcome (`Err.fuel`) that never coincides
with a successful compilation or a compile error.

Code of the repository that is not part of the provided sources
(`name.rs`, `scope.rs`, `bytecode.rs`, `value.rs`, `exec.rs`) is modelled
from the specification; each such definition carries a doc comment
starting with `Modelled from the spec:`.
-/

namespace Ketos

/-- Names are opaque 32-bit interner handles (`name.rs`); modelled as `Nat`. -/
abbrev Name := Nat

/-- Modelled from the spec: arity descriptors `Exact`, `Min`, `Range`
of system functions and operators (`function.rs` is not in the sources). -/
inductive Arity where
  | exact (n : Nat)
  | min (n : Nat)
  | range (lo hi : Nat)
deriving DecidableEq, Repr

/-- Modelled from the spec: `Arity::accepts` checks an argument count
against the descriptor. -/
def Arity.accepts : Arity → Nat → Bool
  | .exact n, m => m == n
  | .min n, m => n ≤ m
  | .range lo hi, m => lo ≤ m && m ≤ hi

/-- The value model (`value.rs`, modelled from the spec's variant list).
A `lambda` holds the identifier of an allocated code object: the Rust
`Lambda` holds an `Rc<Code>`, and identity of lambdas is reference
identity, which the allocation-counter model mirrors.  `ratioV` stands
for the `Ratio` variant. -/
inductive Value where
  | unit
  | bool (b : Bool)
  | integer (i : Int)
  | ratioV (num den : Int)
  | float (bits : Nat)
  | char (c : Char)
  | str (s : String)
  | keyword (n : Name)
  | name (n : Name)
  | list (items : List Value)
  | quote (v : Value) (depth : Nat)
  | quasiquote (v : Value) (depth : Nat)
  | comma (v : Value) (depth : Nat)
  | commaAt (v : Value) (depth : Nat)
  | lambda (id : Nat)
  | structDef (sname : Name) (fields : List (Name × Name))
deriving Repr

mutual

/-- Modelled from the spec: structural identity of values
(`Value::is_identical` in `value.rs`), used by the constant pool for
de-duplication.  Lambdas compare by their allocation identifier, which
models the reference identity of the Rust `Rc<Code>`. -/
def Value.isIdentical : Value → Value → Bool
  | .unit, w => match w with | .unit => true | _ => false
  | .bool a, w => match w with | .bool b => a == b | _ => false
  | .integer a, w => match w with | .integer b => a == b | _ => false
  | .ratioV a b, w => match w with | .ratioV c d => a == c && b == d | _ => false
  | .float a, w => match w with | .float b => a == b | _ => false
  | .char a, w => match w with | .char b => a == b | _ => false
  | .str a, w => match w with | .str b => a == b | _ => false
  | .keyword a, w => match w with | .keyword b => a == b | _ => false
  | .name a, w => match w with | .name b => a == b | _ => false
  | .list a, w => match w with | .list b => Value.isIdenticalList a b | _ => false
  | .quote a n, w => match w with | .quote b m => n == m && Value.isIdentical a b | _ => false
  | .quasiquote a n, w =>
    match w with | .quasiquote b m => n == m && Value.isIdentical a b | _ => false
  | .comma a n, w => match w with | .comma b m => n == m && Value.isIdentical a b | _ => false
  | .commaAt a n, w => match w with | .commaAt b m => n == m && Value.isIdentical a b | _ => false
  | .lambda a, w => match w with | .lambda b => a == b | _ => false
  | .structDef a fa, w => match w with | .structDef b fb => a == b && fa == fb | _ => false

/-- Elementwise structural identity of value lists. -/
def Value.isIdenticalList : List Value → List Value → Bool
  | [], [] => true
  | a :: as, b :: bs => Value.isIdentical a b && Value.isIdenticalList as bs
  | _, _ => false

end

/-- Instructions emitted by the compiler (`bytecode.rs` is not in the
sources; the constructor set is modelled from the spec's instruction
list).  Stack positions are `Int` because they are copies of the
simulated stack offset; constant-pool indices and counts are `Nat`. -/
inductive Instruction where
  | push
  | unit
  | vtrue
  | vfalse
  | const (c : Nat)
  | load (pos : Int)
  | loadC (idx : Nat)
  | store (pos : Int)
  | getDef (c : Nat)
  | setDef (c : Nat)
  | call (n : Nat)
  | callSelf (n : Nat)
  | callConst (c : Nat) (n : Nat)
  | callSys (name : Name)
  | callSysArgs (name : Name) (n : Nat)
  | apply (n : Nat)
  | buildClosure (c : Nat) (n : Nat)
  | list (n : Nat)
  | skip (n : Nat)
  | ret
  | unboundToUnit (pos : Int)
  | null
  | not
  | eq
  | notEq
  | eqConst (c : Nat)
  | notEqConst (c : Nat)
  | first
  | tail
  | init
  | last
  | append
  | comma (n : Nat)
  | commaAt (n : Nat)
  | quote (n : Nat)
  | quasiquote (n : Nat)
deriving DecidableEq, Repr

/-- Jump instructions attached to code blocks (modelled from the spec). -/
inductive JumpInstruction where
  | jump
  | jumpIf
  | jumpIfNot
  | jumpIfNull
  | jumpIfNotNull
  | jumpIfBound (pos : Int)
  | jumpIfEqConst (c : Nat)
deriving DecidableEq, Repr

/-- The `CompileError` enumeration of `compile.rs`. -/
inductive CompileError where
  | arityError (name : Name) (expected : Arity) (found : Nat)
  | cannotDefine (name : Name)
  | duplicateExports
  | duplicateParameter (name : Name)
  | exportError (module : Name) (name : Name)
  | importCycle (name : Name)
  | importError (module : Name) (name : Name)
  | importShadow (module : Name) (name : Name)
  | invalidCallExpression (ty : String)
  | invalidCommaAt
  | invalidModuleName (name : Name)
  | macroRecursionExceeded
  | missingExport
  | moduleError (name : Name)
  | operandOverflow (n : Nat)
  | privacyError (module : Name) (name : Name)
  | syntaxError (msg : String)
  | unbalancedComma
deriving DecidableEq, Repr

/-- Failure outcomes of an embedded computation.  `compileErr` carries a
`CompileError` from `compile.rs`; `runtimeErr` stands for every other
variant of the crate-level `Error` enumeration (VM execution failures,
I/O, decode errors), whose structure the compiler never inspects;
`panicked` models a Rust panic (failed `assert!`/`expect`/indexing);
`fuel` is the embedding's fuel-exhaustion marker and never arises from
the modelled code itself. -/
inductive Err where
  | compileErr (e : CompileError)
  | runtimeErr
  | panicked
  | fuel
deriving DecidableEq, Repr

/-- A code block under construction (`CodeBlock` in `bytecode.rs`,
modelled from the spec).  `instrs` records the sequence of instructions
pushed into the block; the peephole pending slot of the real assembler
only fuses adjacent instructions during byte encoding and is not
modelled, so `instrs` is the unfused instruction sequence. -/
structure CodeBlock where
  instrs : List Instruction
  jump : Option (JumpInstruction × Nat)
  next : Option Nat
deriving DecidableEq, Repr

/-- Fresh empty code block (`CodeBlock::new`). -/
def CodeBlock.new : CodeBlock := ⟨[], none, none⟩

/-- Mirror of `CodeBlock::jump_to`: sets the single outgoing jump. -/
def CodeBlock.jumpTo (b : CodeBlock) (j : JumpInstruction) (dest : Nat) : CodeBlock :=
  { b with jump := some (j, dest) }

/-- Mirror of `CodeBlock::set_next`: sets the fall-through successor. -/
def CodeBlock.setNext (b : CodeBlock) (n : Nat) : CodeBlock :=
  { b with next := some n }

/-- A compiled code object (`Code` in `bytecode.rs`, fields as listed in
the spec).  `instrs` stands for the encoded byte stream. -/
structure Code where
  name : Option Name
  instrs : List Instruction
  consts : List Value
  kwParams : List Name
  nParams : Nat
  reqParams : Nat
  flags : Nat
deriving Repr

/-- Modelled from the spec: `code_flags::HAS_NAME` (bit 0). -/
def flagHasName : Nat := 1
/-- Modelled from the spec: `code_flags::HAS_KW_PARAMS` (bit 1). -/
def flagHasKwParams : Nat := 2
/-- Modelled from the spec: `code_flags::HAS_REST_PARAMS` (bit 2). -/
def flagHasRestParams : Nat := 4

/-- Modelled from the spec: a module scope's binding tables (`scope.rs`
is not in the sources): value bindings, macro bindings (a macro binding
is the identifier of a compiled lambda), and the optional export set. -/
structure ScopeData where
  values : List (Name × Value)
  macros : List (Name × Nat)
  exports : Option (List Name)
deriving Repr

/-- Modelled from the spec: name-map insertion replaces an existing
binding for the key, else appends. -/
def nmInsert {β : Type} (m : List (Name × β)) (k : Name) (v : β) : List (Name × β) :=
  if (m.lookup k).isSome then
    m.map (fun p => if p.1 = k then (k, v) else p)
  else
    m ++ [(k, v)]

/-- A loaded module: its name and its scope (`Module` in `module.rs`). -/
structure Module where
  name : Name
  scope : ScopeData
deriving Repr

/-- External collaborators of the compiler, supplied as oracles:
`execLambda` is the VM entry `execute_lambda` used for macro expansion
(`exec.rs` is external); `getModule` is the module registry resolution
used by the `use` operator; `getSystemFn` is the system-function table
of `name.rs` (modelled from the spec), returning the arity of a system
function.  A `.error` result of an oracle stands for an arbitrary
non-compile error. -/
structure Env where
  execLambda : Nat → List Value → Except Unit Value
  getModule : Name → Except Unit Module
  getSystemFn : Name → Option Arity

/-- The per-instance compiler fields (`struct Compiler` in
`compile.rs`).  `outer` holds the named stacks of the enclosing
compilers, outermost first — the only data `closure_value` consults on
them. -/
structure CompUnit where
  consts : List Value
  blocks : List CodeBlock
  curBlock : Nat
  stack : List (Name × Int)
  stackOffset : Int
  captures : List Name
  outer : List (List (Name × Int))
  selfName : Option Name
  macroRecursion : Nat
deriving Repr

/-- Fresh compiler instance (`Compiler::with_outer`). -/
def CompUnit.withOuter (name : Option Name) (outer : List (List (Name × Int))) : CompUnit :=
  { consts := []
    blocks := [CodeBlock.new]
    curBlock := 0
    stack := []
    stackOffset := 0
    captures := []
    outer := outer
    selfName := name
    macroRecursion := 0 }

/-- Full state threaded through a compilation: the current compiler
instance, the (shared, mutable) scope, and the pool of allocated code
objects (modelling `Rc<Code>` allocation; a `Value.lambda id` and a
macro binding refer into `pool`). -/
structure CompState where
  comp : CompUnit
  scope : ScopeData
  pool : List Code
deriving Repr

/-- Result of an embedded compiler computation. -/
abbrev CompRes (α : Type) := Except Err (α × CompState)

/-- Sequencing of embedded computations (the `try!` pattern). -/
def cbind {α β : Type} (r : CompRes α) (f : α → CompState → CompRes β) : CompRes β :=
  match r with
  | .error e => .error e
  | .ok (a, st) => f a st

@[simp] theorem cbind_error {α β : Type} (e : Err) (f : α → CompState → CompRes β) :
    cbind (.error e) f = .error e := rfl

@[simp] theorem cbind_ok {α β : Type} (a : α) (st : CompState)
    (f : α → CompState → CompRes β) : cbind (.ok (a, st)) f = f a st := rfl

theorem cbind_eq_ok {α β : Type} {r : CompRes α} {f : α → CompState → CompRes β}
    {x : β × CompState} (h : cbind r f = .ok x) :
    ∃ a st, r = .ok (a, st) ∧ f a st = .ok x := by
  cases r with
  | error e => simp [cbind] at h
  | ok p => exact ⟨p.1, p.2, rfl, h⟩

/-- Mirror of `Value::type_name` for the variants the compiler can meet
as a call-expression head. -/
def Value.typeName : Value → String
  | .unit => "unit"
  | .bool _ => "bool"
  | .integer _ => "integer"
  | .ratioV _ _ => "ratio"
  | .float _ => "float"
  | .char _ => "char"
  | .str _ => "string"
  | .keyword _ => "keyword"
  | .name _ => "name"
  | .list _ => "list"
  | .quote _ _ => "object"
  | .quasiquote _ _ => "object"
  | .comma _ _ => "object"
  | .commaAt _ _ => "object"
  | .lambda _ => "lambda"
  | .structDef _ _ => "struct-def"

/-! ### Name tables

Modelled from the spec: `name.rs` reserves a contiguous range of
interner handles for the fourteen system operators (in the order of the
`SYSTEM_OPERATORS` table of `compile.rs`) and another range for the
standard names.  The concrete numerals are arbitrary; only the layout
(contiguity, disjointness) is fixed by the spec. -/

/-- Modelled from the spec: `SYSTEM_OPERATORS_BEGIN`. -/
def sysOpBegin : Name := 1000
/-- Modelled from the spec: `NUM_SYSTEM_OPERATORS` (fourteen operators). -/
def numSystemOperators : Nat := 14

def nmApply : Name := 1000
def nmDo : Name := 1001
def nmLet : Name := 1002
def nmDefine : Name := 1003
def nmMacroDef : Name := 1004
def nmStruct : Name := 1005
def nmIf : Name := 1006
def nmAnd : Name := 1007
def nmOr : Name := 1008
def nmCase : Name := 1009
def nmCond : Name := 1010
def nmLambdaOp : Name := 1011
def nmExport : Name := 1012
def nmUse : Name := 1013

/-- Modelled from the spec: standard intrinsic and auxiliary names. -/
def nmEq : Name := 2000
def nmNot : Name := 2001
def nmList : Name := 2002
def nmFirst : Name := 2003
def nmTail : Name := 2004
def nmInit : Name := 2005
def nmLast : Name := 2006
def nmAppend : Name := 2007
def nmNull : Name := 2008
def nmId : Name := 2009
def nmInf : Name := 2010
def nmNan : Name := 2011
def nmNotEq : Name := 2012
def nmConcat : Name := 2013
def nmElse : Name := 2014
def nmKey : Name := 2015
def nmOptional : Name := 2016
def nmRest : Name := 2017
def nmMacroKw : Name := 2018
def nmAll : Name := 2019

/-- Modelled from the spec: the placeholder sentinel `Name::dummy()`. -/
def dummyName : Name := 3000

/-- Modelled from the spec: `is_system_operator` tests membership of the
reserved operator range. -/
def isSystemOperator (n : Name) : Bool :=
  sysOpBegin ≤ n && n < sysOpBegin + numSystemOperators

/-- Modelled from the spec: `MasterScope::can_define` — reserved standard
names and system operators cannot be redefined. -/
def canDefine (n : Name) : Bool :=
  !(isSystemOperator n || (2000 ≤ n && n < 2020))

/-! ### Scope operations (modelled from the spec, `scope.rs`) -/

/-- Scope predicate `contains_macro`. -/
def ScopeData.containsMacro (s : ScopeData) (n : Name) : Bool :=
  (s.macros.lookup n).isSome

/-- Scope accessor `get_macro`. -/
def ScopeData.getMacro (s : ScopeData) (n : Name) : Option Nat :=
  s.macros.lookup n

/-- Scope mutation `add_macro`. -/
def ScopeData.addMacro (s : ScopeData) (n : Name) (lam : Nat) : ScopeData :=
  { s with macros := nmInsert s.macros n lam }

/-- Scope accessor `get_value`. -/
def ScopeData.getValue (s : ScopeData) (n : Name) : Option Value :=
  s.values.lookup n

/-- Scope mutation `add_value`. -/
def ScopeData.addValue (s : ScopeData) (n : Name) (v : Value) : ScopeData :=
  { s with values := nmInsert s.values n v }

/-- Scope predicate `is_exported`: the export set exists and holds the
name. -/
def ScopeData.isExported (s : ScopeData) (n : Name) : Bool :=
  match s.exports with
  | some es => es.contains n
  | none => false

/-- Scope mutation `set_exports`. -/
def ScopeData.setExports (s : ScopeData) (es : List Name) : ScopeData :=
  { s with exports := some es }

/-! ### Pure compiler helpers (`impl Compiler`, `compile.rs`) -/

/-- Applies `f` to the current block (`Compiler::current_block`).  The
Rust accessor panics on an invalid index; `cur_block` always indexes
`blocks` in reachable states, and the model leaves an out-of-range
state unchanged. -/
def modifyCur (f : CodeBlock → CodeBlock) (st : CompState) : CompState :=
  let bs := st.comp.blocks.set st.comp.curBlock
    (f (st.comp.blocks.getD st.comp.curBlock CodeBlock.new))
  { st with comp.blocks := bs }

/-- Mirror of `Compiler::push_instruction`: adjusts the simulated stack
offset according to the instruction, then appends the instruction to
the current block.  (`CodeBlock::push_instruction` is external; the
model appends without peephole fusion and cannot fail.) -/
def pushInstruction (i : Instruction) (st : CompState) : CompState :=
  let off : Int :=
    match i with
    | .push => st.comp.stackOffset + 1
    | .buildClosure _ n => st.comp.stackOffset - n
    | .list n => st.comp.stackOffset - n
    | .skip n => st.comp.stackOffset - n
    | .callSysArgs _ n => st.comp.stackOffset - n
    | .callSelf n => st.comp.stackOffset - n
    | .callConst _ n => st.comp.stackOffset - n
    | .call n => st.comp.stackOffset - (n + 1)
    | .apply n => st.comp.stackOffset - (n + 1)
    | .eq => st.comp.stackOffset - 1
    | .notEq => st.comp.stackOffset - 1
    | _ => st.comp.stackOffset
  modifyCur (fun b => { b with instrs := b.instrs ++ [i] })
    { st with comp.stackOffset := off }

/-- Mirror of `Compiler::flush_instructions`; the pending peephole slot
is not modelled, so committing it is the identity. -/
def flushInstructions (st : CompState) : CompState := st

/-- Mirror of `Compiler::new_block`: appends a fresh block, returning
its index. -/
def newBlock (st : CompState) : Nat × CompState :=
  (st.comp.blocks.length,
   { st with comp.blocks := st.comp.blocks ++ [CodeBlock.new] })

/-- Mirror of `Compiler::use_block`. -/
def useBlock (n : Nat) (st : CompState) : CompState :=
  { st with comp.curBlock := n }

/-- Mirror of `Compiler::use_next`: link the current block's
fall-through to `n` and switch to it. -/
def useNext (n : Nat) (st : CompState) : CompState :=
  useBlock n (modifyCur (fun b => b.setNext n) st)

/-- Sets the current block's jump (`current_block().jump_to(...)`). -/
def jumpToCur (j : JumpInstruction) (dest : Nat) (st : CompState) : CompState :=
  modifyCur (fun b => b.jumpTo j dest) st

/-- Core of `Compiler::add_const` on the bare pool: position of the
first structurally identical stored constant, else append. -/
def addConstList (consts : List Value) (v : Value) : Nat × List Value :=
  match consts.findIdx? (fun c => c.isIdentical v) with
  | some pos => (pos, consts)
  | none => (consts.length, consts ++ [v])

/-- Mirror of `Compiler::add_const`. -/
def addConst (v : Value) (st : CompState) : Nat × CompState :=
  ((addConstList st.comp.consts v).1,
    { st with comp.consts := (addConstList st.comp.consts v).2 })

/-- Mirror of `Compiler::add_const_value`: a depth-1 quote is stored as
its inner value, deeper quotes with depth decremented. -/
def addConstValue (v : Value) (st : CompState) : Nat × CompState :=
  match v with
  | .quote inner 1 => addConst inner st
  | .quote inner (n + 2) => addConst (.quote inner (n + 1)) st
  | _ => addConst v st

/-- Mirror of `Compiler::load_quoted_value`. -/
def loadQuotedValue (v : Value) (st : CompState) : CompState :=
  match v with
  | .unit => pushInstruction .unit st
  | .bool true => pushInstruction .vtrue st
  | .bool false => pushInstruction .vfalse st
  | _ =>
    let (c, st) := addConst v st
    pushInstruction (.const c) st

/-- Mirror of `Compiler::load_const_value`. -/
def loadConstValue (v : Value) (st : CompState) : CompState :=
  match v with
  | .unit => pushInstruction .unit st
  | .bool true => pushInstruction .vtrue st
  | .bool false => pushInstruction .vfalse st
  | .quote inner 1 => loadQuotedValue inner st
  | .quote inner (n + 2) => loadQuotedValue (.quote inner (n + 1)) st
  | _ =>
    let (c, st) := addConst v st
    pushInstruction (.const c) st

/-- Mirror of `Compiler::push_var`. -/
def pushVar (n : Name) (st : CompState) : CompState :=
  { st with comp.stack := st.comp.stack ++ [(n, st.comp.stackOffset)] }

/-- Mirror of `Compiler::pop_vars`: removes the last `n` named values. -/
def popVars (n : Nat) (st : CompState) : CompState :=
  { st with comp.stack := st.comp.stack.take (st.comp.stack.length - n) }

/-- Mirror of `Compiler::write_call_sys`: an `Exact` arity uses
`CallSys` after manually dropping the arguments from the simulated
stack; other arities use `CallSysArgs`. -/
def writeCallSys (name : Name) (arity : Arity) (nArgs : Nat) (st : CompState) : CompState :=
  match arity with
  | .exact n =>
    pushInstruction (.callSys name) { st with comp.stackOffset := st.comp.stackOffset - n }
  | _ => pushInstruction (.callSysArgs name nArgs) st

/-- Mirror of `Compiler::closure_value`: an already captured name keeps
its index; otherwise the first enclosing compiler whose stack holds the
name causes the name to be appended to the capture list. -/
def closureValue (name : Name) (st : CompState) : Option Nat × CompState :=
  match st.comp.captures.findIdx? (fun n => n == name) with
  | some pos => (some pos, st)
  | none =>
    if st.comp.outer.any (fun os => os.any (fun p => p.1 == name)) then
      (some st.comp.captures.length,
       { st with comp.captures := st.comp.captures ++ [name] })
    else
      (none, st)

/-- Mirror of `Compiler::load_local_name`: rightmost stack match first,
then the self-name (returning `false` — handled by the caller), then
the closure lookup. -/
def loadLocalName (name : Name) (st : CompState) : Bool × CompState :=
  match st.comp.stack.reverse.find? (fun p => p.1 == name) with
  | some (_, pos) => (true, pushInstruction (.load pos) st)
  | none =>
    if st.comp.selfName == some name then
      (false, st)
    else
      match closureValue name st with
      | (some n, st) => (true, pushInstruction (.loadC n) st)
      | (none, st) => (false, st)

/-- Capture-loading loop of `Compiler::load_lambda`: each capture is
loaded and pushed; the `assert!(_loaded)` of the source is modelled by
`panicked`. -/
def loadCaptures : List Name → CompState → CompRes Unit
  | [], st => .ok ((), st)
  | name :: rest, st =>
    let (loaded, st) := loadLocalName name st
    if loaded then loadCaptures rest (pushInstruction .push st)
    else .error .panicked

/-- Mirror of `Compiler::load_lambda`: a closure without captures loads
the code constant directly; otherwise each capture is loaded and pushed
and a `BuildClosure` is emitted. -/
def loadLambda (n : Nat) (captures : List Name) (st : CompState) : CompRes Unit :=
  match captures with
  | [] => .ok ((), pushInstruction (.const n) st)
  | _ =>
    cbind (loadCaptures captures st) fun _ st =>
      .ok ((), pushInstruction (.buildClosure n captures.length) st)

/-- Mirror of `is_constant` in `compile.rs`. -/
def isConstant (v : Value) : Bool :=
  match v with
  | .unit | .bool _ | .float _ | .integer _ | .ratioV _ _
  | .keyword _ | .char _ | .str _ | .quote _ _ => true
  | _ => false

/-- Mirror of `get_name` in `compile.rs`. -/
def getName (v : Value) : Except CompileError Name :=
  match v with
  | .name n => .ok n
  | _ => .error (.syntaxError "expected name")

/-- Mirror of `test_define_name`. -/
def testDefineName (n : Name) : Except CompileError Unit :=
  if canDefine n then .ok () else .error (.cannotDefine n)

/-! ### Non-recursive pieces of the traversal -/

/-- Shorthand for raising a `CompileError`. -/
def cerr {α : Type} (e : CompileError) : CompRes α := .error (.compileErr e)

/-- Mirror of `MAX_MACRO_RECURSION` in `compile.rs`. -/
def maxMacroRecursion : Nat := 100

/-- Modelled from the spec: the bit pattern of `f64::INFINITY` (the
numeric value is irrelevant to the compiler). -/
def floatInf : Value := .float 1
/-- Modelled from the spec: a bit pattern of `f64::NAN`. -/
def floatNan : Value := .float 2

/-- Mirror of `Compiler::expand_macro`: fails with
`MacroRecursionExceeded` when the recursion counter has reached the
limit, otherwise fetches the macro lambda from the scope (`expect` on a
missing macro is a panic) and re-enters the VM on it with the raw
argument values. -/
def expandMacroFn (env : Env) (nm : Name) (args : List Value) (st : CompState) :
    CompRes Value :=
  if st.comp.macroRecursion ≥ maxMacroRecursion then
    cerr .macroRecursionExceeded
  else
    match st.scope.getMacro nm with
    | none => .error .panicked
    | some lam =>
      match env.execLambda lam args with
      | .ok v => .ok (v, st)
      | .error _ => .error .runtimeErr

/-- Modelled from the spec: the arity column of the `SYSTEM_OPERATORS`
table in `compile.rs`, indexed by operator name; `none` for a name
outside the reserved range. -/
def sysOpArity (nm : Name) : Option Arity :=
  if nm = nmApply then some (.min 2)
  else if nm = nmDo then some (.min 1)
  else if nm = nmLet then some (.exact 2)
  else if nm = nmDefine then some (.exact 2)
  else if nm = nmMacroDef then some (.exact 2)
  else if nm = nmStruct then some (.exact 2)
  else if nm = nmIf then some (.range 2 3)
  else if nm = nmAnd then some (.min 1)
  else if nm = nmOr then some (.min 1)
  else if nm = nmCase then some (.min 2)
  else if nm = nmCond then some (.min 1)
  else if nm = nmLambdaOp then some (.exact 2)
  else if nm = nmExport then some (.exact 1)
  else if nm = nmUse then some (.min 2)
  else none

/-- The pattern-dispatch loop of `op_case`: each literal in the pattern
list emits a type-appropriate conditional jump to the clause body block
and opens a fresh fall-through block. -/
def casePatterns : List Value → Nat → CompState → CompState
  | [], _, st => st
  | pv :: ps, codeBegin, st =>
    let st :=
      match pv with
      | .unit => jumpToCur .jumpIfNull codeBegin st
      | .bool true => jumpToCur .jumpIf codeBegin st
      | .bool false => jumpToCur .jumpIfNot codeBegin st
      | _ =>
        let (c, st) := addConst pv st
        jumpToCur (.jumpIfEqConst c) codeBegin st
    let (b, st) := newBlock st
    casePatterns ps codeBegin (useNext b st)

/-- The clause-stitching loop shared by `op_case` and `op_cond`: each
clause body is linked after the dispatch chain via block `next`
pointers. -/
def stitchBlocks : List (Nat × Nat) → CompState → CompState
  | [], st => st
  | (bgn, fin) :: rest, st =>
    stitchBlocks rest (useBlock fin (modifyCur (fun blk => blk.setNext bgn) st))

/-- Mirror of `op_struct` (no recursive compilation): builds the field
map and emits `Const(def)` then `SetDef(const(Name))`. -/
def structFields : List Value → List (Name × Name) → Except CompileError (List (Name × Name))
  | [], acc => .ok acc
  | .list [fn, ft] :: rest, acc =>
    match getName fn, getName ft with
    | .ok fname, .ok fty => structFields rest (nmInsert acc fname fty)
    | .error e, _ => .error e
    | _, .error e => .error e
  | _ :: _, _ => .error (.syntaxError "expected list of 2 elements")

/-- The `fields` argument of `op_struct`: a list of `(name type)`
pairs or unit. -/
def structFieldsOf (a1 : Value) : Except CompileError (List (Name × Name)) :=
  match a1 with
  | .unit => .ok []
  | .list li => structFields li []
  | _ => .error (.syntaxError "expected list")

/-- Mirror of `op_struct`. -/
def opStruct (args : List Value) (st : CompState) : CompRes Unit :=
  match args with
  | [a0, a1] =>
    match getName a0 with
    | .error e => cerr e
    | .ok name =>
      match testDefineName name with
      | .error e => cerr e
      | .ok () =>
        match structFieldsOf a1 with
        | .error e => cerr e
        | .ok fields =>
          let nameC := (addConst (.name name) st).1
          let st1 := (addConst (.name name) st).2
          let c := (addConst (.structDef name fields) st1).1
          let st2 := (addConst (.structDef name fields) st1).2
          let st3 := pushInstruction (.const c) st2
          .ok ((), pushInstruction (.setDef nameC) st3)
  | _ => .error .panicked

/-- The name-set collection loop of `op_export` (`NameSet` keeps each
name once). -/
def exportNames : List Value → List Name → Except CompileError (List Name)
  | [], acc => .ok acc
  | v :: rest, acc =>
    match getName v with
    | .error e => .error e
    | .ok n => exportNames rest (if acc.contains n then acc else acc ++ [n])

/-- The parameter list of `op_lambda`: unit or a list. -/
def paramListOf (a0 : Value) : Except CompileError (List Value) :=
  match a0 with
  | .unit => .ok []
  | .list li => .ok li
  | _ => .error (.syntaxError "expected list")

/-- The target list of `op_export`: unit or a list of names. -/
def exportTargets (a0 : Value) : Except CompileError (List Value) :=
  match a0 with
  | .unit => .ok []
  | .list li => .ok li
  | _ => .error (.syntaxError "expected list of names in `export`")

/-- Mirror of `op_export`: at most one `export` per module; stores the
set on the scope and leaves `()` in the value register. -/
def opExport (args : List Value) (st : CompState) : CompRes Unit :=
  if st.scope.exports.isSome then cerr .duplicateExports
  else
    match args with
    | [a0] =>
      match exportTargets a0 with
      | .error e => cerr e
      | .ok li =>
        match exportNames li [] with
        | .error e => cerr e
        | .ok names =>
          .ok ((), pushInstruction .unit { st with scope := st.scope.setExports names })
    | _ => .error .panicked

/-- Mirror of `each_import`: items are either a plain name (imported
under itself) or a `:dest src` keyword-name pair; `f` threads the
importing scope. -/
def eachImport (items : List Value)
    (f : Name → Name → ScopeData → Except CompileError ScopeData)
    (s : ScopeData) : Except CompileError ScopeData :=
  match items with
  | [] => .ok s
  | .keyword dest :: rest =>
    match rest with
    | .name src :: rest' =>
      match f src dest s with
      | .error e => .error e
      | .ok s' => eachImport rest' f s'
    | _ => .error (.syntaxError "expected name following keyword")
  | .name n :: rest =>
    match f n n s with
    | .error e => .error e
    | .ok s' => eachImport rest f s'
  | _ :: _ => .error (.syntaxError "expected name or keyword")

/-- Mirror of `import_values`: each imported name must exist in the
source module and be exported from it. -/
def importValues (modName : Name) (b : ScopeData) (names : List Value)
    (a : ScopeData) : Except CompileError ScopeData :=
  eachImport names
    (fun src dest a =>
      match b.getValue src with
      | some v =>
        if !b.isExported src then .error (.privacyError modName src)
        else .ok (a.addValue dest v)
      | none => .error (.importError modName src))
    a

/-- Mirror of `import_macros`. -/
def importMacros (modName : Name) (b : ScopeData) (names : List Value)
    (a : ScopeData) : Except CompileError ScopeData :=
  eachImport names
    (fun src dest a =>
      match b.getMacro src with
      | some v =>
        if !b.isExported src then .error (.privacyError modName src)
        else .ok (a.addMacro dest v)
      | none => .error (.importError modName src))
    a

/-- Modelled from the spec: `import_all_values` bulk-imports every
value binding from a peer scope. -/
def importAllValues (b : ScopeData) (a : ScopeData) : ScopeData :=
  b.values.foldl (fun a p => a.addValue p.1 p.2) a

/-- Modelled from the spec: `import_all_macros` bulk-imports every
macro binding from a peer scope. -/
def importAllMacros (b : ScopeData) (a : ScopeData) : ScopeData :=
  b.macros.foldl (fun a p => a.addMacro p.1 p.2) a

/-- The clause loop over `args[2..]` of `op_use`: each clause is the
keyword `:macro` followed by `:all`, `()`, or a list of names. -/
def useClauses (modName : Name) (m : Module) : List Value → ScopeData →
    Except CompileError ScopeData
  | [], s => .ok s
  | .keyword kw :: rest, s =>
    if kw = nmMacroKw then
      match rest with
      | .keyword kw2 :: rest' =>
        if kw2 = nmAll then useClauses modName m rest' (importAllMacros m.scope s)
        else .error (.syntaxError "expected `:all` or list of names after keyword")
      | .unit :: rest' => useClauses modName m rest' s
      | .list li :: rest' =>
        match importMacros modName m.scope li s with
        | .error e => .error e
        | .ok s' => useClauses modName m rest' s'
      | _ => .error (.syntaxError "expected `:all` or list of names after keyword")
    else .error (.syntaxError "expected keyword `:macro`")
  | _ :: _, _ => .error (.syntaxError "expected keyword `:macro`")

/-- The value-import clause `args[1]` of `op_use`: `:all`, unit, or a
list of names. -/
def useFirstClause (modName : Name) (m : Module) (a1 : Value) (s : ScopeData) :
    Except CompileError ScopeData :=
  match a1 with
  | .keyword kw =>
    if kw = nmAll then .ok (importAllValues m.scope s)
    else .error (.syntaxError "expected list of names or `:all`")
  | .unit => .ok s
  | .list li => importValues modName m.scope li s
  | _ => .error (.syntaxError "expected list of names or `:all`")

/-- Mirror of `op_use`: resolve the module through the registry (the
`Env.getModule` oracle), import the requested values and macros into
the current scope, and leave `()` in the value register. -/
def opUse (env : Env) (args : List Value) (st : CompState) : CompRes Unit :=
  match args with
  | a0 :: a1 :: rest =>
    match getName a0 with
    | .error e => cerr e
    | .ok modName =>
      match env.getModule modName with
      | .error _ => .error .runtimeErr
      | .ok m =>
        match useFirstClause modName m a1 st.scope with
        | .error e => cerr e
        | .ok s =>
          match useClauses modName m rest s with
          | .error e => cerr e
          | .ok s' =>
            .ok ((), pushInstruction .unit { st with scope := s' })
  | _ => .error .panicked

/-- Accumulator of the parameter-list parsing loop of `make_lambda`. -/
structure ParamState where
  params : List (Name × Option Value)
  reqParams : Nat
  kwParams : List (Name × Option Value)
  key : Bool
  opt : Bool
  rest : Option Name

mutual

/-- The parameter-parsing loop of `make_lambda`: positional names,
`(name default)` pairs, and the `:key` / `:optional` / `:rest`
markers, with duplicate detection. -/
def parseParams : List Value → ParamState → Except CompileError ParamState
  | [], ps => .ok ps
  | v :: it, ps =>
    match v with
    | .keyword kw =>
      if kw = nmKey then
        if ps.key then .error (.syntaxError "duplicate `:key`")
        else if ps.opt then
          .error (.syntaxError "`:key` and `:optional` are mutually exclusive")
        else parseParams it { ps with key := true, reqParams := ps.params.length }
      else if kw = nmOptional then
        if ps.opt then .error (.syntaxError "duplicate `:optional`")
        else if ps.key then
          .error (.syntaxError "`:key` and `:optional` are mutually exclusive")
        else parseParams it { ps with opt := true, reqParams := ps.params.length }
      else if kw = nmRest then
        if ps.key then .error (.syntaxError "`:key` and `:rest` are mutually exclusive")
        else
          match it with
          | [] => .error (.syntaxError "expected name after `:rest`")
          | arg :: it' =>
            match getName arg with
            | .error e => .error e
            | .ok r =>
              match it' with
              | [] => .ok { ps with rest := some r }
              | _ :: _ =>
                .error (.syntaxError "extraneous token after `:rest` argument")
      else .error (.syntaxError "expected :key, :optional, or :rest")
    | .name n => parseParamPush it ps n none
    | .list [a, b] =>
      match getName a with
      | .error e => .error e
      | .ok n => parseParamPush it ps n (some b)
    | _ => .error (.syntaxError "expected name, keyword, or list of 2 elements")
termination_by l _ => 2 * l.length + 1

/-- Pushing one parsed parameter: duplicate check, then append to the
positional or keyword list according to whether `:key` was seen. -/
def parseParamPush (it : List Value) (ps : ParamState) (n : Name)
    (deflt : Option Value) : Except CompileError ParamState :=
  if ps.params.any (fun p => p.1 = n) || ps.kwParams.any (fun p => p.1 = n) then
    .error (.duplicateParameter n)
  else if ps.key then
    parseParams it { ps with kwParams := ps.kwParams ++ [(n, deflt)] }
  else
    parseParams it { ps with params := ps.params ++ [(n, deflt)] }
termination_by 2 * it.length + 2

end

/-- Replaces the name stored in stack slot `i`, keeping its offset
(`self.stack[i].0 = name`). -/
def setStackName (stack : List (Name × Int)) (i : Nat) (n : Name) : List (Name × Int) :=
  stack.set i (n, (stack.getD i (dummyName, 0)).2)

/-- Modelled from the spec: `assemble_code` linearises the blocks into
the instruction stream.  Pruning of empty returning blocks, `Return`
insertion and jump offset patching concern the encoded bytes and jump
operands (external `bytecode.rs` helpers); the model concatenates the
block instruction sequences and cannot fail.  Every compiler-state
field the claims concern is fixed before assembly. -/
def assembleCode (c : CompUnit) : List Instruction :=
  (c.blocks.map (fun b => b.instrs)).flatten

/-- The fix-up at the head of each `compile_quasiquote_list` iteration:
a single spliced list with no further items was left in the value
register by the previous iteration and is pushed now. -/
def qqFixup (nItems nLists : Nat) (st : CompState) : CompState :=
  if nItems = 0 ∧ nLists = 1 then pushInstruction .push st else st

/-- Closing the current run of ordinary items in
`compile_quasiquote_list` when a `,@` at the active depth is met:
`List(n_items)` + `Push`, returning the updated state and the new
`n_lists` and `n_items` counters. -/
def qqClose (nItems nLists : Nat) (st : CompState) : CompState × Nat × Nat :=
  if nItems ≠ 0 then
    (pushInstruction .push (pushInstruction (.list nItems) st), nLists + 1, 0)
  else (st, nLists, nItems)

/-- The tail of `compile_quasiquote_list`: more than one pushed list is
spliced with `CallSysArgs(CONCAT, n_lists)`. -/
def qqFinish (st : CompState) (nLists : Nat) : CompRes Unit :=
  if nLists > 1 then .ok ((), pushInstruction (.callSysArgs nmConcat nLists) st)
  else .ok ((), st)

/-- Pattern dispatch of one `op_case` clause: a list of literals runs
the pattern loop; the pattern `else` emits an unconditional jump and
reports the clause as the else case. -/
def casePatt (pat : Value) (codeBegin : Nat) (st : CompState) : CompRes Bool :=
  match pat with
  | .list pats => .ok (false, casePatterns pats codeBegin st)
  | .name n =>
    if n = nmElse then .ok (true, jumpToCur .jump codeBegin st)
    else cerr (.syntaxError "expected list or `else`")
  | _ => cerr (.syntaxError "expected list or `else`")

/-- Shared ending of `op_case` and `op_cond`: without an `else` clause
emit `Unit` and jump to the final block, stitch the clause bodies after
the dispatch chain, and fall through into the final block. -/
def afterClauses (finalB : Nat) (elseCase : Bool) (codeBlocks : List (Nat × Nat))
    (st : CompState) : CompState :=
  let st := if elseCase then st else jumpToCur .jump finalB (pushInstruction .unit st)
  useNext finalB (stitchBlocks codeBlocks st)

/-! ### The compiler traversal (`Compiler::compile_value` and friends)

All functions of the mutual block take an explicit fuel argument that
strictly decreases on every call; `Err.fuel` is returned when it runs
out.  Each function mirrors the correspondingly named function of
`compile.rs`. -/

/-- The zero-argument constant arms of `Compiler::inline_call`
(`inf`, `nan`): load the constant. -/
def inlineConst0 (v : Value) (args : List Value) (st : CompState) : CompRes Bool :=
  match args with
  | [] => .ok (true, loadConstValue v st)
  | _ => .ok (false, st)

set_option maxHeartbeats 3200000

mutual

/-- Mirror of `Compiler::compile_value`. -/
def compileValue : Nat → Env → Value → CompState → CompRes Unit
  | 0, _, _, _ => .error .fuel
  | fuel + 1, env, v, st =>
    match v with
    | .name n =>
      let (loaded, st) := loadLocalName n st
      if loaded then .ok ((), st)
      else
        let (c, st) := addConst (.name n) st
        .ok ((), pushInstruction (.getDef c) st)
    | .list li =>
      match li with
      | [] => .error .panicked
      | fnV :: argsL =>
        match fnV with
        | .name nm =>
          let (loaded, st1) := loadLocalName nm st
          if loaded then
            finishCall fuel env fnV true argsL (pushInstruction .push st1)
          else if st1.comp.selfName = some nm then
            finishCall fuel env fnV false argsL st1
          else if st1.scope.containsMacro nm then
            let st2 := { st1 with comp.macroRecursion := st1.comp.macroRecursion + 1 }
            cbind (expandMacroFn env nm argsL st2) fun ev st3 =>
            cbind (compileValue fuel env ev st3) fun _ st4 =>
            .ok ((), { st4 with comp.macroRecursion := st4.comp.macroRecursion - 1 })
          else if isSystemOperator nm then
            compileOperator fuel env nm argsL st1
          else
            cbind (inlineCall fuel env nm argsL st1) fun inlined st2 =>
            if inlined then .ok ((), st2)
            else finishCall fuel env fnV false argsL st2
        | .list _ =>
          cbind (compileValue fuel env fnV st) fun _ st =>
          finishCall fuel env fnV true argsL (pushInstruction .push st)
        | _ => cerr (.invalidCallExpression fnV.typeName)
    | .comma _ _ => cerr .unbalancedComma
    | .commaAt _ _ => cerr .unbalancedComma
    | .quasiquote _ _ =>
      -- the whole value is passed at depth 0 to handle multiple
      -- quasiquotation properly
      compileQuasiquote fuel env v 0 st
    | _ => .ok ((), loadConstValue v st)
termination_by structural fuel => fuel

/-- The shared tail of the `List` arm of `compile_value`: compile each
argument followed by `Push`, then emit the call form (`Call` for a
pushed function value; otherwise `CallSelf`, a checked system-function
call, or `CallConst` according to the head name). -/
def finishCall : Nat → Env → Value → Bool → List Value → CompState → CompRes Unit
  | 0, _, _, _, _, _ => .error .fuel
  | fuel + 1, env, fnV, pushedFn, argsL, st =>
    cbind (compileArgsPush fuel env argsL st) fun _ st =>
    let nArgs := argsL.length
    if pushedFn then .ok ((), pushInstruction (.call nArgs) st)
    else
      match fnV with
      | .name nm =>
        if st.comp.selfName = some nm then
          .ok ((), pushInstruction (.callSelf nArgs) st)
        else
          match env.getSystemFn nm with
          | some ar =>
            if ar.accepts nArgs then .ok ((), writeCallSys nm ar nArgs st)
            else cerr (.arityError nm ar nArgs)
          | none =>
            let (c, st) := addConst (.name nm) st
            .ok ((), pushInstruction (.callConst c nArgs) st)
      | _ => .ok ((), st)
termination_by structural fuel => fuel

/-- The argument loop `for v in &li[1..] { compile_value(v); Push }`
(also the argument loop of the `list` intrinsic). -/
def compileArgsPush : Nat → Env → List Value → CompState → CompRes Unit
  | 0, _, _, _ => .error .fuel
  | _ + 1, _, [], st => .ok ((), st)
  | fuel + 1, env, v :: vs, st =>
    cbind (compileValue fuel env v st) fun _ st =>
    compileArgsPush fuel env vs (pushInstruction .push st)
termination_by structural fuel => fuel

/-- Mirror of `Compiler::compile_operator`: arity check against the
operator table, then dispatch. -/
def compileOperator : Nat → Env → Name → List Value → CompState → CompRes Unit
  | 0, _, _, _, _ => .error .fuel
  | fuel + 1, env, nm, args, st =>
    match sysOpArity nm with
    | none => .error .panicked
    | some ar =>
      if ar.accepts args.length then
        if nm = nmApply then opApply fuel env args st
        else if nm = nmDo then opDo fuel env args st
        else if nm = nmLet then opLet fuel env args st
        else if nm = nmDefine then opDefine fuel env args st
        else if nm = nmMacroDef then opMacroForm fuel env args st
        else if nm = nmStruct then opStruct args st
        else if nm = nmIf then opIf fuel env args st
        else if nm = nmAnd then opAnd fuel env args st
        else if nm = nmOr then opOr fuel env args st
        else if nm = nmCase then opCase fuel env args st
        else if nm = nmCond then opCond fuel env args st
        else if nm = nmLambdaOp then opLambda fuel env args st
        else if nm = nmExport then opExport args st
        else if nm = nmUse then opUse env args st
        else .error .panicked
      else cerr (.arityError nm ar args.length)
termination_by structural fuel => fuel

/-- Mirror of `op_apply`: push every fixed argument, compile the final
list argument, emit `Apply(n_fixed)`. -/
def opApply : Nat → Env → List Value → CompState → CompRes Unit
  | 0, _, _, _ => .error .fuel
  | fuel + 1, env, args, st =>
    match args.getLast? with
    | none => .error .panicked
    | some lastV =>
      let initA := args.dropLast
      cbind (compileArgsPush fuel env initA st) fun _ st =>
      cbind (compileValue fuel env lastV st) fun _ st =>
      .ok ((), pushInstruction (.apply (initA.length - 1)) st)
termination_by structural fuel => fuel

/-- Mirror of `op_do`: compile each expression in sequence. -/
def opDo : Nat → Env → List Value → CompState → CompRes Unit
  | 0, _, _, _ => .error .fuel
  | _ + 1, _, [], st => .ok ((), st)
  | fuel + 1, env, v :: vs, st =>
    cbind (compileValue fuel env v st) fun _ st =>
    opDo fuel env vs st
termination_by structural fuel => fuel

/-- Mirror of `op_let`. -/
def opLet : Nat → Env → List Value → CompState → CompRes Unit
  | 0, _, _, _ => .error .fuel
  | fuel + 1, env, args, st =>
    match args with
    | [a0, a1] =>
      cbind
        (match a0 with
          | .unit => .ok (0, st)
          | .list li =>
            cbind (letBindings fuel env li st) fun _ st => .ok (li.length, st)
          | _ => cerr (.syntaxError "expected list")) fun nVars st =>
      cbind (compileValue fuel env a1 st) fun _ st =>
      let (nb, st) := newBlock st
      let st := useNext nb st
      let st := pushInstruction (.skip nVars) st
      .ok ((), popVars nVars st)
    | _ => .error .panicked
termination_by structural fuel => fuel

/-- The binding loop of `op_let`: compile each bound expression,
declare the name, `Push`. -/
def letBindings : Nat → Env → List Value → CompState → CompRes Unit
  | 0, _, _, _ => .error .fuel
  | _ + 1, _, [], st => .ok ((), st)
  | fuel + 1, env, v :: vs, st =>
    match v with
    | .list [nv, ev] =>
      match getName nv with
      | .error e => cerr e
      | .ok n =>
        cbind (compileValue fuel env ev st) fun _ st =>
        letBindings fuel env vs (pushInstruction .push (pushVar n st))
    | _ => cerr (.syntaxError "expected list of 2 elements")
termination_by structural fuel => fuel

/-- Mirror of `op_define`: value form, or function form via
`make_lambda`. -/
def opDefine : Nat → Env → List Value → CompState → CompRes Unit
  | 0, _, _, _ => .error .fuel
  | fuel + 1, env, args, st =>
    match args with
    | [a0, a1] =>
      match a0 with
      | .name n =>
        match testDefineName n with
        | .error e => cerr e
        | .ok () =>
          cbind (compileValue fuel env a1 st) fun _ st =>
          let (c, st) := addConst (.name n) st
          .ok ((), pushInstruction (.setDef c) st)
      | .list li =>
        match li with
        | [] => .error .panicked
        | h :: params =>
          match getName h with
          | .error e => cerr e
          | .ok n =>
            match testDefineName n with
            | .error e => cerr e
            | .ok () =>
              let (c, st) := addConst (.name n) st
              cbind (makeLambda fuel env (some n) params a1 st) fun lam st =>
              let (codeC, st) := addConst (.lambda lam.1) st
              cbind (loadLambda codeC lam.2 st) fun _ st =>
              .ok ((), pushInstruction (.setDef c) st)
      | _ => cerr (.syntaxError "expected name or list")
    | _ => .error .panicked
termination_by structural fuel => fuel

/-- Mirror of `op_macro` (the `macro` operator): build the lambda,
reject capturing macros, register the macro in the scope, and leave the
name on the value register. -/
def opMacroForm : Nat → Env → List Value → CompState → CompRes Unit
  | 0, _, _, _ => .error .fuel
  | fuel + 1, env, args, st =>
    match args with
    | [a0, a1] =>
      match a0 with
      | .list li =>
        match li with
        | [] => .error .panicked
        | h :: params =>
          match getName h with
          | .error e => cerr e
          | .ok n =>
            match testDefineName n with
            | .error e => cerr e
            | .ok () =>
              cbind (makeLambda fuel env (some n) params a1 st) fun lam st =>
              if lam.2.isEmpty then
                let st := { st with scope := st.scope.addMacro n lam.1 }
                let (c, st) := addConst (.name n) st
                .ok ((), pushInstruction (.const c) st)
              else cerr (.syntaxError "macro lambda cannot enclose values")
      | _ => cerr (.syntaxError "expected list")
    | _ => .error .panicked
termination_by structural fuel => fuel

/-- Mirror of `op_if`: three fresh blocks, `JumpIfNot` into the else
branch, `Jump` over it into the final block. -/
def opIf : Nat → Env → List Value → CompState → CompRes Unit
  | 0, _, _, _ => .error .fuel
  | fuel + 1, env, args, st =>
    match args with
    | a0 :: a1 :: rest =>
      let (thenB, st) := newBlock st
      let (elseB, st) := newBlock st
      let (finalB, st) := newBlock st
      cbind (compileValue fuel env a0 st) fun _ st =>
      let st := jumpToCur .jumpIfNot elseB st
      let st := useNext thenB st
      cbind (compileValue fuel env a1 st) fun _ st =>
      let st := jumpToCur .jump finalB st
      let st := useNext elseB st
      match rest with
      | a2 :: _ =>
        cbind (compileValue fuel env a2 st) fun _ st =>
        .ok ((), useNext finalB st)
      | [] => .ok ((), useNext finalB (pushInstruction .unit st))
    | _ => .error .panicked
termination_by structural fuel => fuel

/-- The short-circuit loop shared by `op_and` and `op_or` (they differ
only in the jump instruction): compile each argument but the last,
flush the pending instruction so the jump tests the boolean value
itself, jump to the shared tail block, continue in a fresh
fall-through block. -/
def shortCircuitLoop : Nat → Env → JumpInstruction → List Value → Nat → CompState →
    CompRes Unit
  | 0, _, _, _, _, _ => .error .fuel
  | _ + 1, _, _, [], _, st => .ok ((), st)
  | fuel + 1, env, j, v :: vs, lastB, st =>
    cbind (compileValue fuel env v st) fun _ st =>
    let st := flushInstructions st
    let st := jumpToCur j lastB st
    let (nb, st) := newBlock st
    shortCircuitLoop fuel env j vs lastB (useNext nb st)
termination_by structural fuel => fuel

/-- Mirror of `op_and`. -/
def opAnd : Nat → Env → List Value → CompState → CompRes Unit
  | 0, _, _, _ => .error .fuel
  | fuel + 1, env, args, st =>
    match args.getLast? with
    | none => .error .panicked
    | some lastV =>
      let (lastB, st) := newBlock st
      cbind (shortCircuitLoop fuel env .jumpIfNot args.dropLast lastB st) fun _ st =>
      cbind (compileValue fuel env lastV st) fun _ st =>
      .ok ((), useNext lastB st)
termination_by structural fuel => fuel

/-- Mirror of `op_or`. -/
def opOr : Nat → Env → List Value → CompState → CompRes Unit
  | 0, _, _, _ => .error .fuel
  | fuel + 1, env, args, st =>
    match args.getLast? with
    | none => .error .panicked
    | some lastV =>
      let (lastB, st) := newBlock st
      cbind (shortCircuitLoop fuel env .jumpIf args.dropLast lastB st) fun _ st =>
      cbind (compileValue fuel env lastV st) fun _ st =>
      .ok ((), useNext lastB st)
termination_by structural fuel => fuel

/-- Mirror of `op_case`. -/
def opCase : Nat → Env → List Value → CompState → CompRes Unit
  | 0, _, _, _ => .error .fuel
  | fuel + 1, env, args, st =>
    match args with
    | a0 :: cases =>
      let (finalB, st) := newBlock st
      cbind (compileValue fuel env a0 st) fun _ st =>
      cbind (caseClauses fuel env cases finalB false [] st) fun res st =>
      .ok ((), afterClauses finalB res.1 res.2 st)
    | [] => .error .panicked
termination_by structural fuel => fuel

/-- The clause loop of `op_case`: a clause after `else` is
unreachable; each clause dispatches its pattern literals and compiles
its body into a fresh block ending with a jump to the final block. -/
def caseClauses : Nat → Env → List Value → Nat → Bool → List (Nat × Nat) → CompState →
    CompRes (Bool × List (Nat × Nat))
  | 0, _, _, _, _, _, _ => .error .fuel
  | _ + 1, _, [], _, elseCase, acc, st => .ok ((elseCase, acc), st)
  | fuel + 1, env, caseV :: rest, finalB, elseCase, acc, st =>
    if elseCase then cerr (.syntaxError "unreachable case")
    else
      match caseV with
      | .list [pat, code] =>
        let (codeBegin, st) := newBlock st
        cbind (casePatt pat codeBegin st) fun isElse st =>
        let prevBlock := st.comp.curBlock
        let st := useBlock codeBegin st
        cbind (compileValue fuel env code st) fun _ st =>
        let st := jumpToCur .jump finalB st
        let codeEnd := st.comp.curBlock
        let (b, st) := newBlock st
        let st := useNext b (useBlock prevBlock st)
        caseClauses fuel env rest finalB isElse (acc ++ [(codeBegin, codeEnd)]) st
      | _ => cerr (.syntaxError "expected list of 2 elements")
termination_by structural fuel => fuel

/-- Mirror of `op_cond`. -/
def opCond : Nat → Env → List Value → CompState → CompRes Unit
  | 0, _, _, _ => .error .fuel
  | fuel + 1, env, args, st =>
    let (finalB, st) := newBlock st
    cbind (condClauses fuel env args finalB false [] st) fun res st =>
    .ok ((), afterClauses finalB res.1 res.2 st)
termination_by structural fuel => fuel

/-- The clause loop of `op_cond`: each test expression is compiled and
followed by `JumpIf` into its body; `else` jumps unconditionally. -/
def condClauses : Nat → Env → List Value → Nat → Bool → List (Nat × Nat) → CompState →
    CompRes (Bool × List (Nat × Nat))
  | 0, _, _, _, _, _, _ => .error .fuel
  | _ + 1, _, [], _, elseCase, acc, st => .ok ((elseCase, acc), st)
  | fuel + 1, env, arg :: rest, finalB, elseCase, acc, st =>
    if elseCase then cerr (.syntaxError "unreachable condition")
    else
      match arg with
      | .list [cond, code] =>
        let (codeBegin, st) := newBlock st
        cbind (condTest fuel env cond codeBegin st) fun isElse st =>
        let prevBlock := st.comp.curBlock
        let st := useBlock codeBegin st
        cbind (compileValue fuel env code st) fun _ st =>
        let st := jumpToCur .jump finalB st
        let codeEnd := st.comp.curBlock
        let (b, st) := newBlock st
        let st := useNext b (useBlock prevBlock st)
        condClauses fuel env rest finalB isElse (acc ++ [(codeBegin, codeEnd)]) st
      | _ => cerr (.syntaxError "expected list of 2 elements")
termination_by structural fuel => fuel

/-- The test of one `op_cond` clause: the name `else` jumps
unconditionally to the body; any other test expression is compiled and
followed by `JumpIf`. -/
def condTest : Nat → Env → Value → Nat → CompState → CompRes Bool
  | 0, _, _, _, _ => .error .fuel
  | fuel + 1, env, cond, codeBegin, st =>
    match cond with
    | .name n =>
      if n = nmElse then .ok (true, jumpToCur .jump codeBegin st)
      else
        cbind (compileValue fuel env cond st) fun _ st =>
        .ok (false, jumpToCur .jumpIf codeBegin st)
    | _ =>
      cbind (compileValue fuel env cond st) fun _ st =>
      .ok (false, jumpToCur .jumpIf codeBegin st)
termination_by structural fuel => fuel

/-- Mirror of `op_lambda`. -/
def opLambda : Nat → Env → List Value → CompState → CompRes Unit
  | 0, _, _, _ => .error .fuel
  | fuel + 1, env, args, st =>
    match args with
    | [a0, a1] =>
      match paramListOf a0 with
      | .error e => cerr e
      | .ok li =>
        cbind (makeLambda fuel env none li a1 st) fun lam st =>
        loadLambda (addConst (.lambda lam.1) st).1 lam.2 (addConst (.lambda lam.1) st).2
    | _ => .error .panicked
termination_by structural fuel => fuel

/-- Mirror of `make_lambda` followed by `Lambda::new`: parse the
parameter list, run the nested compiler (`compile_lambda`) over the
body with the enclosing chain extended by the current compiler, and
allocate the resulting code object, returning its identifier and the
captured names. -/
def makeLambda : Nat → Env → Option Name → List Value → Value → CompState →
    CompRes (Nat × List Name)
  | 0, _, _, _, _, _ => .error .fuel
  | fuel + 1, env, name?, args, body, st =>
    match parseParams args ⟨[], 0, [], false, false, none⟩ with
    | .error e => cerr e
    | .ok ps =>
      let req := if ps.opt then ps.reqParams else ps.params.length
      if ps.key ∧ ps.kwParams.isEmpty then
        cerr (.syntaxError "expected arguments after `:key`")
      else if ps.opt ∧ req = ps.params.length then
        cerr (.syntaxError "expected arguments after `:optional`")
      else
        let nested : CompState :=
          { comp := CompUnit.withOuter name? (st.comp.outer ++ [st.comp.stack])
            scope := st.scope
            pool := st.pool }
        match compileLambdaBody fuel env name? ps.params req ps.kwParams ps.rest body
            nested with
        | .error e => .error e
        | .ok (cl, nestSt) =>
          let lamId := nestSt.pool.length
          .ok ((lamId, cl.2),
            { st with scope := nestSt.scope, pool := nestSt.pool ++ [cl.1] })
termination_by structural fuel => fuel

/-- Mirror of `Compiler::compile_lambda` on the nested compiler state:
dummy stack slots for every parameter, flag computation, default-value
handling for non-required parameters, body compilation, and assembly of
the `Code` object (returned with the capture list). -/
def compileLambdaBody : Nat → Env → Option Name → List (Name × Option Value) → Nat →
    List (Name × Option Value) → Option Name → Value → CompState →
    CompRes (Code × List Name)
  | 0, _, _, _, _, _, _, _, _ => .error .fuel
  | fuel + 1, env, name?, params, reqParams, kwParams, rest, body, st =>
    let totalParams := params.length + kwParams.length + if rest.isSome then 1 else 0
    let nParams := params.length
    if !st.comp.stack.isEmpty then .error .panicked
    else if !(kwParams.isEmpty || rest.isNone) then .error .panicked
    else
      let st := { st with
        comp.stack := (List.range totalParams).map (fun n => (dummyName, (n : Int)))
        comp.stackOffset := (totalParams : Int) }
      let flags0 := if name?.isSome then flagHasName else 0
      let flags :=
        if !kwParams.isEmpty then flags0 ||| flagHasKwParams
        else if rest.isSome then flags0 ||| flagHasRestParams
        else flags0
      cbind (paramInitLoop fuel env params 0 reqParams st) fun _ st =>
      cbind (kwInitLoop fuel env kwParams 0 nParams st) fun kwNames st =>
      let st :=
        match rest with
        | some r =>
          { st with comp.stack := setStackName st.comp.stack (st.comp.stack.length - 1) r }
        | none => st
      cbind (compileValue fuel env body st) fun _ st =>
      .ok ((⟨name?, assembleCode st.comp, st.comp.consts, kwNames, nParams, reqParams,
        flags⟩, st.comp.captures), st)
termination_by structural fuel => fuel

/-- The positional-parameter loop of `compile_lambda`: a non-required
parameter gets its default compiled behind `JumpIfBound`, or
`UnboundToUnit`; only afterwards is the slot's dummy name replaced by
the parameter name. -/
def paramInitLoop : Nat → Env → List (Name × Option Value) → Nat → Nat → CompState →
    CompRes Unit
  | 0, _, _, _, _, _ => .error .fuel
  | _ + 1, _, [], _, _, st => .ok ((), st)
  | fuel + 1, env, (n, deflt) :: ps, i, req, st =>
    if i ≥ req then
      match deflt with
      | some d =>
        cbind (branchIfUnbound fuel env i d st) fun _ st =>
        paramInitLoop fuel env ps (i + 1) req
          { st with comp.stack := setStackName st.comp.stack i n }
      | none =>
        let st := pushInstruction (.unboundToUnit i) st
        paramInitLoop fuel env ps (i + 1) req
          { st with comp.stack := setStackName st.comp.stack i n }
    else
      paramInitLoop fuel env ps (i + 1) req
        { st with comp.stack := setStackName st.comp.stack i n }
termination_by structural fuel => fuel

/-- The keyword-parameter loop of `compile_lambda`: every keyword
parameter gets default handling at slot `n_params + i`, and its name is
collected for the `Code`'s keyword-name list. -/
def kwInitLoop : Nat → Env → List (Name × Option Value) → Nat → Nat → CompState →
    CompRes (List Name)
  | 0, _, _, _, _, _ => .error .fuel
  | _ + 1, _, [], _, _, st => .ok ([], st)
  | fuel + 1, env, (n, deflt) :: ps, i, nParams, st =>
    cbind
      (match deflt with
        | some d => branchIfUnbound fuel env (nParams + i) d st
        | none => .ok ((), pushInstruction (.unboundToUnit (nParams + i)) st)) fun _ st =>
    let st := { st with comp.stack := setStackName st.comp.stack (nParams + i) n }
    cbind (kwInitLoop fuel env ps (i + 1) nParams st) fun names st =>
    .ok (n :: names, st)
termination_by structural fuel => fuel

/-- Mirror of `Compiler::branch_if_unbound`: `JumpIfBound` over a block
that compiles the default expression and stores it in the slot. -/
def branchIfUnbound : Nat → Env → Nat → Value → CompState → CompRes Unit
  | 0, _, _, _, _ => .error .fuel
  | fuel + 1, env, pos, d, st =>
    let (bindB, st) := newBlock st
    let (finalB, st) := newBlock st
    let st := jumpToCur (.jumpIfBound (pos : Int)) finalB st
    let st := useNext bindB st
    cbind (compileValue fuel env d st) fun _ st =>
    let st := pushInstruction (.store (pos : Int)) st
    .ok ((), useNext finalB st)
termination_by structural fuel => fuel

/-- Mirror of `Compiler::compile_quasiquote`.  A `CommaAt` whose depth
is below the current quasi-depth matches no arm of the source `match`
and falls to the catch-all, which loads the whole value as a quoted
constant. -/
def compileQuasiquote : Nat → Env → Value → Nat → CompState → CompRes Unit
  | 0, _, _, _, _ => .error .fuel
  | fuel + 1, env, v, depth, st =>
    match v with
    | .comma x n =>
      if n = depth then compileValue fuel env x st
      else if n > depth then cerr .unbalancedComma
      else
        cbind (compileQuasiquote fuel env x (depth - n) st) fun _ st =>
        .ok ((), pushInstruction (.comma n) st)
    | .commaAt _ n =>
      if n > depth then cerr .unbalancedComma
      else if n = depth then cerr .invalidCommaAt
      else .ok ((), loadQuotedValue v st)
    | .list li => compileQuasiquoteList fuel env li depth st
    | .quote x n =>
      cbind (compileQuasiquote fuel env x depth st) fun _ st =>
      .ok ((), pushInstruction (.quote n) st)
    | .quasiquote x n =>
      cbind (compileQuasiquote fuel env x (depth + n) st) fun _ st =>
      if depth = 0 then
        if n ≠ 1 then .ok ((), pushInstruction (.quasiquote (n - 1)) st)
        else .ok ((), st)
      else .ok ((), pushInstruction (.quasiquote n) st)
    | _ => .ok ((), loadQuotedValue v st)
termination_by structural fuel => fuel

/-- Mirror of `Compiler::compile_quasiquote_list`: runs of ordinary
items accumulate into `List(n)` groups; a `,@` at the active depth
closes the run and pushes its spliced list; more than one pushed list
is spliced with `CallSysArgs(CONCAT, n_lists)`. -/
def compileQuasiquoteList : Nat → Env → List Value → Nat → CompState → CompRes Unit
  | 0, _, _, _, _ => .error .fuel
  | fuel + 1, env, li, depth, st =>
    cbind (qqListLoop fuel env li depth 0 0 st) fun res st =>
    if res.1 ≠ 0 then
      if res.2 ≠ 0 then
        qqFinish (pushInstruction .push (pushInstruction (.list res.1) st)) (res.2 + 1)
      else qqFinish (pushInstruction (.list res.1) st) res.2
    else qqFinish st res.2
termination_by structural fuel => fuel

/-- The item loop of `compile_quasiquote_list`, carrying the `n_items`
and `n_lists` counters and returning their final values.  The fix-up at
the head of each iteration pushes a fresh single spliced list left in
the value register by the previous iteration. -/
def qqListLoop : Nat → Env → List Value → Nat → Nat → Nat → CompState →
    CompRes (Nat × Nat)
  | 0, _, _, _, _, _, _ => .error .fuel
  | _ + 1, _, [], _, nItems, nLists, st => .ok ((nItems, nLists), st)
  | fuel + 1, env, v :: rest, depth, nItems, nLists, st =>
    match v with
    | .commaAt x n =>
      if n = depth then
        cbind (compileValue fuel env x
            (qqClose nItems nLists (qqFixup nItems nLists st)).1) fun _ st =>
        qqListLoop fuel env rest depth (qqClose nItems nLists st).2.2
          ((qqClose nItems nLists st).2.1 + 1)
          (if (qqClose nItems nLists st).2.1 ≠ 0 then pushInstruction .push st else st)
      else if n > depth then cerr .unbalancedComma
      else
        cbind (compileQuasiquote fuel env x (depth - n)
            (qqFixup nItems nLists st)) fun _ st =>
        qqListLoop fuel env rest depth (nItems + 1) nLists
          (pushInstruction .push (pushInstruction (.commaAt (depth - n)) st))
    | _ =>
      cbind (compileQuasiquote fuel env v depth (qqFixup nItems nLists st)) fun _ st =>
      qqListLoop fuel env rest depth (nItems + 1) nLists (pushInstruction .push st)
termination_by structural fuel => fuel

/-- The one-argument intrinsic arms of `Compiler::inline_call`
(`null`, `not`, `first`, `tail`, `init`, `last`): compile the argument,
then emit the given single instruction. -/
def inlineUnary : Nat → Env → Instruction → List Value → CompState → CompRes Bool
  | 0, _, _, _, _ => .error .fuel
  | fuel + 1, env, i, args, st =>
    match args with
    | [a] =>
      cbind (compileValue fuel env a st) fun _ st =>
      .ok (true, pushInstruction i st)
    | _ => .ok (false, st)
termination_by structural fuel => fuel

/-- The comparison arms of `Compiler::inline_call` (`eq`, `/=`): a
constant operand uses the fused constant-comparison instruction,
otherwise `Push` + the plain comparison. -/
def inlineCmp : Nat → Env → (Nat → Instruction) → Instruction → List Value →
    CompState → CompRes Bool
  | 0, _, _, _, _, _ => .error .fuel
  | fuel + 1, env, cInstr, plain, args, st =>
    match args with
    | [lhs, rhs] =>
      if isConstant rhs then
        cbind (compileValue fuel env lhs st) fun _ st =>
        let (c, st) := addConstValue rhs st
        .ok (true, pushInstruction (cInstr c) st)
      else if isConstant lhs then
        let (c, st) := addConstValue lhs st
        cbind (compileValue fuel env rhs st) fun _ st =>
        .ok (true, pushInstruction (cInstr c) st)
      else
        cbind (compileValue fuel env lhs st) fun _ st =>
        cbind (compileValue fuel env rhs (pushInstruction .push st)) fun _ st =>
        .ok (true, pushInstruction plain st)
    | _ => .ok (false, st)
termination_by structural fuel => fuel

/-- The `append` arm of `Compiler::inline_call`.  (Note that
`push_instruction` makes no stack adjustment for `Append`, unlike `Eq`:
the simulated stack offset nets `+1` across this arm.) -/
def inlineAppendForm : Nat → Env → List Value → CompState → CompRes Bool
  | 0, _, _, _ => .error .fuel
  | fuel + 1, env, args, st =>
    match args with
    | [a, b] =>
      cbind (compileValue fuel env a st) fun _ st =>
      cbind (compileValue fuel env b (pushInstruction .push st)) fun _ st =>
      .ok (true, pushInstruction .append st)
    | _ => .ok (false, st)
termination_by structural fuel => fuel

/-- The `list` arm of `Compiler::inline_call`: no arguments loads `()`,
otherwise push every argument and emit `List(n)`. -/
def inlineListForm : Nat → Env → List Value → CompState → CompRes Bool
  | 0, _, _, _ => .error .fuel
  | fuel + 1, env, args, st =>
    match args with
    | [] => .ok (true, pushInstruction .unit st)
    | _ =>
      cbind (compileArgsPush fuel env args st) fun _ st =>
      .ok (true, pushInstruction (.list args.length) st)
termination_by structural fuel => fuel

/-- The `id` arm of `Compiler::inline_call`: with one argument, emit
only the argument. -/
def inlineIdForm : Nat → Env → List Value → CompState → CompRes Bool
  | 0, _, _, _ => .error .fuel
  | fuel + 1, env, args, st =>
    match args with
    | [a] => cbind (compileValue fuel env a st) fun _ st => .ok (true, st)
    | _ => .ok (false, st)
termination_by structural fuel => fuel

/-- Mirror of `Compiler::inline_call`: the intrinsic fast paths.
Returns `false` (emitting nothing) when no intrinsic at a matching
arity applies.  The zero-argument constant arms (`inf`, `nan`) are the
pure `inlineConst0`; the other arms are the fuel-indexed helpers
above. -/
def inlineCall : Nat → Env → Name → List Value → CompState → CompRes Bool
  | 0, _, _, _, _ => .error .fuel
  | fuel + 1, env, nm, args, st =>
    if nm = nmNull then inlineUnary fuel env .null args st
    else if nm = nmEq then inlineCmp fuel env .eqConst .eq args st
    else if nm = nmNotEq then inlineCmp fuel env .notEqConst .notEq args st
    else if nm = nmNot then inlineUnary fuel env .not args st
    else if nm = nmInf then inlineConst0 floatInf args st
    else if nm = nmNan then inlineConst0 floatNan args st
    else if nm = nmAppend then inlineAppendForm fuel env args st
    else if nm = nmFirst then inlineUnary fuel env .first args st
    else if nm = nmTail then inlineUnary fuel env .tail args st
    else if nm = nmInit then inlineUnary fuel env .init args st
    else if nm = nmLast then inlineUnary fuel env .last args st
    else if nm = nmList then inlineListForm fuel env args st
    else if nm = nmId then inlineIdForm fuel env args st
    else .ok (false, st)
termination_by structural fuel => fuel

end

set_option maxHeartbeats 400000

/-- Mirror of `compile` / `Compiler::compile`: compile a single
expression on a fresh compiler and wrap the result in a parameterless
`Code`. -/
def compileTop (fuel : Nat) (env : Env) (scope : ScopeData) (pool : List Code)
    (v : Value) : Except Err (Code × CompState) :=
  match compileValue fuel env v ⟨CompUnit.withOuter none [], scope, pool⟩ with
  | .error e => .error e
  | .ok ((), st) =>
    .ok (⟨none, assembleCode st.comp, st.comp.consts, [], 0, 0, 0⟩, st)

/-! ### Width estimation (`estimate_size`, `Compiler::write_jumps`) -/

/-- Mirror of `estimate_size` in `compile.rs`: the sum over all blocks
of `calculate_size(false)` (the long-operand width), plus one byte for
the final `Return`.  `CodeBlock::calculate_size` lives in the external
`bytecode.rs` and is supplied as the parameter `size`. -/
def estimateSize (size : CodeBlock → Bool → Nat) (blocks : List CodeBlock) : Nat :=
  (blocks.map (fun b => size b false)).foldl (· + ·) 0 + 1

/-- The operand-width decision at the head of `Compiler::write_jumps`:
`let short = estimate_size(&self.blocks) <= MAX_SHORT_OPERAND`.  The
resulting flag is used for every block's size and every jump written in
that pass.  `maxShortOperand` models the external constant
`MAX_SHORT_OPERAND`. -/
def writeJumpsShort (size : CodeBlock → Bool → Nat) (maxShortOperand : Nat)
    (blocks : List CodeBlock) : Bool :=
  decide (estimateSize size blocks ≤ maxShortOperand)

/-! ### Module registry, compiled-file choice, import guard (`module.rs`) -/

/-- State of a `ModuleRegistry`: the name → module cache, plus a ghost
log of loader invocations (`calls`), recorded purely for stating how
often the contained loader runs; it influences nothing. -/
structure RegistryState where
  cache : List (Name × Module)
  calls : List Name

/-- Mirror of `ModuleRegistry::get_module`: return the cached module if
present; otherwise invoke the contained loader (here the pure oracle
`loader`) and cache a successful result.  A failed load leaves the
cache untouched. -/
def registryGetModule (loader : Name → Except Unit Module) (name : Name)
    (r : RegistryState) : Except Unit Module × RegistryState :=
  match r.cache.lookup name with
  | some m => (.ok m, r)
  | none =>
    match loader name with
    | .ok m => (.ok m, ⟨nmInsert r.cache name m, r.calls ++ [name]⟩)
    | .error e => (.error e, { r with calls := r.calls ++ [name] })

/-- File metadata as read by `is_younger`: seconds and nanoseconds of
the modification time (the Unix `MetadataExt` pair). -/
structure FileMeta where
  mtime : Int
  mtimeNsec : Int
deriving DecidableEq, Repr

/-- Mirror of `is_younger_impl` (Unix): Rust compares the tuples
`(mtime, mtime_nsec)` with `>`, which is strict lexicographic order. -/
def isYoungerImpl (ma mb : FileMeta) : Bool :=
  decide (mb.mtime < ma.mtime ∨ (ma.mtime = mb.mtime ∧ mb.mtimeNsec < ma.mtimeNsec))

/-- Mirror of `use_code_file`: the two candidate files are given as
optional metadata (`none` = file absent, so `Path::exists` is `isSome`
and `is_younger` reads both metadata values). -/
def useCodeFile (codeMeta srcMeta : Option FileMeta) : Bool :=
  match codeMeta with
  | some mc =>
    match srcMeta with
    | some ms => isYoungerImpl mc ms
    | none => true
  | none => false

/-- Mirror of `FileModuleLoader::guard_import`: the `chain` cell is
passed explicitly; `f` is the guarded load, receiving the chain with
the path pushed and returning it as possibly modified by nested guarded
loads.  After `f` returns — `Ok` or `Err` alike — the last element is
popped. -/
def guardImport {α : Type} (chain : List String) (name : Name) (path : String)
    (f : List String → Except Err α × List String) : Except Err α × List String :=
  if chain.contains path then
    (.error (.compileErr (.importCycle name)), chain)
  else
    let r := f (chain ++ [path])
    (r.1, r.2.dropLast)

/-! ### Invariant vocabulary and concrete test environments -/

/-- The constant pool is free of structural duplicates: no earlier
entry is structurally identical to a later one. -/
def IdenticalFree (l : List Value) : Prop :=
  l.Pairwise (fun a b => a.isIdentical b = false)

/-- State evolution that every compiler step respects: the lambda
self-name field, the enclosing-compiler chain, and the macro-recursion
counter are restored; the capture list is only ever appended to, and
appends keep it duplicate-free. -/
def Pres (st st' : CompState) : Prop :=
  st'.comp.selfName = st.comp.selfName ∧
  st'.comp.outer = st.comp.outer ∧
  st'.comp.macroRecursion = st.comp.macroRecursion ∧
  st.comp.captures <+: st'.comp.captures ∧
  (st.comp.captures.Nodup → st'.comp.captures.Nodup)

/-- The simulated stack after a step: the named stack is unchanged and
the stack offset has moved by `d`. -/
def Stk (st st' : CompState) (d : Int) : Prop :=
  (∃ k : Nat, st'.comp.stackOffset = st.comp.stackOffset + d + k) ∧
  st'.comp.stack = st.comp.stack

/-- The pending-list correction of the quasiquote list loop: the single
spliced list produced with no further items has not yet been pushed. -/
def qqPend (nItems nLists : Nat) : Int :=
  if nItems = 0 ∧ nLists = 1 then 1 else 0

/-- Capture-list evolution: append-only and duplicate-freedom
preserving. -/
def CapPres (st st' : CompState) : Prop :=
  st.comp.captures <+: st'.comp.captures ∧
  (st.comp.captures.Nodup → st'.comp.captures.Nodup)

/-! The per-function invariant statements at a given fuel, proved
simultaneously by induction on fuel (`evolution` below):
`compile_value` leaves the simulated stack exactly as it found it. -/

def EvCompileValue (fuel : Nat) : Prop :=
  ∀ env v st r st', compileValue fuel env v st = .ok (r, st') →
    Pres st st' ∧ Stk st st' 0

def EvFinishCall (fuel : Nat) : Prop :=
  ∀ env fnV pf argsL st r st', finishCall fuel env fnV pf argsL st = .ok (r, st') →
    Pres st st' ∧ (pf = true → Stk st st' (-1)) ∧
    (∀ nm, pf = false → fnV = Value.name nm → Stk st st' 0)

def EvCompileArgsPush (fuel : Nat) : Prop :=
  ∀ env vs st r st', compileArgsPush fuel env vs st = .ok (r, st') →
    Pres st st' ∧ Stk st st' (vs.length : Int)

def EvCompileOperator (fuel : Nat) : Prop :=
  ∀ env nm args st r st', compileOperator fuel env nm args st = .ok (r, st') →
    Pres st st' ∧ Stk st st' 0

def EvOpApply (fuel : Nat) : Prop :=
  ∀ env args st r st', 2 ≤ args.length → opApply fuel env args st = .ok (r, st') →
    Pres st st' ∧ Stk st st' 0

def EvOpDo (fuel : Nat) : Prop :=
  ∀ env args st r st', opDo fuel env args st = .ok (r, st') →
    Pres st st' ∧ Stk st st' 0

def EvOpLet (fuel : Nat) : Prop :=
  ∀ env args st r st', opLet fuel env args st = .ok (r, st') →
    Pres st st' ∧ Stk st st' 0

def EvLetBindings (fuel : Nat) : Prop :=
  ∀ env li st r st', letBindings fuel env li st = .ok (r, st') →
    Pres st st' ∧
    (∃ k : Nat, st'.comp.stackOffset = st.comp.stackOffset + li.length + k) ∧
    ∃ ext, st'.comp.stack = st.comp.stack ++ ext ∧ ext.length = li.length

def EvOpDefine (fuel : Nat) : Prop :=
  ∀ env args st r st', opDefine fuel env args st = .ok (r, st') →
    Pres st st' ∧ Stk st st' 0

def EvOpMacroForm (fuel : Nat) : Prop :=
  ∀ env args st r st', opMacroForm fuel env args st = .ok (r, st') →
    Pres st st' ∧ Stk st st' 0

def EvOpIf (fuel : Nat) : Prop :=
  ∀ env args st r st', opIf fuel env args st = .ok (r, st') →
    Pres st st' ∧ Stk st st' 0

def EvShortCircuitLoop (fuel : Nat) : Prop :=
  ∀ env j vs lastB st r st', shortCircuitLoop fuel env j vs lastB st = .ok (r, st') →
    Pres st st' ∧ Stk st st' 0

def EvOpAnd (fuel : Nat) : Prop :=
  ∀ env args st r st', opAnd fuel env args st = .ok (r, st') →
    Pres st st' ∧ Stk st st' 0

def EvOpOr (fuel : Nat) : Prop :=
  ∀ env args st r st', opOr fuel env args st = .ok (r, st') →
    Pres st st' ∧ Stk st st' 0

def EvOpCase (fuel : Nat) : Prop :=
  ∀ env args st r st', opCase fuel env args st = .ok (r, st') →
    Pres st st' ∧ Stk st st' 0

def EvCaseClauses (fuel : Nat) : Prop :=
  ∀ env cs fb ec acc st r st', caseClauses fuel env cs fb ec acc st = .ok (r, st') →
    Pres st st' ∧ Stk st st' 0

def EvOpCond (fuel : Nat) : Prop :=
  ∀ env args st r st', opCond fuel env args st = .ok (r, st') →
    Pres st st' ∧ Stk st st' 0

def EvCondClauses (fuel : Nat) : Prop :=
  ∀ env cs fb ec acc st r st', condClauses fuel env cs fb ec acc st = .ok (r, st') →
    Pres st st' ∧ Stk st st' 0

def EvCondTest (fuel : Nat) : Prop :=
  ∀ env cond cb st r st', condTest fuel env cond cb st = .ok (r, st') →
    Pres st st' ∧ Stk st st' 0

def EvOpLambda (fuel : Nat) : Prop :=
  ∀ env args st r st', opLambda fuel env args st = .ok (r, st') →
    Pres st st' ∧ Stk st st' 0

def EvMakeLambda (fuel : Nat) : Prop :=
  ∀ env name? args body st r st', makeLambda fuel env name? args body st = .ok (r, st') →
    st'.comp = st.comp

def EvCompileLambdaBody (fuel : Nat) : Prop :=
  ∀ env name? params req kws rst body st cl st',
    compileLambdaBody fuel env name? params req kws rst body st = .ok (cl, st') →
    cl.2 = st'.comp.captures ∧ CapPres st st'

def EvParamInitLoop (fuel : Nat) : Prop :=
  ∀ env ps i req st r st', paramInitLoop fuel env ps i req st = .ok (r, st') →
    CapPres st st'

def EvKwInitLoop (fuel : Nat) : Prop :=
  ∀ env ps i np st r st', kwInitLoop fuel env ps i np st = .ok (r, st') →
    CapPres st st'

def EvBranchIfUnbound (fuel : Nat) : Prop :=
  ∀ env pos d st r st', branchIfUnbound fuel env pos d st = .ok (r, st') →
    Pres st st' ∧ Stk st st' 0

def EvCompileQuasiquote (fuel : Nat) : Prop :=
  ∀ env v depth st r st', compileQuasiquote fuel env v depth st = .ok (r, st') →
    Pres st st' ∧ Stk st st' 0

def EvCompileQuasiquoteList (fuel : Nat) : Prop :=
  ∀ env li depth st r st', compileQuasiquoteList fuel env li depth st = .ok (r, st') →
    Pres st st' ∧ Stk st st' 0

def EvQqListLoop (fuel : Nat) : Prop :=
  ∀ env li depth ni nl st r st', qqListLoop fuel env li depth ni nl st = .ok (r, st') →
    Pres st st' ∧ st'.comp.stack = st.comp.stack ∧
    ∃ k : Nat, st'.comp.stackOffset = st.comp.stackOffset +
      ((((r : Nat × Nat).1 : Int) + (r : Nat × Nat).2 - qqPend r.1 r.2) -
        (((ni : Int) + nl) - qqPend ni nl)) + k

def EvInlineUnary (fuel : Nat) : Prop :=
  ∀ env i args st b st',
    (∀ s2 : CompState,
      (pushInstruction i s2).comp.stackOffset = s2.comp.stackOffset) →
    inlineUnary fuel env i args st = .ok (b, st') →
    Pres st st' ∧ (b = false → st' = st) ∧ (b = true → Stk st st' 0)

def EvInlineCmp (fuel : Nat) : Prop :=
  ∀ env ci pi args st b st',
    (∀ (c : Nat) (s2 : CompState),
      (pushInstruction (ci c) s2).comp.stackOffset = s2.comp.stackOffset) →
    (∀ s2 : CompState,
      (pushInstruction pi s2).comp.stackOffset = s2.comp.stackOffset - 1) →
    inlineCmp fuel env ci pi args st = .ok (b, st') →
    Pres st st' ∧ (b = false → st' = st) ∧ (b = true → Stk st st' 0)

def EvInlineAppendForm (fuel : Nat) : Prop :=
  ∀ env args st b st', inlineAppendForm fuel env args st = .ok (b, st') →
    Pres st st' ∧ (b = false → st' = st) ∧ (b = true → Stk st st' 0)

def EvInlineListForm (fuel : Nat) : Prop :=
  ∀ env args st b st', inlineListForm fuel env args st = .ok (b, st') →
    Pres st st' ∧ (b = false → st' = st) ∧ (b = true → Stk st st' 0)

def EvInlineIdForm (fuel : Nat) : Prop :=
  ∀ env args st b st', inlineIdForm fuel env args st = .ok (b, st') →
    Pres st st' ∧ (b = false → st' = st) ∧ (b = true → Stk st st' 0)

def EvInlineCall (fuel : Nat) : Prop :=
  ∀ env nm args st b st', inlineCall fuel env nm args st = .ok (b, st') →
    Pres st st' ∧ (b = false → st' = st) ∧ (b = true → Stk st st' 0)

/-- The conjunction of all per-function invariants at one fuel. -/
def EvAll (fuel : Nat) : Prop :=
  EvCompileValue fuel ∧ EvFinishCall fuel ∧ EvCompileArgsPush fuel ∧
  EvCompileOperator fuel ∧ EvOpApply fuel ∧ EvOpDo fuel ∧ EvOpLet fuel ∧
  EvLetBindings fuel ∧ EvOpDefine fuel ∧ EvOpMacroForm fuel ∧ EvOpIf fuel ∧
  EvShortCircuitLoop fuel ∧ EvOpAnd fuel ∧ EvOpOr fuel ∧ EvOpCase fuel ∧
  EvCaseClauses fuel ∧ EvOpCond fuel ∧ EvCondClauses fuel ∧ EvCondTest fuel ∧
  EvOpLambda fuel ∧ EvMakeLambda fuel ∧ EvCompileLambdaBody fuel ∧
  EvParamInitLoop fuel ∧ EvKwInitLoop fuel ∧ EvBranchIfUnbound fuel ∧
  EvCompileQuasiquote fuel ∧ EvCompileQuasiquoteList fuel ∧ EvQqListLoop fuel ∧
  EvInlineUnary fuel ∧ EvInlineCmp fuel ∧ EvInlineAppendForm fuel ∧
  EvInlineListForm fuel ∧ EvInlineIdForm fuel ∧ EvInlineCall fuel

/-- An inert oracle environment: no VM, no modules, no system
functions. -/
def envNone : Env := ⟨fun _ _ => .error (), fun _ => .error (), fun _ => none⟩

/-- A fresh compilation state over an empty scope. -/
def stEmpty : CompState := ⟨CompUnit.withOuter none [], ⟨[], [], none⟩, []⟩

/-- Modelled from the spec: the inline arities of the intrinsics that
also exist as system functions (every arity other than the listed one
goes through the general system-function call path).  `list` is absent:
its inline form accepts every arity. -/
def intrinsicArities : List (Name × Nat) :=
  [(nmNull, 1), (nmEq, 2), (nmNotEq, 2), (nmNot, 1), (nmInf, 0), (nmNan, 0),
   (nmAppend, 2), (nmFirst, 1), (nmTail, 1), (nmInit, 1), (nmLast, 1), (nmId, 1)]

/-- A name for the cyclic test macro, outside every reserved range. -/
def nmM : Name := 4000

/-- Compiler state for the macro-recursion analysis: an empty compiler
over a scope holding the single macro `m` (lambda id 0), with the
recursion counter set to `c`. -/
def stM (c : Nat) : CompState :=
  ⟨⟨[], [CodeBlock.new], 0, [], 0, [], [], none, c⟩, ⟨[], [(nmM, 0)], none⟩, []⟩

/-- Oracle environment whose VM expands the test macro to the same call
`(m)` again, producing an unbounded macro-expansion chain. -/
def envCyc : Env :=
  ⟨fun _ _ => .ok (.list [.name nmM]), fun _ => .error (), fun _ => none⟩

/-- Oracle environment exposing `first` as a system function of exact
arity 1, as the standard scope does. -/
def envFirst : Env :=
  ⟨fun _ _ => .error (), fun _ => .error (),
   fun n => if n = nmFirst then some (.exact 1) else none⟩

/-- The state produced by compiling the literal `42` from the empty
state (totalised: the error case falls back to the start state). -/
def c3state : CompState :=
  match compileValue 5 envNone (.integer 42) stEmpty with
  | .ok (_, s) => s
  | .error _ => stEmpty

/-- The state after pushing the two arguments of the ill-arity call
`(first 1 2)` from the empty state (totalised like `c3state`). -/
def c10state : CompState :=
  match compileArgsPush 3 envFirst [.integer 1, .integer 2] stEmpty with
  | .ok (_, s) => s
  | .error _ => stEmpty

/-- A state whose local stack holds the name `7` twice (offsets 0 and
3), for exercising rightmost-match resolution. -/
def c8state : CompState :=
  ⟨⟨[], [CodeBlock.new], 0, [(7, 0), (7, 3)], 4, [], [], none, 0⟩, ⟨[], [], none⟩, []⟩

/-! ### Basic lemmas about the helpers -/

mutual

/-- Structural identity is reflexive. -/
theorem Value.isIdentical_refl : (v : Value) → v.isIdentical v = true
  | .unit => rfl
  | .bool b => by simp [Value.isIdentical]
  | .integer i => by simp [Value.isIdentical]
  | .ratioV a b => by simp [Value.isIdentical]
  | .float a => by simp [Value.isIdentical]
  | .char c => by simp [Value.isIdentical]
  | .str s => by simp [Value.isIdentical]
  | .keyword n => by simp [Value.isIdentical]
  | .name n => by simp [Value.isIdentical]
  | .list items => by simp [Value.isIdentical, Value.isIdenticalList_refl items]
  | .quote v n => by simp [Value.isIdentical, Value.isIdentical_refl v]
  | .quasiquote v n => by simp [Value.isIdentical, Value.isIdentical_refl v]
  | .comma v n => by simp [Value.isIdentical, Value.isIdentical_refl v]
  | .commaAt v n => by simp [Value.isIdentical, Value.isIdentical_refl v]
  | .lambda id => by simp [Value.isIdentical]
  | .structDef a f => by simp [Value.isIdentical]

/-- Elementwise structural identity is reflexive. -/
theorem Value.isIdenticalList_refl : (l : List Value) → Value.isIdenticalList l l = true
  | [] => rfl
  | a :: as => by
    simp [Value.isIdenticalList, Value.isIdentical_refl a, Value.isIdenticalList_refl as]

end

/-- Looking up the inserted key after `nmInsert` yields the new value:
replacement branch. -/
theorem lookup_map_replace {β : Type} (l : List (Name × β)) (k : Name) (v : β) :
    (l.map (fun p => if p.1 = k then (k, v) else p)).lookup k
      = if (l.lookup k).isSome then some v else none := by
  induction l with
  | nil => simp
  | cons hd tl ih =>
    obtain ⟨a, b⟩ := hd
    by_cases h : a = k
    · subst h
      simp only [List.map_cons, if_pos rfl, List.lookup_cons_self, Option.isSome_some, if_true]
    · have hk : (k == a) = false := by simp [Ne.symm h]
      simp only [List.map_cons, if_neg h, List.lookup_cons, hk, cond_false, ih]

/-- Looking up the inserted key after `nmInsert` yields the new value. -/
theorem nmInsert_lookup {β : Type} (l : List (Name × β)) (k : Name) (v : β) :
    (nmInsert l k v).lookup k = some v := by
  unfold nmInsert
  by_cases h : (l.lookup k).isSome
  · simp [h, lookup_map_replace]
  · have hn : l.lookup k = none := Option.not_isSome_iff_eq_none.mp h
    simp [h, List.lookup_append, hn]

/-- Folding addition from the left computes the sum. -/
theorem foldl_add_eq_sum (l : List Nat) (a : Nat) : l.foldl (· + ·) a = a + l.sum := by
  induction l generalizing a with
  | nil => simp
  | cons x xs ih => simp [ih, Nat.add_assoc]

/-! ### Preservation lemmas for the pure helpers -/

theorem Pres.prefl (st : CompState) : Pres st st :=
  ⟨rfl, rfl, rfl, List.prefix_rfl, id⟩

theorem Pres.ptrans {a b c : CompState} (h1 : Pres a b) (h2 : Pres b c) : Pres a c :=
  ⟨h2.1.trans h1.1, h2.2.1.trans h1.2.1, h2.2.2.1.trans h1.2.2.1,
    h1.2.2.2.1.trans h2.2.2.2.1, fun hn => h2.2.2.2.2 (h1.2.2.2.2 hn)⟩

theorem Stk.srefl (st : CompState) : Stk st st 0 := ⟨⟨0, by simp⟩, rfl⟩

theorem Stk.strans {a b c : CompState} {d e : Int} (h1 : Stk a b d) (h2 : Stk b c e) :
    Stk a c (d + e) := by
  obtain ⟨⟨k1, hk1⟩, hs1⟩ := h1
  obtain ⟨⟨k2, hk2⟩, hs2⟩ := h2
  exact ⟨⟨k1 + k2, by rw [hk2, hk1]; push_cast; ring⟩, hs2.trans hs1⟩

theorem Stk.of_eq {a b : CompState} {d : Int}
    (ho : b.comp.stackOffset = a.comp.stackOffset + d)
    (hs : b.comp.stack = a.comp.stack) : Stk a b d :=
  ⟨⟨0, by rw [ho]; push_cast; ring⟩, hs⟩

theorem Stk.of_eq0 {a b : CompState}
    (ho : b.comp.stackOffset = a.comp.stackOffset)
    (hs : b.comp.stack = a.comp.stack) : Stk a b 0 :=
  Stk.of_eq (by rw [ho]; ring) hs

/-- `Pres` holds whenever the compiler-instance fields it mentions are
untouched. -/
theorem Pres.of_comp_eq {st st' : CompState}
    (hs : st'.comp.selfName = st.comp.selfName)
    (ho : st'.comp.outer = st.comp.outer)
    (hm : st'.comp.macroRecursion = st.comp.macroRecursion)
    (hc : st'.comp.captures = st.comp.captures) : Pres st st' :=
  ⟨hs, ho, hm, hc ▸ List.prefix_rfl, fun hn => hc ▸ hn⟩

/-- `Pres` and a zero stack delta follow from the six projection
equalities. -/
theorem presStk0 {st st' : CompState}
    (h1 : st'.comp.selfName = st.comp.selfName)
    (h2 : st'.comp.outer = st.comp.outer)
    (h3 : st'.comp.macroRecursion = st.comp.macroRecursion)
    (h4 : st'.comp.captures = st.comp.captures)
    (h5 : st'.comp.stackOffset = st.comp.stackOffset)
    (h6 : st'.comp.stack = st.comp.stack) :
    Pres st st' ∧ Stk st st' 0 :=
  ⟨Pres.of_comp_eq h1 h2 h3 h4, Stk.of_eq0 h5 h6⟩

theorem pushInstruction_comp (i : Instruction) (st : CompState) :
    (pushInstruction i st).comp.stack = st.comp.stack ∧
    (pushInstruction i st).comp.captures = st.comp.captures ∧
    (pushInstruction i st).comp.selfName = st.comp.selfName ∧
    (pushInstruction i st).comp.outer = st.comp.outer ∧
    (pushInstruction i st).comp.macroRecursion = st.comp.macroRecursion := by
  cases i <;> simp [pushInstruction, modifyCur]

theorem expandMacroFn_ok {env : Env} {nm : Name} {args : List Value} {st : CompState}
    {v : Value} {st' : CompState} (h : expandMacroFn env nm args st = .ok (v, st')) :
    st' = st := by
  unfold expandMacroFn at h
  split at h
  · exact absurd h (by simp [cerr])
  · rcases hm : st.scope.getMacro nm with _ | lam <;> simp only [hm] at h
    · exact absurd h (by simp)
    · rcases he : env.execLambda lam args with e | m <;> simp only [he] at h
      · exact absurd h (by simp)
      · exact (Prod.mk.injEq .. ▸ (Except.ok.injEq .. ▸ h)).2.symm ▸ rfl

theorem pushInstruction_pres_of (i : Instruction) {st st' : CompState} (h : Pres st st') :
    Pres st (pushInstruction i st') :=
  h.ptrans (Pres.of_comp_eq (pushInstruction_comp i st').2.2.1
    (pushInstruction_comp i st').2.2.2.1 (pushInstruction_comp i st').2.2.2.2
    (pushInstruction_comp i st').2.1)

theorem closureValue_pres {n : Name} {st : CompState} :
    Pres st (closureValue n st).2 ∧ Stk st (closureValue n st).2 0 := by
  unfold closureValue
  rcases h : st.comp.captures.findIdx? (fun m => m == n) with _ | pos
  · dsimp only
    by_cases ho : st.comp.outer.any (fun os => os.any (fun p => p.1 == n)) = true
    · simp only [ho, if_true]
      refine ⟨⟨rfl, rfl, rfl, ⟨[n], rfl⟩, fun hn => ?_⟩, Stk.of_eq0 rfl rfl⟩
      have hmem : n ∉ st.comp.captures := by
        intro hx
        have := List.findIdx?_eq_none_iff.mp h n hx
        simp at this
      exact List.Nodup.append hn (List.nodup_singleton n)
        (fun a ha hb => hmem ((List.mem_singleton.mp hb) ▸ ha))
    · simp only [ho, if_false]
      exact ⟨Pres.prefl st, Stk.srefl st⟩
  · exact ⟨Pres.prefl st, Stk.srefl st⟩

theorem Stk.strans0 {a b c : CompState} (h1 : Stk a b 0) (h2 : Stk b c 0) :
    Stk a c 0 := by
  have := h1.strans h2
  simpa using this

theorem loadLocalName_pres {n : Name} {st : CompState} :
    Pres st (loadLocalName n st).2 ∧ Stk st (loadLocalName n st).2 0 := by
  unfold loadLocalName
  split
  · exact ⟨pushInstruction_pres_of _ (Pres.prefl st),
      Stk.of_eq0 (by simp [pushInstruction, modifyCur]) (pushInstruction_comp _ st).1⟩
  · split
    · exact ⟨Pres.prefl st, Stk.srefl st⟩
    · split
      next idx st1 heq =>
        have hpre := @closureValue_pres n st
        rw [heq] at hpre
        exact ⟨pushInstruction_pres_of _ hpre.1, hpre.2.strans0
          (Stk.of_eq0 (by simp [pushInstruction, modifyCur])
            (pushInstruction_comp _ st1).1)⟩
      next st1 heq =>
        have hpre := @closureValue_pres n st
        rw [heq] at hpre
        exact hpre

theorem loadCaptures_pres {cs : List Name} {st : CompState} {u : Unit} {st' : CompState}
    (h : loadCaptures cs st = .ok (u, st')) :
    Pres st st' ∧ Stk st st' cs.length := by
  induction cs generalizing st with
  | nil =>
    simp only [loadCaptures] at h
    cases h
    exact ⟨Pres.prefl _, Stk.srefl _⟩
  | cons c cs ih =>
    simp only [loadCaptures] at h
    rcases hl : loadLocalName c st with ⟨b, st1⟩
    rw [hl] at h
    have hpre := @loadLocalName_pres c st
    rw [hl] at hpre
    split at h
    · obtain ⟨hp2, hk2⟩ := ih h
      refine ⟨(hpre.1.ptrans (Pres.of_comp_eq ?_ ?_ ?_ ?_)).ptrans hp2, ?_⟩
      · simp [pushInstruction_comp]
      · simp [pushInstruction_comp]
      · simp [pushInstruction_comp]
      · simp [pushInstruction_comp]
      · refine ⟨?_, ?_⟩
        · obtain ⟨k2, hk2o⟩ := hk2.1
          obtain ⟨k1, hk1o⟩ := hpre.2.1
          refine ⟨k1 + k2, ?_⟩
          rw [hk2o]
          simp only [pushInstruction, modifyCur, List.length_cons]
          rw [hk1o]
          push_cast
          ring
        · rw [hk2.2]
          have := (pushInstruction_comp .push st1).1
          rw [this, hpre.2.2]
    · exact absurd h (by simp)

theorem loadLambda_pres {n : Nat} {cs : List Name} {st : CompState} {u : Unit}
    {st' : CompState} (h : loadLambda n cs st = .ok (u, st')) :
    Pres st st' ∧ Stk st st' 0 := by
  unfold loadLambda at h
  split at h
  · cases h
    refine ⟨Pres.of_comp_eq ?_ ?_ ?_ ?_, Stk.of_eq0 ?_ ?_⟩ <;>
      simp [pushInstruction_comp, pushInstruction, modifyCur]
  · obtain ⟨u1, st1, h1, h2⟩ := cbind_eq_ok h
    obtain ⟨hp1, hk1⟩ := loadCaptures_pres h1
    cases h2
    refine ⟨hp1.ptrans (Pres.of_comp_eq ?_ ?_ ?_ ?_), ⟨?_, ?_⟩⟩
    · simp [pushInstruction_comp]
    · simp [pushInstruction_comp]
    · simp [pushInstruction_comp]
    · simp [pushInstruction_comp]
    · obtain ⟨k1, hk1o⟩ := hk1.1
      refine ⟨k1, ?_⟩
      simp only [pushInstruction, modifyCur]
      rw [hk1o]
      push_cast
      ring
    · have := (pushInstruction_comp (.buildClosure n cs.length) st1).1
      rw [this, hk1.2]

theorem addConst_comp (v : Value) (st : CompState) :
    Pres st (addConst v st).2 ∧ Stk st (addConst v st).2 0 := by
  rcases h : addConstList st.comp.consts v with ⟨n, cs⟩
  refine ⟨Pres.of_comp_eq ?_ ?_ ?_ ?_, Stk.of_eq0 ?_ ?_⟩ <;> simp [addConst, h]

theorem addConstValue_comp (v : Value) (st : CompState) :
    Pres st (addConstValue v st).2 ∧ Stk st (addConstValue v st).2 0 := by
  unfold addConstValue
  split <;> exact addConst_comp _ _

theorem loadQuotedValue_pres (v : Value) (st : CompState) :
    Pres st (loadQuotedValue v st) ∧ Stk st (loadQuotedValue v st) 0 := by
  unfold loadQuotedValue
  split
  · exact ⟨pushInstruction_pres_of _ (Pres.prefl st),
      Stk.of_eq0 (by simp [pushInstruction, modifyCur]) (pushInstruction_comp _ st).1⟩
  · exact ⟨pushInstruction_pres_of _ (Pres.prefl st),
      Stk.of_eq0 (by simp [pushInstruction, modifyCur]) (pushInstruction_comp _ st).1⟩
  · exact ⟨pushInstruction_pres_of _ (Pres.prefl st),
      Stk.of_eq0 (by simp [pushInstruction, modifyCur]) (pushInstruction_comp _ st).1⟩
  · rcases h : addConst v st with ⟨c, st1⟩
    have hc := addConst_comp v st
    rw [h] at hc
    exact ⟨pushInstruction_pres_of _ hc.1, hc.2.strans0
      (Stk.of_eq0 (by simp [pushInstruction, modifyCur])
        (pushInstruction_comp _ st1).1)⟩

theorem loadConstValue_pres (v : Value) (st : CompState) :
    Pres st (loadConstValue v st) ∧ Stk st (loadConstValue v st) 0 := by
  unfold loadConstValue
  split
  · exact ⟨pushInstruction_pres_of _ (Pres.prefl st),
      Stk.of_eq0 (by simp [pushInstruction, modifyCur]) (pushInstruction_comp _ st).1⟩
  · exact ⟨pushInstruction_pres_of _ (Pres.prefl st),
      Stk.of_eq0 (by simp [pushInstruction, modifyCur]) (pushInstruction_comp _ st).1⟩
  · exact ⟨pushInstruction_pres_of _ (Pres.prefl st),
      Stk.of_eq0 (by simp [pushInstruction, modifyCur]) (pushInstruction_comp _ st).1⟩
  · exact loadQuotedValue_pres _ _
  · exact loadQuotedValue_pres _ _
  · rcases h : addConst v st with ⟨c, st1⟩
    have hc := addConst_comp v st
    rw [h] at hc
    exact ⟨pushInstruction_pres_of _ hc.1, hc.2.strans0
      (Stk.of_eq0 (by simp [pushInstruction, modifyCur])
        (pushInstruction_comp _ st1).1)⟩

theorem jumpToCur_pres (j : JumpInstruction) (d : Nat) (st : CompState) :
    Pres st (jumpToCur j d st) ∧ Stk st (jumpToCur j d st) 0 := by
  refine ⟨Pres.of_comp_eq ?_ ?_ ?_ ?_, Stk.of_eq0 ?_ ?_⟩ <;> simp [jumpToCur, modifyCur]

theorem newBlock_pres (st : CompState) :
    Pres st (newBlock st).2 ∧ Stk st (newBlock st).2 0 := by
  refine ⟨Pres.of_comp_eq ?_ ?_ ?_ ?_, Stk.of_eq0 ?_ ?_⟩ <;> simp [newBlock]

theorem useBlock_pres (n : Nat) (st : CompState) :
    Pres st (useBlock n st) ∧ Stk st (useBlock n st) 0 := by
  refine ⟨Pres.of_comp_eq ?_ ?_ ?_ ?_, Stk.of_eq0 ?_ ?_⟩ <;> simp [useBlock]

theorem useNext_pres (n : Nat) (st : CompState) :
    Pres st (useNext n st) ∧ Stk st (useNext n st) 0 := by
  refine ⟨Pres.of_comp_eq ?_ ?_ ?_ ?_, Stk.of_eq0 ?_ ?_⟩ <;>
    simp [useNext, useBlock, modifyCur]

theorem casePatterns_pres (ps : List Value) (cb : Nat) (st : CompState) :
    Pres st (casePatterns ps cb st) ∧ Stk st (casePatterns ps cb st) 0 := by
  induction ps generalizing st with
  | nil => exact ⟨Pres.prefl st, Stk.srefl st⟩
  | cons p ps ih =>
    have step : ∀ (st2 : CompState), Pres st st2 → Stk st st2 0 →
        Pres st (casePatterns ps cb (useNext (newBlock st2).1 (newBlock st2).2)) ∧
        Stk st (casePatterns ps cb (useNext (newBlock st2).1 (newBlock st2).2)) 0 := by
      intro st2 hp hk
      exact ⟨(hp.ptrans ((newBlock_pres st2).1.ptrans (useNext_pres _ _).1)).ptrans (ih _).1,
        (hk.strans0 ((newBlock_pres st2).2.strans0 (useNext_pres _ _).2)).strans0 (ih _).2⟩
    simp only [casePatterns]
    split
    · exact step _ (jumpToCur_pres _ _ _).1 (jumpToCur_pres _ _ _).2
    · exact step _ (jumpToCur_pres _ _ _).1 (jumpToCur_pres _ _ _).2
    · exact step _ (jumpToCur_pres _ _ _).1 (jumpToCur_pres _ _ _).2
    · rcases h : addConst p st with ⟨c, st1⟩
      have hc := addConst_comp p st
      rw [h] at hc
      exact step _ (hc.1.ptrans (jumpToCur_pres _ _ _).1)
        (hc.2.strans0 (jumpToCur_pres _ _ _).2)

theorem casePatt_pres {pat : Value} {cb : Nat} {st : CompState} {b : Bool}
    {st' : CompState} (h : casePatt pat cb st = .ok (b, st')) :
    Pres st st' ∧ Stk st st' 0 := by
  unfold casePatt at h
  split at h
  · cases h
    exact casePatterns_pres _ _ _
  · split at h
    · cases h
      exact jumpToCur_pres _ _ _
    · exact absurd h (by simp [cerr])
  · exact absurd h (by simp [cerr])

theorem stitchBlocks_pres (l : List (Nat × Nat)) (st : CompState) :
    Pres st (stitchBlocks l st) ∧ Stk st (stitchBlocks l st) 0 := by
  induction l generalizing st with
  | nil => exact ⟨Pres.prefl st, Stk.srefl st⟩
  | cons p l ih =>
    obtain ⟨bgn, fin⟩ := p
    refine ⟨(Pres.of_comp_eq ?_ ?_ ?_ ?_).ptrans (ih _).1,
      Stk.strans0 (Stk.of_eq0 ?_ ?_) (ih _).2⟩ <;>
      simp [stitchBlocks, useBlock, modifyCur]

theorem afterClauses_pres (finalB : Nat) (ec : Bool) (cbs : List (Nat × Nat))
    (st : CompState) :
    Pres st (afterClauses finalB ec cbs st) ∧ Stk st (afterClauses finalB ec cbs st) 0 := by
  unfold afterClauses
  split
  · exact ⟨(stitchBlocks_pres _ _).1.ptrans (useNext_pres _ _).1,
      (stitchBlocks_pres _ _).2.strans0 (useNext_pres _ _).2⟩
  · refine ⟨((Pres.of_comp_eq ?_ ?_ ?_ ?_).ptrans
      (jumpToCur_pres _ _ _).1).ptrans ((stitchBlocks_pres _ _).1.ptrans
        (useNext_pres _ _).1),
      Stk.strans0 (Stk.strans0 (Stk.of_eq0 ?_ ?_) (jumpToCur_pres _ _ _).2)
        ((stitchBlocks_pres _ _).2.strans0 (useNext_pres _ _).2)⟩ <;>
      simp [pushInstruction, modifyCur, pushInstruction_comp]

theorem opStruct_pres {args : List Value} {st : CompState} {r : Unit} {st' : CompState}
    (h : opStruct args st = .ok (r, st')) : Pres st st' ∧ Stk st st' 0 := by
  unfold opStruct at h
  repeat' split at h
  all_goals simp_all [cerr]
  all_goals subst h
  all_goals refine presStk0 ?_ ?_ ?_ ?_ ?_ ?_ <;>
    simp [pushInstruction, modifyCur, addConst]

theorem opExport_pres {args : List Value} {st : CompState} {r : Unit} {st' : CompState}
    (h : opExport args st = .ok (r, st')) : Pres st st' ∧ Stk st st' 0 := by
  unfold opExport at h
  repeat' split at h
  all_goals simp_all [cerr]
  all_goals subst h
  all_goals refine presStk0 ?_ ?_ ?_ ?_ ?_ ?_ <;>
    simp [pushInstruction, modifyCur, ScopeData.setExports]

theorem opUse_pres {env : Env} {args : List Value} {st : CompState} {r : Unit}
    {st' : CompState} (h : opUse env args st = .ok (r, st')) :
    Pres st st' ∧ Stk st st' 0 := by
  unfold opUse at h
  repeat' split at h
  all_goals simp_all [cerr]
  all_goals subst h
  all_goals refine presStk0 ?_ ?_ ?_ ?_ ?_ ?_ <;>
    simp [pushInstruction, modifyCur]

/-! ### The state-evolution induction

Each lemma `ev<Fn>` advances the invariant of one traversal function
from fuel `fuel` to `fuel + 1`, assuming the invariants of the
functions it calls at `fuel`; `evolution` ties them together by
induction on the fuel. -/

theorem psTrans {a b c : CompState} {d e : Int}
    (h1 : Pres a b ∧ Stk a b d) (h2 : Pres b c ∧ Stk b c e) :
    Pres a c ∧ Stk a c (d + e) :=
  ⟨h1.1.ptrans h2.1, h1.2.strans h2.2⟩

theorem psCast {a b : CompState} {d e : Int} (h : Pres a b ∧ Stk a b d) (he : d = e) :
    Pres a b ∧ Stk a b e := he ▸ h

theorem psPush (i : Instruction) (st : CompState) (d : Int)
    (h : (pushInstruction i st).comp.stackOffset = st.comp.stackOffset + d) :
    Pres st (pushInstruction i st) ∧ Stk st (pushInstruction i st) d :=
  ⟨pushInstruction_pres_of i (Pres.prefl st), Stk.of_eq h (pushInstruction_comp i st).1⟩

theorem psOfCompEq {a b : CompState} (h : b.comp = a.comp) :
    Pres a b ∧ Stk a b 0 :=
  ⟨⟨by rw [h], by rw [h], by rw [h], by rw [h], fun hn => by rw [h]; exact hn⟩,
    Stk.of_eq0 (by rw [h]) (by rw [h])⟩

theorem CapPres.crefl (st : CompState) : CapPres st st := ⟨List.prefix_rfl, id⟩

theorem CapPres.ctrans {a b c : CompState} (h1 : CapPres a b) (h2 : CapPres b c) :
    CapPres a c := ⟨h1.1.trans h2.1, fun hn => h2.2 (h1.2 hn)⟩

theorem Pres.capPres {a b : CompState} (h : Pres a b) : CapPres a b :=
  ⟨h.2.2.2.1, h.2.2.2.2⟩

theorem capPresOfEq {a b : CompState} (h : b.comp.captures = a.comp.captures) :
    CapPres a b := by
  refine ⟨?_, ?_⟩ <;> rw [h] <;>
    first
    | exact List.prefix_rfl
    | exact id

theorem evOpDo (fuel : Nat) (hCV : EvCompileValue fuel) (hDo : EvOpDo fuel) :
    EvOpDo (fuel + 1) := by
  intro env args st r st' h
  rcases args with _ | ⟨v, vs⟩
  · simp only [opDo] at h
    cases h
    exact ⟨Pres.prefl _, Stk.srefl _⟩
  · simp only [opDo] at h
    obtain ⟨u, st1, h1, h2⟩ := cbind_eq_ok h
    exact psCast (psTrans (hCV _ _ _ _ _ h1) (hDo _ _ _ _ _ h2)) (by norm_num)

theorem evCompileArgsPush (fuel : Nat) (hCV : EvCompileValue fuel)
    (hCA : EvCompileArgsPush fuel) : EvCompileArgsPush (fuel + 1) := by
  intro env vs st r st' h
  rcases vs with _ | ⟨v, vs⟩
  · simp only [compileArgsPush] at h
    cases h
    exact psCast ⟨Pres.prefl _, Stk.srefl _⟩ (by norm_num)
  · simp only [compileArgsPush] at h
    obtain ⟨u, st1, h1, h2⟩ := cbind_eq_ok h
    refine psCast (psTrans (hCV _ _ _ _ _ h1)
      (psTrans (psPush _ _ 1 (by simp [pushInstruction, modifyCur]))
        (hCA _ _ _ _ _ h2))) ?_
    simp only [List.length_cons]
    push_cast
    ring

theorem evCondTest (fuel : Nat) (hCV : EvCompileValue fuel) :
    EvCondTest (fuel + 1) := by
  intro env cond cb st r st' h
  simp only [condTest] at h
  split at h
  · split at h
    · cases h
      exact jumpToCur_pres _ _ _
    · obtain ⟨u, st1, h1, h2⟩ := cbind_eq_ok h
      cases h2
      exact ⟨(hCV _ _ _ _ _ h1).1.ptrans (jumpToCur_pres _ _ _).1,
        (hCV _ _ _ _ _ h1).2.strans0 (jumpToCur_pres _ _ _).2⟩
  · obtain ⟨u, st1, h1, h2⟩ := cbind_eq_ok h
    cases h2
    exact ⟨(hCV _ _ _ _ _ h1).1.ptrans (jumpToCur_pres _ _ _).1,
      (hCV _ _ _ _ _ h1).2.strans0 (jumpToCur_pres _ _ _).2⟩

theorem evShortCircuitLoop (fuel : Nat) (hCV : EvCompileValue fuel)
    (hSC : EvShortCircuitLoop fuel) : EvShortCircuitLoop (fuel + 1) := by
  intro env j vs lastB st r st' h
  rcases vs with _ | ⟨v, vs⟩
  · simp only [shortCircuitLoop] at h
    cases h
    exact ⟨Pres.prefl _, Stk.srefl _⟩
  · simp only [shortCircuitLoop] at h
    obtain ⟨u, st1, h1, h2⟩ := cbind_eq_ok h
    refine psCast (psTrans (hCV _ _ _ _ _ h1) (psTrans (jumpToCur_pres _ _ _)
      (psTrans (newBlock_pres _) (psTrans (useNext_pres _ _)
        (hSC _ _ _ _ _ _ _ h2))))) (by norm_num)

theorem evBranchIfUnbound (fuel : Nat) (hCV : EvCompileValue fuel) :
    EvBranchIfUnbound (fuel + 1) := by
  intro env pos d st r st' h
  simp only [branchIfUnbound] at h
  obtain ⟨u, st1, h1, h2⟩ := cbind_eq_ok h
  cases h2
  exact psCast (psTrans (psTrans (psTrans (newBlock_pres _) (newBlock_pres _))
    (psTrans (jumpToCur_pres _ _ _) (useNext_pres _ _)))
    (psTrans (hCV _ _ _ _ _ h1)
      (psTrans (psPush _ _ 0 (by simp [pushInstruction, modifyCur]))
        (useNext_pres _ _)))) (by norm_num)

theorem evLetBindings (fuel : Nat) (hCV : EvCompileValue fuel)
    (hLB : EvLetBindings fuel) : EvLetBindings (fuel + 1) := by
  intro env li st r st' h
  rcases li with _ | ⟨v, vs⟩
  · simp only [letBindings] at h
    cases h
    exact ⟨Pres.prefl _, ⟨0, by simp⟩, [], by simp, rfl⟩
  · simp only [letBindings] at h
    split at h
    · split at h
      · exact absurd h (by simp [cerr])
      · obtain ⟨u, st1, h1, h2⟩ := cbind_eq_ok h
        obtain ⟨hp2, ho2, ext, hs2, hl2⟩ := hLB _ _ _ _ _ h2
        obtain ⟨hp1, hk1⟩ := hCV _ _ _ _ _ h1
        rename_i nm _
        have hpv : Pres st1 (pushInstruction .push (pushVar nm st1)) := by
          refine Pres.of_comp_eq ?_ ?_ ?_ ?_ <;>
            simp [pushInstruction_comp, pushInstruction, modifyCur, pushVar]
        refine ⟨(hp1.ptrans hpv).ptrans hp2, ?_, ?_⟩
        · obtain ⟨k2, ho2o⟩ := ho2
          obtain ⟨k1, hk1o⟩ := hk1.1
          refine ⟨k1 + k2, ?_⟩
          rw [ho2o]
          simp only [pushInstruction, modifyCur, pushVar, List.length_cons]
          rw [hk1o]
          push_cast
          ring
        · refine ⟨(nm, st1.comp.stackOffset) :: ext, ?_, by simp [hl2]⟩
          rw [hs2]
          simp only [pushInstruction, modifyCur, pushVar]
          rw [hk1.2]
          simp
    · exact absurd h (by simp [cerr])

theorem evOpIf (fuel : Nat) (hCV : EvCompileValue fuel) : EvOpIf (fuel + 1) := by
  intro env args st r st' h
  simp only [opIf] at h
  split at h
  · obtain ⟨u1, st1, h1, h2⟩ := cbind_eq_ok h
    obtain ⟨u2, st2, h3, h4⟩ := cbind_eq_ok h2
    split at h4
    · obtain ⟨u3, st3, h5, h6⟩ := cbind_eq_ok h4
      cases h6
      exact psCast (psTrans (psTrans (psTrans (newBlock_pres st) (newBlock_pres _))
        (newBlock_pres _)) (psTrans (psTrans (hCV _ _ _ _ _ h1)
          (psTrans (jumpToCur_pres _ _ _) (useNext_pres _ _)))
        (psTrans (psTrans (hCV _ _ _ _ _ h3)
          (psTrans (jumpToCur_pres _ _ _) (useNext_pres _ _)))
          (psTrans (hCV _ _ _ _ _ h5) (useNext_pres _ _))))) (by norm_num)
    · cases h4
      exact psCast (psTrans (psTrans (psTrans (newBlock_pres st) (newBlock_pres _))
        (newBlock_pres _)) (psTrans (psTrans (hCV _ _ _ _ _ h1)
          (psTrans (jumpToCur_pres _ _ _) (useNext_pres _ _)))
        (psTrans (psTrans (hCV _ _ _ _ _ h3)
          (psTrans (jumpToCur_pres _ _ _) (useNext_pres _ _)))
          (psTrans (psPush _ _ 0 (by simp [pushInstruction, modifyCur]))
            (useNext_pres _ _))))) (by norm_num)
  · exact absurd h (by simp)

theorem evOpAnd (fuel : Nat) (hCV : EvCompileValue fuel)
    (hSC : EvShortCircuitLoop fuel) : EvOpAnd (fuel + 1) := by
  intro env args st r st' h
  simp only [opAnd] at h
  split at h
  · exact absurd h (by simp)
  · obtain ⟨u1, st1, h1, h2⟩ := cbind_eq_ok h
    obtain ⟨u2, st2, h3, h4⟩ := cbind_eq_ok h2
    cases h4
    exact psCast (psTrans (newBlock_pres st) (psTrans (hSC _ _ _ _ _ _ _ h1)
      (psTrans (hCV _ _ _ _ _ h3) (useNext_pres _ _)))) (by norm_num)

theorem evOpOr (fuel : Nat) (hCV : EvCompileValue fuel)
    (hSC : EvShortCircuitLoop fuel) : EvOpOr (fuel + 1) := by
  intro env args st r st' h
  simp only [opOr] at h
  split at h
  · exact absurd h (by simp)
  · obtain ⟨u1, st1, h1, h2⟩ := cbind_eq_ok h
    obtain ⟨u2, st2, h3, h4⟩ := cbind_eq_ok h2
    cases h4
    exact psCast (psTrans (newBlock_pres st) (psTrans (hSC _ _ _ _ _ _ _ h1)
      (psTrans (hCV _ _ _ _ _ h3) (useNext_pres _ _)))) (by norm_num)

theorem evOpApply (fuel : Nat) (hCV : EvCompileValue fuel)
    (hCA : EvCompileArgsPush fuel) : EvOpApply (fuel + 1) := by
  intro env args st r st' hlen h
  simp only [opApply] at h
  split at h
  · exact absurd h (by simp)
  · obtain ⟨u1, st1, h1, h2⟩ := cbind_eq_ok h
    obtain ⟨u2, st2, h3, h4⟩ := cbind_eq_ok h2
    cases h4
    have hdl : 1 ≤ args.dropLast.length := by
      rw [List.length_dropLast]
      omega
    refine psCast (psTrans (hCA _ _ _ _ _ h1) (psTrans (hCV _ _ _ _ _ h3)
      (psPush _ _ (-(args.dropLast.length : Int))
        (by simp only [pushInstruction, modifyCur]; push_cast [hdl]; ring)))) (by ring)

theorem evOpLet (fuel : Nat) (hCV : EvCompileValue fuel)
    (hLB : EvLetBindings fuel) : EvOpLet (fuel + 1) := by
  intro env args st r st' h
  simp only [opLet] at h
  split at h
  · obtain ⟨nVars, st1, h1, h2⟩ := cbind_eq_ok h
    obtain ⟨u2, st2, h3, h4⟩ := cbind_eq_ok h2
    dsimp only [newBlock] at h4
    cases h4
    have hbind : Pres st st1 ∧
        (∃ k : Nat, st1.comp.stackOffset = st.comp.stackOffset + nVars + k) ∧
        ∃ ext, st1.comp.stack = st.comp.stack ++ ext ∧ ext.length = nVars := by
      split at h1
      · cases h1
        exact ⟨Pres.prefl _, ⟨0, by simp⟩, [], by simp, rfl⟩
      · obtain ⟨ub, stb, hb, hb2⟩ := cbind_eq_ok h1
        cases hb2
        exact hLB _ _ _ _ _ hb
      · exact absurd h1 (by simp [cerr])
    obtain ⟨hp1, ⟨k1, ho1⟩, ext, hs1, hl1⟩ := hbind
    obtain ⟨hp2, hk2⟩ := hCV _ _ _ _ _ h3
    constructor
    · refine (hp1.ptrans hp2).ptrans (Pres.of_comp_eq ?_ ?_ ?_ ?_) <;>
        simp [popVars, pushInstruction, modifyCur, useNext, useBlock]
    · constructor
      · obtain ⟨k2, hk2o⟩ := hk2.1
        refine ⟨k1 + k2, ?_⟩
        simp only [popVars, pushInstruction, modifyCur, useNext, useBlock]
        rw [hk2o, ho1]
        push_cast
        ring
      · simp only [popVars, pushInstruction, modifyCur, useNext, useBlock]
        rw [hk2.2, hs1, List.length_append, hl1, Nat.add_sub_cancel]
        exact List.take_left' rfl
  · exact absurd h (by simp)

theorem evCaseClauses (fuel : Nat) (hCV : EvCompileValue fuel)
    (hCC : EvCaseClauses fuel) : EvCaseClauses (fuel + 1) := by
  intro env cs fb ec acc st r st' h
  rcases cs with _ | ⟨c, cs⟩
  · simp only [caseClauses] at h
    cases h
    exact ⟨Pres.prefl _, Stk.srefl _⟩
  · simp only [caseClauses] at h
    split at h
    · exact absurd h (by simp [cerr])
    · split at h
      · obtain ⟨isElse, st1, h1, h2⟩ := cbind_eq_ok h
        obtain ⟨u2, st2, h3, h4⟩ := cbind_eq_ok h2
        exact psCast (psTrans (newBlock_pres st) (psTrans (casePatt_pres h1)
          (psTrans (useBlock_pres _ _) (psTrans (hCV _ _ _ _ _ h3)
            (psTrans (jumpToCur_pres _ _ _) (psTrans (newBlock_pres _)
              (psTrans (useBlock_pres _ _) (psTrans (useNext_pres _ _)
                (hCC _ _ _ _ _ _ _ _ h4))))))))) (by norm_num)
      · exact absurd h (by simp [cerr])

theorem evOpCase (fuel : Nat) (hCV : EvCompileValue fuel)
    (hCC : EvCaseClauses fuel) : EvOpCase (fuel + 1) := by
  intro env args st r st' h
  simp only [opCase] at h
  split at h
  · obtain ⟨u1, st1, h1, h2⟩ := cbind_eq_ok h
    obtain ⟨res, st2, h3, h4⟩ := cbind_eq_ok h2
    cases h4
    exact psCast (psTrans (newBlock_pres st) (psTrans (hCV _ _ _ _ _ h1)
      (psTrans (hCC _ _ _ _ _ _ _ _ h3) (afterClauses_pres _ _ _ _)))) (by norm_num)
  · exact absurd h (by simp)

theorem evCondClauses (fuel : Nat) (hCV : EvCompileValue fuel)
    (hCT : EvCondTest fuel) (hCd : EvCondClauses fuel) :
    EvCondClauses (fuel + 1) := by
  intro env cs fb ec acc st r st' h
  rcases cs with _ | ⟨c, cs⟩
  · simp only [condClauses] at h
    cases h
    exact ⟨Pres.prefl _, Stk.srefl _⟩
  · simp only [condClauses] at h
    split at h
    · exact absurd h (by simp [cerr])
    · split at h
      · obtain ⟨isElse, st1, h1, h2⟩ := cbind_eq_ok h
        obtain ⟨u2, st2, h3, h4⟩ := cbind_eq_ok h2
        exact psCast (psTrans (newBlock_pres st) (psTrans (hCT _ _ _ _ _ _ h1)
          (psTrans (useBlock_pres _ _) (psTrans (hCV _ _ _ _ _ h3)
            (psTrans (jumpToCur_pres _ _ _) (psTrans (newBlock_pres _)
              (psTrans (useBlock_pres _ _) (psTrans (useNext_pres _ _)
                (hCd _ _ _ _ _ _ _ _ h4))))))))) (by norm_num)
      · exact absurd h (by simp [cerr])

theorem evOpCond (fuel : Nat) (hCd : EvCondClauses fuel) : EvOpCond (fuel + 1) := by
  intro env args st r st' h
  simp only [opCond] at h
  obtain ⟨res, st1, h1, h2⟩ := cbind_eq_ok h
  cases h2
  exact psCast (psTrans (newBlock_pres st) (psTrans (hCd _ _ _ _ _ _ _ _ h1)
    (afterClauses_pres _ _ _ _))) (by norm_num)

theorem evMakeLambda (fuel : Nat) : EvMakeLambda (fuel + 1) := by
  intro env name? args body st r st' h
  simp only [makeLambda] at h
  repeat' split at h
  all_goals first
    | (exfalso; revert h; simp [cerr]; done)
    | (cases h; rfl)

theorem evOpLambda (fuel : Nat) (hML : EvMakeLambda fuel) : EvOpLambda (fuel + 1) := by
  intro env args st r st' h
  simp only [opLambda] at h
  split at h
  · split at h
    · exact absurd h (by simp [cerr])
    · obtain ⟨lam, st1, h1, h2⟩ := cbind_eq_ok h
      exact psCast (psTrans (psOfCompEq (hML _ _ _ _ _ _ _ h1))
        (psTrans (addConst_comp _ _) (loadLambda_pres h2))) (by norm_num)
  · exact absurd h (by simp)

theorem evOpDefine (fuel : Nat) (hCV : EvCompileValue fuel)
    (hML : EvMakeLambda fuel) : EvOpDefine (fuel + 1) := by
  intro env args st r st' h
  simp only [opDefine] at h
  split at h
  · split at h
    · split at h
      · exact absurd h (by simp [cerr])
      · obtain ⟨u1, st1, h1, h2⟩ := cbind_eq_ok h
        cases h2
        exact psCast (psTrans (hCV _ _ _ _ _ h1) (psTrans (addConst_comp _ st1)
          (psPush _ _ 0 (by simp [pushInstruction, modifyCur])))) (by norm_num)
    · split at h
      · exact absurd h (by simp)
      · split at h
        · exact absurd h (by simp [cerr])
        · split at h
          · exact absurd h (by simp [cerr])
          · obtain ⟨lam, st2, h1, h2⟩ := cbind_eq_ok h
            obtain ⟨u3, st4, h3, h4⟩ := cbind_eq_ok h2
            cases h4
            exact psCast (psTrans (addConst_comp (.name _) st)
              (psTrans (psOfCompEq (hML _ _ _ _ _ _ _ h1))
                (psTrans (addConst_comp (.lambda lam.1) st2)
                  (psTrans (loadLambda_pres h3)
                    (psPush _ _ 0 (by simp [pushInstruction, modifyCur]))))))
              (by norm_num)
    · exact absurd h (by simp [cerr])
  · exact absurd h (by simp)

theorem evOpMacroForm (fuel : Nat) (hML : EvMakeLambda fuel) :
    EvOpMacroForm (fuel + 1) := by
  intro env args st r st' h
  simp only [opMacroForm] at h
  split at h
  · split at h
    · split at h
      · exact absurd h (by simp)
      · split at h
        · exact absurd h (by simp [cerr])
        · split at h
          · exact absurd h (by simp [cerr])
          · obtain ⟨lam, st1, h1, h2⟩ := cbind_eq_ok h
            split at h2
            · cases h2
              exact psCast (psTrans (psOfCompEq (hML _ _ _ _ _ _ _ h1))
                (psTrans (psOfCompEq rfl) (psTrans (addConst_comp _ _)
                  (psPush _ _ 0 (by simp [pushInstruction, modifyCur])))))
                (by norm_num)
            · exact absurd h2 (by simp [cerr])
    · exact absurd h (by simp [cerr])
  · exact absurd h (by simp)

theorem evParamInitLoop (fuel : Nat) (hBIU : EvBranchIfUnbound fuel)
    (hPI : EvParamInitLoop fuel) : EvParamInitLoop (fuel + 1) := by
  intro env ps i req st r st' h
  rcases ps with _ | ⟨⟨n, deflt⟩, ps⟩
  · simp only [paramInitLoop] at h
    cases h
    exact CapPres.crefl _
  · simp only [paramInitLoop] at h
    split at h
    · split at h
      · obtain ⟨u1, st1, h1, h2⟩ := cbind_eq_ok h
        have htail := hPI _ _ _ _ _ _ _ h2
        refine CapPres.ctrans (hBIU _ _ _ _ _ _ h1).1.capPres
          (CapPres.ctrans (capPresOfEq ?_) htail)
        rfl
      · have htail := hPI _ _ _ _ _ _ _ h
        refine CapPres.ctrans (capPresOfEq ?_) htail
        simp [pushInstruction, modifyCur]
    · have htail := hPI _ _ _ _ _ _ _ h
      refine CapPres.ctrans (capPresOfEq ?_) htail
      rfl

theorem evKwInitLoop (fuel : Nat) (hBIU : EvBranchIfUnbound fuel)
    (hKI : EvKwInitLoop fuel) : EvKwInitLoop (fuel + 1) := by
  intro env ps i np st r st' h
  rcases ps with _ | ⟨⟨n, deflt⟩, ps⟩
  · simp only [kwInitLoop] at h
    cases h
    exact CapPres.crefl _
  · simp only [kwInitLoop] at h
    obtain ⟨u1, st1, h1, h2⟩ := cbind_eq_ok h
    obtain ⟨names, st2, h3, h4⟩ := cbind_eq_ok h2
    cases h4
    have htail := hKI _ _ _ _ _ _ _ h3
    refine CapPres.ctrans ?_ (CapPres.ctrans (@capPresOfEq st1 _ ?_) htail)
    · split at h1
      · exact (hBIU _ _ _ _ _ _ h1).1.capPres
      · cases h1
        exact capPresOfEq ((pushInstruction_comp _ _).2.1)
    · rfl

theorem evCompileLambdaBody (fuel : Nat) (hPI : EvParamInitLoop fuel)
    (hKI : EvKwInitLoop fuel) (hCV : EvCompileValue fuel) :
    EvCompileLambdaBody (fuel + 1) := by
  intro env name? params req kws rst body st cl st' h
  simp only [compileLambdaBody] at h
  split at h
  · exact absurd h (by simp)
  · split at h
    · exact absurd h (by simp)
    · obtain ⟨u1, st1, h1, h2⟩ := cbind_eq_ok h
      obtain ⟨kwNames, st2, h3, h4⟩ := cbind_eq_ok h2
      obtain ⟨u3, st3, h5, h6⟩ := cbind_eq_ok h4
      cases h6
      refine ⟨rfl, ?_⟩
      have hp := hPI _ _ _ _ _ _ _ h1
      have hk := hKI _ _ _ _ _ _ _ h3
      have hcv := (hCV _ _ _ _ _ h5).1.capPres
      refine CapPres.ctrans (capPresOfEq ?_) (CapPres.ctrans hp
        (CapPres.ctrans hk (CapPres.ctrans ?_ hcv)))
      · rfl
      · split
        · exact capPresOfEq rfl
        · exact CapPres.crefl _

theorem evCompileQuasiquote (fuel : Nat) (hCV : EvCompileValue fuel)
    (hQQ : EvCompileQuasiquote fuel) (hQL : EvCompileQuasiquoteList fuel) :
    EvCompileQuasiquote (fuel + 1) := by
  intro env v depth st r st' h
  simp only [compileQuasiquote] at h
  split at h
  · split at h
    · exact hCV _ _ _ _ _ h
    · split at h
      · exact absurd h (by simp [cerr])
      · obtain ⟨u1, st1, h1, h2⟩ := cbind_eq_ok h
        cases h2
        exact psCast (psTrans (hQQ _ _ _ _ _ _ h1)
          (psPush _ _ 0 (by simp [pushInstruction, modifyCur]))) (by norm_num)
  · split at h
    · exact absurd h (by simp [cerr])
    · split at h
      · exact absurd h (by simp [cerr])
      · cases h
        exact loadQuotedValue_pres _ _
  · exact hQL _ _ _ _ _ _ h
  · obtain ⟨u1, st1, h1, h2⟩ := cbind_eq_ok h
    cases h2
    exact psCast (psTrans (hQQ _ _ _ _ _ _ h1)
      (psPush _ _ 0 (by simp [pushInstruction, modifyCur]))) (by norm_num)
  · obtain ⟨u1, st1, h1, h2⟩ := cbind_eq_ok h
    split at h2
    · split at h2
      · cases h2
        exact psCast (psTrans (hQQ _ _ _ _ _ _ h1)
          (psPush _ _ 0 (by simp [pushInstruction, modifyCur]))) (by norm_num)
      · cases h2
        exact psCast (hQQ _ _ _ _ _ _ h1) (by norm_num)
    · cases h2
      exact psCast (psTrans (hQQ _ _ _ _ _ _ h1)
        (psPush _ _ 0 (by simp [pushInstruction, modifyCur]))) (by norm_num)
  · cases h
    exact loadQuotedValue_pres _ _

theorem qqFixup_facts (ni nl : Nat) (st : CompState) :
    Pres st (qqFixup ni nl st) ∧
    (qqFixup ni nl st).comp.stack = st.comp.stack ∧
    (qqFixup ni nl st).comp.stackOffset = st.comp.stackOffset + qqPend ni nl := by
  by_cases hc : ni = 0 ∧ nl = 1
  · refine ⟨?_, ?_, ?_⟩ <;> simp only [qqFixup, qqPend, if_pos hc]
    · exact pushInstruction_pres_of _ (Pres.prefl st)
    · exact (pushInstruction_comp _ _).1
    · simp [pushInstruction, modifyCur]
  · refine ⟨?_, ?_, ?_⟩ <;> simp only [qqFixup, qqPend, if_neg hc]
    · exact Pres.prefl _
    · simp

theorem qqClose_zero (nl : Nat) (st : CompState) :
    qqClose 0 nl st = (st, nl, 0) := by
  simp [qqClose]

theorem qqClose_pos {ni : Nat} (hc : ni ≠ 0) (nl : Nat) (st : CompState) :
    qqClose ni nl st =
      (pushInstruction .push (pushInstruction (.list ni) st), nl + 1, 0) := by
  simp [qqClose, hc]

theorem evQqListLoop (fuel : Nat) (hCV : EvCompileValue fuel)
    (hQQ : EvCompileQuasiquote fuel) (hQL : EvQqListLoop fuel) :
    EvQqListLoop (fuel + 1) := by
  intro env li depth ni nl st r st' h
  rcases li with _ | ⟨v, rest⟩
  · simp only [qqListLoop] at h
    cases h
    exact ⟨Pres.prefl _, rfl, 0, by push_cast; ring⟩
  · simp only [qqListLoop] at h
    split at h
    · split at h
      · by_cases hni : ni = 0
        · subst hni
          simp only [qqClose_zero] at h
          by_cases hnl1 : nl = 1
          · subst hnl1
            simp only [qqFixup, if_pos (⟨rfl, rfl⟩ : (0 : Nat) = 0 ∧ (1 : Nat) = 1)] at h
            simp at h
            obtain ⟨u1, st1, h1, h2⟩ := cbind_eq_ok h
            obtain ⟨hp2, hs2, k2, ho2⟩ := hQL _ _ _ _ _ _ _ _ h2
            obtain ⟨hp1, hk1⟩ := hCV _ _ _ _ _ h1
            obtain ⟨k1, hk1o⟩ := hk1.1
            refine ⟨((pushInstruction_pres_of _ (Pres.prefl st)).ptrans hp1).ptrans
              ((pushInstruction_pres_of _ (Pres.prefl _)).ptrans hp2), ?_, ?_⟩
            · rw [hs2]
              simp only [pushInstruction, modifyCur]
              rw [hk1.2]
              simp only [pushInstruction, modifyCur]
            · refine ⟨k1 + k2, ?_⟩
              rw [ho2]
              simp only [pushInstruction, modifyCur]
              rw [hk1o]
              simp only [pushInstruction, modifyCur]
              have e1 : qqPend 0 2 = 0 := by simp [qqPend]
              have e2 : qqPend 0 1 = 1 := by simp [qqPend]
              rw [e1, e2]
              generalize qqPend r.1 r.2 = q
              push_cast
              ring
          · by_cases hnl0 : nl = 0
            · subst hnl0
              simp only [qqFixup] at h
              rw [if_neg (by omega)] at h
              simp at h
              obtain ⟨u1, st1, h1, h2⟩ := cbind_eq_ok h
              obtain ⟨hp2, hs2, k2, ho2⟩ := hQL _ _ _ _ _ _ _ _ h2
              obtain ⟨hp1, hk1⟩ := hCV _ _ _ _ _ h1
              obtain ⟨k1, hk1o⟩ := hk1.1
              refine ⟨hp1.ptrans hp2, ?_, ?_⟩
              · rw [hs2, hk1.2]
              · refine ⟨k1 + k2, ?_⟩
                rw [ho2, hk1o]
                have e1 : qqPend 0 1 = 1 := by simp [qqPend]
                have e2 : qqPend 0 0 = 0 := by simp [qqPend]
                rw [e1, e2]
                generalize qqPend r.1 r.2 = q
                push_cast
                ring
            · simp only [qqFixup] at h
              rw [if_neg (fun hc => hnl1 hc.2)] at h
              simp [hnl0] at h
              obtain ⟨u1, st1, h1, h2⟩ := cbind_eq_ok h
              obtain ⟨hp2, hs2, k2, ho2⟩ := hQL _ _ _ _ _ _ _ _ h2
              obtain ⟨hp1, hk1⟩ := hCV _ _ _ _ _ h1
              obtain ⟨k1, hk1o⟩ := hk1.1
              refine ⟨(hp1.ptrans (pushInstruction_pres_of _ (Pres.prefl _))).ptrans hp2,
                ?_, ?_⟩
              · rw [hs2]
                simp only [pushInstruction, modifyCur]
                rw [hk1.2]
              · refine ⟨k1 + k2, ?_⟩
                rw [ho2]
                simp only [pushInstruction, modifyCur]
                rw [hk1o]
                have e1 : qqPend 0 (nl + 1) = 0 := by
                  simp only [qqPend]
                  rw [if_neg (by omega)]
                have e2 : qqPend 0 nl = 0 := by
                  simp only [qqPend]
                  rw [if_neg (fun hc => hnl1 hc.2)]
                rw [e1, e2]
                generalize qqPend r.1 r.2 = q
                push_cast
                ring
        · simp only [qqFixup] at h
          rw [if_neg (fun hc => hni hc.1)] at h
          simp only [qqClose_pos hni] at h
          simp at h
          obtain ⟨u1, st1, h1, h2⟩ := cbind_eq_ok h
          obtain ⟨hp2, hs2, k2, ho2⟩ := hQL _ _ _ _ _ _ _ _ h2
          obtain ⟨hp1, hk1⟩ := hCV _ _ _ _ _ h1
          obtain ⟨k1, hk1o⟩ := hk1.1
          refine ⟨((pushInstruction_pres_of _ (pushInstruction_pres_of _
            (Pres.prefl st))).ptrans hp1).ptrans
            ((pushInstruction_pres_of _ (Pres.prefl _)).ptrans hp2), ?_, ?_⟩
          · rw [hs2]
            simp only [pushInstruction, modifyCur]
            rw [hk1.2]
            simp only [pushInstruction, modifyCur]
          · refine ⟨k1 + k2, ?_⟩
            rw [ho2]
            simp only [pushInstruction, modifyCur]
            rw [hk1o]
            simp only [pushInstruction, modifyCur]
            have e1 : qqPend 0 (nl + 1 + 1) = 0 := by
              simp only [qqPend]
              rw [if_neg (by omega)]
            have e2 : qqPend ni nl = 0 := by
              simp only [qqPend]
              rw [if_neg (fun hc => hni hc.1)]
            rw [e1, e2]
            generalize qqPend r.1 r.2 = q
            push_cast
            ring
      · split at h
        · exact absurd h (by simp [cerr])
        · obtain ⟨u1, st1, h1, h2⟩ := cbind_eq_ok h
          obtain ⟨hp2, hs2, k2, ho2⟩ := hQL _ _ _ _ _ _ _ _ h2
          obtain ⟨hp1, hk1⟩ := hQQ _ _ _ _ _ _ h1
          obtain ⟨k1, hk1o⟩ := hk1.1
          refine ⟨((qqFixup_facts ni nl st).1.ptrans hp1).ptrans
            ((pushInstruction_pres_of _ (pushInstruction_pres_of _
              (Pres.prefl _))).ptrans hp2), ?_, ?_⟩
          · rw [hs2]
            simp only [pushInstruction, modifyCur]
            rw [hk1.2, (qqFixup_facts ni nl st).2.1]
          · refine ⟨k1 + k2, ?_⟩
            rw [ho2]
            simp only [pushInstruction, modifyCur]
            rw [hk1o, (qqFixup_facts ni nl st).2.2]
            have e1 : qqPend (ni + 1) nl = 0 := by
              simp only [qqPend]
              rw [if_neg (by omega)]
            rw [e1]
            generalize qqPend r.1 r.2 = q
            generalize qqPend ni nl = p
            push_cast
            ring
    · obtain ⟨u1, st1, h1, h2⟩ := cbind_eq_ok h
      obtain ⟨hp2, hs2, k2, ho2⟩ := hQL _ _ _ _ _ _ _ _ h2
      obtain ⟨hp1, hk1⟩ := hQQ _ _ _ _ _ _ h1
      obtain ⟨k1, hk1o⟩ := hk1.1
      refine ⟨((qqFixup_facts ni nl st).1.ptrans hp1).ptrans
        ((pushInstruction_pres_of _ (Pres.prefl _)).ptrans hp2), ?_, ?_⟩
      · rw [hs2]
        simp only [pushInstruction, modifyCur]
        rw [hk1.2, (qqFixup_facts ni nl st).2.1]
      · refine ⟨k1 + k2, ?_⟩
        rw [ho2]
        simp only [pushInstruction, modifyCur]
        rw [hk1o, (qqFixup_facts ni nl st).2.2]
        have e1 : qqPend (ni + 1) nl = 0 := by
          simp only [qqPend]
          rw [if_neg (by omega)]
        rw [e1]
        generalize qqPend r.1 r.2 = q
        generalize qqPend ni nl = p
        push_cast
        ring

theorem evCompileQuasiquoteList (fuel : Nat) (hQL : EvQqListLoop fuel) :
    EvCompileQuasiquoteList (fuel + 1) := by
  intro env li depth st r st' h
  simp only [compileQuasiquoteList] at h
  obtain ⟨res, st1, h1, h2⟩ := cbind_eq_ok h
  obtain ⟨hp1, hs1, k1, ho1⟩ := hQL _ _ _ _ _ _ _ _ h1
  have e00 : qqPend 0 0 = 0 := by simp [qqPend]
  rw [e00] at ho1
  have hpend0 : ∀ a b : Nat, a ≠ 0 → qqPend a b = 0 := by
    intro a b ha
    simp only [qqPend]
    rw [if_neg (fun hc => ha hc.1)]
  split at h2
  · rename_i hr1
    split at h2
    · rename_i hr2
      simp only [qqFinish] at h2
      rw [if_pos (by omega)] at h2
      cases h2
      refine ⟨hp1.ptrans (pushInstruction_pres_of _ (pushInstruction_pres_of _
        (pushInstruction_pres_of _ (Pres.prefl _)))), ⟨k1, ?_⟩, ?_⟩
      · simp only [pushInstruction, modifyCur]
        rw [ho1, hpend0 _ _ hr1]
        push_cast
        ring
      · simp only [pushInstruction, modifyCur]
        rw [hs1]
    · rename_i hr2
      simp only [qqFinish] at h2
      rw [if_neg (by omega)] at h2
      cases h2
      refine ⟨hp1.ptrans (pushInstruction_pres_of _ (Pres.prefl _)), ⟨k1, ?_⟩, ?_⟩
      · simp only [pushInstruction, modifyCur]
        rw [ho1, hpend0 _ _ hr1]
        have hz : res.2 = 0 := by omega
        rw [hz]
        push_cast
        ring
      · simp only [pushInstruction, modifyCur]
        rw [hs1]
  · rename_i hr1
    have hr1' : res.1 = 0 := by omega
    rw [hr1'] at ho1
    simp only [qqFinish] at h2
    split at h2
    · rename_i hgt
      cases h2
      refine ⟨hp1.ptrans (pushInstruction_pres_of _ (Pres.prefl _)), ⟨k1, ?_⟩, ?_⟩
      · simp only [pushInstruction, modifyCur]
        rw [ho1]
        have hq : qqPend 0 res.2 = 0 := by
          simp only [qqPend]
          rw [if_neg (by omega)]
        rw [hq]
        push_cast
        ring
      · simp only [pushInstruction, modifyCur]
        rw [hs1]
    · rename_i hle
      cases h2
      refine ⟨hp1, ⟨k1, ?_⟩, hs1⟩
      rw [ho1]
      have hq : (res.2 : Int) - qqPend 0 res.2 = 0 := by
        have h2' : res.2 = 0 ∨ res.2 = 1 := by omega
        rcases h2' with h2' | h2' <;> simp [qqPend, h2']
      linear_combination hq

theorem Stk.cast {a b : CompState} {d e : Int} (h : Stk a b d) (he : d = e) :
    Stk a b e := he ▸ h

theorem Stk.mono {a b : CompState} {d e : Int} (h : Stk a b d) (hde : e ≤ d) :
    Stk a b e := by
  obtain ⟨⟨k, hk⟩, hs⟩ := h
  refine ⟨⟨(d - e).toNat + k, ?_⟩, hs⟩
  have ht : ((d - e).toNat : Int) = d - e := Int.toNat_of_nonneg (by omega)
  rw [hk]
  push_cast
  rw [ht]
  ring

theorem writeCallSys_pres {nm : Name} {ar : Arity} {n : Nat} (st : CompState)
    (hacc : ar.accepts n = true) :
    Pres st (writeCallSys nm ar n st) ∧ Stk st (writeCallSys nm ar n st) (-(n : Int)) := by
  cases ar with
  | exact k =>
    have hk : n = k := by simpa [Arity.accepts] using hacc
    subst hk
    refine ⟨pushInstruction_pres_of _ (Pres.of_comp_eq rfl rfl rfl rfl),
      Stk.of_eq ?_ ?_⟩
    · simp only [writeCallSys, pushInstruction, modifyCur]
      ring
    · simp [writeCallSys, pushInstruction, modifyCur]
  | min k =>
    refine ⟨pushInstruction_pres_of _ (Pres.prefl st), Stk.of_eq ?_ ?_⟩
    · simp only [writeCallSys, pushInstruction, modifyCur]
      ring
    · simp [writeCallSys, pushInstruction, modifyCur]
  | range lo hi =>
    refine ⟨pushInstruction_pres_of _ (Pres.prefl st), Stk.of_eq ?_ ?_⟩
    · simp only [writeCallSys, pushInstruction, modifyCur]
      ring
    · simp [writeCallSys, pushInstruction, modifyCur]

theorem evFinishCall (fuel : Nat) (hCA : EvCompileArgsPush fuel) :
    EvFinishCall (fuel + 1) := by
  intro env fnV pf argsL st r st' h
  simp only [finishCall] at h
  obtain ⟨u1, st1, h1, h2⟩ := cbind_eq_ok h
  have hca := hCA _ _ _ _ _ h1
  split at h2
  · rename_i hpf
    cases h2
    have hpush : Stk st1 (pushInstruction (.call argsL.length) st1)
        (-((argsL.length : Int) + 1)) :=
      Stk.of_eq (by simp only [pushInstruction, modifyCur]; push_cast; ring)
        (pushInstruction_comp _ _).1
    refine ⟨hca.1.ptrans (pushInstruction_pres_of _ (Pres.prefl _)),
      fun _ => (hca.2.strans hpush).cast (by push_cast; ring), ?_⟩
    intro nm2 hf _
    rw [hpf] at hf
    exact absurd hf (by simp)
  · rename_i hpf
    split at h2
    · rename_i nm
      split at h2
      · cases h2
        have hpush : Stk st1 (pushInstruction (.callSelf argsL.length) st1)
            (-(argsL.length : Int)) :=
          Stk.of_eq (by simp only [pushInstruction, modifyCur]; push_cast; ring)
            (pushInstruction_comp _ _).1
        exact ⟨hca.1.ptrans (pushInstruction_pres_of _ (Pres.prefl _)),
          fun hc => absurd hc hpf,
          fun _ _ _ => (hca.2.strans hpush).cast (by push_cast; ring)⟩
      · split at h2
        · rename_i ar heq
          split at h2
          · rename_i hacc
            cases h2
            exact ⟨hca.1.ptrans (writeCallSys_pres st1 hacc).1,
              fun hc => absurd hc hpf,
              fun _ _ _ => (hca.2.strans (writeCallSys_pres st1 hacc).2).cast
                (by push_cast; ring)⟩
          · exact absurd h2 (by simp [cerr])
        · cases h2
          have hpush : Stk (addConst (.name nm) st1).2
              (pushInstruction
                (.callConst (addConst (.name nm) st1).1 argsL.length)
                (addConst (.name nm) st1).2) (-(argsL.length : Int)) :=
            Stk.of_eq (by simp only [pushInstruction, modifyCur]; push_cast; ring)
              (pushInstruction_comp _ _).1
          exact ⟨hca.1.ptrans ((addConst_comp _ _).1.ptrans
              (pushInstruction_pres_of _ (Pres.prefl _))),
            fun hc => absurd hc hpf,
            fun _ _ _ => ((hca.2.strans (addConst_comp _ _).2).strans hpush).cast
              (by push_cast; ring)⟩
    · cases h2
      rename_i hnot
      exact ⟨hca.1, fun hc => absurd hc hpf,
        fun nm2 _ he => absurd he (by intro hh; exact hnot nm2 hh)⟩

theorem inlineConst0_pres {v : Value} {args : List Value} {st : CompState} {b : Bool}
    {st' : CompState} (h : inlineConst0 v args st = .ok (b, st')) :
    Pres st st' ∧ (b = false → st' = st) ∧ (b = true → Stk st st' 0) := by
  unfold inlineConst0 at h
  split at h
  · cases h
    exact ⟨(loadConstValue_pres v st).1, fun hb => absurd hb (by simp),
      fun _ => (loadConstValue_pres v st).2⟩
  · cases h
    exact ⟨Pres.prefl _, fun _ => rfl, fun hb => absurd hb (by simp)⟩

theorem evInlineUnary (fuel : Nat) (hCV : EvCompileValue fuel) :
    EvInlineUnary (fuel + 1) := by
  intro env i args st b st' hneut h
  simp only [inlineUnary] at h
  split at h
  · obtain ⟨u1, st1, h1, h2⟩ := cbind_eq_ok h
    cases h2
    have hchain := psTrans (hCV _ _ _ _ _ h1)
      (psPush _ _ 0 (by rw [hneut st1]; ring))
    exact ⟨hchain.1, fun hb => absurd hb (by simp),
      fun _ => hchain.2.cast (by norm_num)⟩
  · cases h
    exact ⟨Pres.prefl _, fun _ => rfl, fun hb => absurd hb (by simp)⟩

theorem evInlineCmp (fuel : Nat) (hCV : EvCompileValue fuel) :
    EvInlineCmp (fuel + 1) := by
  intro env ci pi args st b st' hci hpi h
  simp only [inlineCmp] at h
  split at h
  · split at h
    · obtain ⟨u1, st1, h1, h2⟩ := cbind_eq_ok h
      cases h2
      refine ⟨?_, fun hb => absurd hb (by simp), fun _ => ?_⟩
      · exact (psTrans (hCV _ _ _ _ _ h1) (psTrans (addConstValue_comp _ _)
          (psPush _ _ 0 (by rw [hci]; ring)))).1
      · exact ((psTrans (hCV _ _ _ _ _ h1) (psTrans (addConstValue_comp _ _)
          (psPush _ _ 0 (by rw [hci]; ring)))).2).cast (by norm_num)
    · split at h
      · obtain ⟨u1, st1, h1, h2⟩ := cbind_eq_ok h
        cases h2
        refine ⟨?_, fun hb => absurd hb (by simp), fun _ => ?_⟩
        · exact (psTrans (addConstValue_comp _ _) (psTrans (hCV _ _ _ _ _ h1)
            (psPush _ _ 0 (by rw [hci]; ring)))).1
        · exact ((psTrans (addConstValue_comp _ _) (psTrans (hCV _ _ _ _ _ h1)
            (psPush _ _ 0 (by rw [hci]; ring)))).2).cast (by norm_num)
      · obtain ⟨u1, st1, h1, h2⟩ := cbind_eq_ok h
        obtain ⟨u2, st2, h3, h4⟩ := cbind_eq_ok h2
        cases h4
        refine ⟨?_, fun hb => absurd hb (by simp), fun _ => ?_⟩
        · exact (psTrans (hCV _ _ _ _ _ h1)
            (psTrans (psPush _ _ 1 (by simp [pushInstruction, modifyCur]))
              (psTrans (hCV _ _ _ _ _ h3)
                (psPush _ _ (-1) (by rw [hpi]; ring))))).1
        · exact ((psTrans (hCV _ _ _ _ _ h1)
            (psTrans (psPush _ _ 1 (by simp [pushInstruction, modifyCur]))
              (psTrans (hCV _ _ _ _ _ h3)
                (psPush _ _ (-1) (by rw [hpi]; ring))))).2).cast (by norm_num)
  · cases h
    exact ⟨Pres.prefl _, fun _ => rfl, fun hb => absurd hb (by simp)⟩

theorem evInlineAppendForm (fuel : Nat) (hCV : EvCompileValue fuel) :
    EvInlineAppendForm (fuel + 1) := by
  intro env args st b st' h
  simp only [inlineAppendForm] at h
  split at h
  · obtain ⟨u1, st1, h1, h2⟩ := cbind_eq_ok h
    obtain ⟨u2, st2, h3, h4⟩ := cbind_eq_ok h2
    cases h4
    refine ⟨?_, fun hb => absurd hb (by simp), fun _ => ?_⟩
    · exact (psTrans (hCV _ _ _ _ _ h1)
        (psTrans (psPush _ _ 1 (by simp [pushInstruction, modifyCur]))
          (psTrans (hCV _ _ _ _ _ h3)
            (psPush _ _ 0 (by simp [pushInstruction, modifyCur]))))).1
    · exact ((psTrans (hCV _ _ _ _ _ h1)
        (psTrans (psPush _ _ 1 (by simp [pushInstruction, modifyCur]))
          (psTrans (hCV _ _ _ _ _ h3)
            (psPush _ _ 0 (by simp [pushInstruction, modifyCur]))))).2).mono
        (by norm_num)
  · cases h
    exact ⟨Pres.prefl _, fun _ => rfl, fun hb => absurd hb (by simp)⟩

theorem evInlineListForm (fuel : Nat) (hCA : EvCompileArgsPush fuel) :
    EvInlineListForm (fuel + 1) := by
  intro env args st b st' h
  simp only [inlineListForm] at h
  split at h
  · cases h
    have hchain := psPush Instruction.unit st 0 (by simp [pushInstruction, modifyCur])
    exact ⟨hchain.1, fun hb => absurd hb (by simp), fun _ => hchain.2⟩
  · obtain ⟨u1, st1, h1, h2⟩ := cbind_eq_ok h
    cases h2
    have hca := hCA _ _ _ _ _ h1
    have hpush : Stk st1 (pushInstruction (.list args.length) st1)
        (-(args.length : Int)) :=
      Stk.of_eq (by simp only [pushInstruction, modifyCur]; push_cast; ring)
        (pushInstruction_comp _ _).1
    exact ⟨hca.1.ptrans (pushInstruction_pres_of _ (Pres.prefl _)),
      fun hb => absurd hb (by simp),
      fun _ => (hca.2.strans hpush).cast (by push_cast; ring)⟩

theorem evInlineIdForm (fuel : Nat) (hCV : EvCompileValue fuel) :
    EvInlineIdForm (fuel + 1) := by
  intro env args st b st' h
  simp only [inlineIdForm] at h
  split at h
  · obtain ⟨u1, st1, h1, h2⟩ := cbind_eq_ok h
    cases h2
    have hchain := hCV _ _ _ _ _ h1
    exact ⟨hchain.1, fun hb => absurd hb (by simp), fun _ => hchain.2⟩
  · cases h
    exact ⟨Pres.prefl _, fun _ => rfl, fun hb => absurd hb (by simp)⟩

theorem evInlineCall (fuel : Nat) (hU : EvInlineUnary fuel) (hC : EvInlineCmp fuel)
    (hA : EvInlineAppendForm fuel) (hL : EvInlineListForm fuel)
    (hI : EvInlineIdForm fuel) : EvInlineCall (fuel + 1) := by
  intro env nm args st b st' h
  simp only [inlineCall] at h
  by_cases hn1 : nm = nmNull
  · rw [if_pos hn1] at h
    exact hU _ _ _ _ _ _ (by intro s2; simp [pushInstruction, modifyCur]) h
  rw [if_neg hn1] at h
  by_cases hn2 : nm = nmEq
  · rw [if_pos hn2] at h
    exact hC _ _ _ _ _ _ _ (by intro c s2; simp [pushInstruction, modifyCur])
          (by intro s2; simp only [pushInstruction, modifyCur]) h
  rw [if_neg hn2] at h
  by_cases hn3 : nm = nmNotEq
  · rw [if_pos hn3] at h
    exact hC _ _ _ _ _ _ _ (by intro c s2; simp [pushInstruction, modifyCur])
          (by intro s2; simp only [pushInstruction, modifyCur]) h
  rw [if_neg hn3] at h
  by_cases hn4 : nm = nmNot
  · rw [if_pos hn4] at h
    exact hU _ _ _ _ _ _ (by intro s2; simp [pushInstruction, modifyCur]) h
  rw [if_neg hn4] at h
  by_cases hn5 : nm = nmInf
  · rw [if_pos hn5] at h
    exact inlineConst0_pres h
  rw [if_neg hn5] at h
  by_cases hn6 : nm = nmNan
  · rw [if_pos hn6] at h
    exact inlineConst0_pres h
  rw [if_neg hn6] at h
  by_cases hn7 : nm = nmAppend
  · rw [if_pos hn7] at h
    exact hA _ _ _ _ _ h
  rw [if_neg hn7] at h
  by_cases hn8 : nm = nmFirst
  · rw [if_pos hn8] at h
    exact hU _ _ _ _ _ _ (by intro s2; simp [pushInstruction, modifyCur]) h
  rw [if_neg hn8] at h
  by_cases hn9 : nm = nmTail
  · rw [if_pos hn9] at h
    exact hU _ _ _ _ _ _ (by intro s2; simp [pushInstruction, modifyCur]) h
  rw [if_neg hn9] at h
  by_cases hn10 : nm = nmInit
  · rw [if_pos hn10] at h
    exact hU _ _ _ _ _ _ (by intro s2; simp [pushInstruction, modifyCur]) h
  rw [if_neg hn10] at h
  by_cases hn11 : nm = nmLast
  · rw [if_pos hn11] at h
    exact hU _ _ _ _ _ _ (by intro s2; simp [pushInstruction, modifyCur]) h
  rw [if_neg hn11] at h
  by_cases hn12 : nm = nmList
  · rw [if_pos hn12] at h
    exact hL _ _ _ _ _ h
  rw [if_neg hn12] at h
  by_cases hn13 : nm = nmId
  · rw [if_pos hn13] at h
    exact hI _ _ _ _ _ h
  rw [if_neg hn13] at h
  cases h
  exact ⟨Pres.prefl _, fun _ => rfl, fun hb => absurd hb (by simp)⟩

theorem evCompileOperator (fuel : Nat) (hAp : EvOpApply fuel) (hDo : EvOpDo fuel)
    (hLet : EvOpLet fuel) (hDef : EvOpDefine fuel) (hMac : EvOpMacroForm fuel)
    (hIf : EvOpIf fuel) (hAnd : EvOpAnd fuel) (hOr : EvOpOr fuel)
    (hCase : EvOpCase fuel) (hCond : EvOpCond fuel) (hLam : EvOpLambda fuel) :
    EvCompileOperator (fuel + 1) := by
  intro env nm args st r st' h
  simp only [compileOperator] at h
  split at h
  · exact absurd h (by simp)
  · rename_i ar heq
    by_cases hacc : ar.accepts args.length = true
    · rw [if_pos hacc] at h
      by_cases hn1 : nm = nmApply
      · rw [if_pos hn1] at h
        subst hn1
        rw [show sysOpArity nmApply = some (Arity.min 2) from rfl] at heq
        cases heq
        refine hAp _ _ _ _ _ ?_ h
        simpa [Arity.accepts] using hacc
      rw [if_neg hn1] at h
      by_cases ho2 : nm = nmDo
      · rw [if_pos ho2] at h
        exact hDo _ _ _ _ _ h
      rw [if_neg ho2] at h
      by_cases ho3 : nm = nmLet
      · rw [if_pos ho3] at h
        exact hLet _ _ _ _ _ h
      rw [if_neg ho3] at h
      by_cases ho4 : nm = nmDefine
      · rw [if_pos ho4] at h
        exact hDef _ _ _ _ _ h
      rw [if_neg ho4] at h
      by_cases ho5 : nm = nmMacroDef
      · rw [if_pos ho5] at h
        exact hMac _ _ _ _ _ h
      rw [if_neg ho5] at h
      by_cases ho6 : nm = nmStruct
      · rw [if_pos ho6] at h
        exact opStruct_pres h
      rw [if_neg ho6] at h
      by_cases ho7 : nm = nmIf
      · rw [if_pos ho7] at h
        exact hIf _ _ _ _ _ h
      rw [if_neg ho7] at h
      by_cases ho8 : nm = nmAnd
      · rw [if_pos ho8] at h
        exact hAnd _ _ _ _ _ h
      rw [if_neg ho8] at h
      by_cases ho9 : nm = nmOr
      · rw [if_pos ho9] at h
        exact hOr _ _ _ _ _ h
      rw [if_neg ho9] at h
      by_cases ho10 : nm = nmCase
      · rw [if_pos ho10] at h
        exact hCase _ _ _ _ _ h
      rw [if_neg ho10] at h
      by_cases ho11 : nm = nmCond
      · rw [if_pos ho11] at h
        exact hCond _ _ _ _ _ h
      rw [if_neg ho11] at h
      by_cases ho12 : nm = nmLambdaOp
      · rw [if_pos ho12] at h
        exact hLam _ _ _ _ _ h
      rw [if_neg ho12] at h
      by_cases ho13 : nm = nmExport
      · rw [if_pos ho13] at h
        exact opExport_pres h
      rw [if_neg ho13] at h
      by_cases ho14 : nm = nmUse
      · rw [if_pos ho14] at h
        exact opUse_pres h
      rw [if_neg ho14] at h
      exact absurd h (by simp)
    · rw [if_neg hacc] at h
      exact absurd h (by simp [cerr])

theorem evCompileValue (fuel : Nat) (hFC : EvFinishCall fuel)
    (hCO : EvCompileOperator fuel) (hIC : EvInlineCall fuel)
    (hCV : EvCompileValue fuel) (hQQ : EvCompileQuasiquote fuel) :
    EvCompileValue (fuel + 1) := by
  intro env v st r st' h
  simp only [compileValue] at h
  split at h
  · rename_i n
    split at h
    · cases h
      exact loadLocalName_pres
    · cases h
      exact psCast (psTrans loadLocalName_pres (psTrans (addConst_comp _ _)
        (psPush _ _ 0 (by simp [pushInstruction, modifyCur])))) (by norm_num)
  · split at h
    · exact absurd h (by simp)
    · split at h
      · rename_i nm
        by_cases hl : (loadLocalName nm st).1 = true
        · rw [if_pos hl] at h
          have hfc := hFC _ _ _ _ _ _ _ h
          exact psCast (psTrans (@loadLocalName_pres nm st)
            (psTrans (psPush _ _ 1 (by simp [pushInstruction, modifyCur]))
              ⟨hfc.1, hfc.2.1 rfl⟩)) (by norm_num)
        · rw [if_neg hl] at h
          by_cases hs : (loadLocalName nm st).2.comp.selfName = some nm
          · rw [if_pos hs] at h
            have hfc := hFC _ _ _ _ _ _ _ h
            exact psCast (psTrans (@loadLocalName_pres nm st)
              ⟨hfc.1, hfc.2.2 nm rfl rfl⟩) (by norm_num)
          · rw [if_neg hs] at h
            by_cases hm : (loadLocalName nm st).2.scope.containsMacro nm = true
            · rw [if_pos hm] at h
              obtain ⟨ev, st3, h1, h2⟩ := cbind_eq_ok h
              have he3 := expandMacroFn_ok h1
              subst he3
              obtain ⟨u4, st4, h3, h4⟩ := cbind_eq_ok h2
              cases h4
              obtain ⟨hp4, hk4⟩ := hCV _ _ _ _ _ h3
              have hll := @loadLocalName_pres nm st
              refine ⟨⟨?_, ?_, ?_, ?_, ?_⟩, ⟨?_, ?_⟩⟩
              · exact hp4.1.trans hll.1.1
              · exact hp4.2.1.trans hll.1.2.1
              · show st4.comp.macroRecursion - 1 = st.comp.macroRecursion
                have e1 : st4.comp.macroRecursion
                    = (loadLocalName nm st).2.comp.macroRecursion + 1 := hp4.2.2.1
                rw [e1]
                simp [hll.1.2.2.1]
              · exact hll.1.2.2.2.1.trans hp4.2.2.2.1
              · exact fun hn => hp4.2.2.2.2 (hll.1.2.2.2.2 hn)
              · obtain ⟨k4, hk4o⟩ := hk4.1
                obtain ⟨k0, hk0⟩ := hll.2.1
                refine ⟨k0 + k4, ?_⟩
                show st4.comp.stackOffset
                  = st.comp.stackOffset + 0 + ((k0 + k4 : Nat) : Int)
                have e2 : st4.comp.stackOffset
                    = (loadLocalName nm st).2.comp.stackOffset + 0 + (k4 : Int) := hk4o
                rw [e2, hk0]
                push_cast
                ring
              · show st4.comp.stack = st.comp.stack
                have e3 : st4.comp.stack = (loadLocalName nm st).2.comp.stack := hk4.2
                rw [e3, hll.2.2]
            · rw [if_neg hm] at h
              by_cases hso : isSystemOperator nm = true
              · rw [if_pos hso] at h
                exact psCast (psTrans (@loadLocalName_pres nm st)
                  (hCO _ _ _ _ _ _ h)) (by norm_num)
              · rw [if_neg hso] at h
                obtain ⟨inl, st2, h1, h2⟩ := cbind_eq_ok h
                have hic := hIC _ _ _ _ _ _ h1
                split at h2
                · rename_i hinl
                  cases h2
                  exact psCast (psTrans (@loadLocalName_pres nm st)
                    ⟨hic.1, hic.2.2 hinl⟩) (by norm_num)
                · rename_i hninl
                  have hinl2 : inl = false := by
                    cases inl
                    · rfl
                    · exact absurd rfl hninl
                  have hse := hic.2.1 hinl2
                  subst hse
                  have hfc := hFC _ _ _ _ _ _ _ h2
                  exact psCast (psTrans (@loadLocalName_pres nm st)
                    ⟨hfc.1, hfc.2.2 nm rfl rfl⟩) (by norm_num)
      · obtain ⟨u1, st1, h1, h2⟩ := cbind_eq_ok h
        have hfc := hFC _ _ _ _ _ _ _ h2
        exact psCast (psTrans (hCV _ _ _ _ _ h1)
          (psTrans (psPush _ _ 1 (by simp [pushInstruction, modifyCur]))
            ⟨hfc.1, hfc.2.1 rfl⟩)) (by norm_num)
      · exact absurd h (by simp [cerr])
  · exact absurd h (by simp [cerr])
  · exact absurd h (by simp [cerr])
  · exact hQQ _ _ _ _ _ _ h
  · cases h
    exact loadConstValue_pres _ _

/-- The per-function invariants hold at every fuel: proved by
induction on the fuel, assembling the step lemmas. -/
theorem evolution : ∀ fuel, EvAll fuel := by
  intro fuel
  induction fuel with
  | zero =>
    refine ⟨?_, ?_, ?_, ?_, ?_, ?_, ?_, ?_, ?_, ?_, ?_, ?_, ?_, ?_, ?_, ?_, ?_,
      ?_, ?_, ?_, ?_, ?_, ?_, ?_, ?_, ?_, ?_, ?_, ?_, ?_, ?_, ?_, ?_, ?_⟩
    all_goals simp only [EvCompileValue, EvFinishCall, EvCompileArgsPush,
      EvCompileOperator, EvOpApply, EvOpDo, EvOpLet, EvLetBindings, EvOpDefine,
      EvOpMacroForm, EvOpIf, EvShortCircuitLoop, EvOpAnd, EvOpOr, EvOpCase,
      EvCaseClauses, EvOpCond, EvCondClauses, EvCondTest, EvOpLambda,
      EvMakeLambda, EvCompileLambdaBody, EvParamInitLoop, EvKwInitLoop,
      EvBranchIfUnbound, EvCompileQuasiquote, EvCompileQuasiquoteList,
      EvQqListLoop, EvInlineUnary, EvInlineCmp, EvInlineAppendForm,
      EvInlineListForm, EvInlineIdForm, EvInlineCall]
    all_goals intros
    all_goals simp_all [compileValue, finishCall, compileArgsPush, compileOperator,
      opApply, opDo, opLet, letBindings, opDefine, opMacroForm, opIf,
      shortCircuitLoop, opAnd, opOr, opCase, caseClauses, opCond, condClauses,
      condTest, opLambda, makeLambda, compileLambdaBody, paramInitLoop, kwInitLoop,
      branchIfUnbound, compileQuasiquote, compileQuasiquoteList, qqListLoop,
      inlineUnary, inlineCmp, inlineAppendForm, inlineListForm, inlineIdForm,
      inlineCall]
  | succ fuel ih =>
    obtain ⟨hCV, hFC, hCA, hCO, hAp, hDo, hLet, hLB, hDef, hMac, hIf, hSC, hAnd,
      hOr, hCase, hCC, hCond, hCd, hCT, hLam, hML, hCLB, hPI, hKI, hBIU, hQQ,
      hQL, hQLL, hU, hCm, hA, hL, hI, hIC⟩ := ih
    exact ⟨evCompileValue fuel hFC hCO hIC hCV hQQ,
      evFinishCall fuel hCA,
      evCompileArgsPush fuel hCV hCA,
      evCompileOperator fuel hAp hDo hLet hDef hMac hIf hAnd hOr hCase hCond hLam,
      evOpApply fuel hCV hCA,
      evOpDo fuel hCV hDo,
      evOpLet fuel hCV hLB,
      evLetBindings fuel hCV hLB,
      evOpDefine fuel hCV hML,
      evOpMacroForm fuel hML,
      evOpIf fuel hCV,
      evShortCircuitLoop fuel hCV hSC,
      evOpAnd fuel hCV hSC,
      evOpOr fuel hCV hSC,
      evOpCase fuel hCV hCC,
      evCaseClauses fuel hCV hCC,
      evOpCond fuel hCd,
      evCondClauses fuel hCV hCT hCd,
      evCondTest fuel hCV,
      evOpLambda fuel hML,
      evMakeLambda fuel,
      evCompileLambdaBody fuel hPI hKI hCV,
      evParamInitLoop fuel hBIU hPI,
      evKwInitLoop fuel hBIU hKI,
      evBranchIfUnbound fuel hCV,
      evCompileQuasiquote fuel hCV hQQ hQL,
      evCompileQuasiquoteList fuel hQLL,
      evQqListLoop fuel hCV hQQ hQLL,
      evInlineUnary fuel hCV,
      evInlineCmp fuel hCV,
      evInlineAppendForm fuel hCV,
      evInlineListForm fuel hCA,
      evInlineIdForm fuel hCV,
      evInlineCall fuel hU hCm hA hL hI⟩

/-! ### Claim C4 — operand-width estimation -/

/-- Claim C4: the assembler sums the size of every block at the long
operand width (`calculate_size(false)`), adds one byte for the final
`Return`, and selects the short width exactly when this total is at
most the short-operand maximum; otherwise the long width is selected
for all operands. -/
theorem claimC4 (size : CodeBlock → Bool → Nat) (maxShortOperand : Nat)
    (blocks : List CodeBlock) :
    (writeJumpsShort size maxShortOperand blocks = true ↔
      (blocks.map (fun b => size b false)).sum + 1 ≤ maxShortOperand) ∧
    (writeJumpsShort size maxShortOperand blocks = false ↔
      maxShortOperand < (blocks.map (fun b => size b false)).sum + 1) := by
  unfold writeJumpsShort estimateSize
  rw [foldl_add_eq_sum, Nat.zero_add]
  constructor
  · exact decide_eq_true_iff
  · rw [decide_eq_false_iff_not, Nat.not_le]

/-! ### Claim C5 — constant-pool de-duplication -/

/-- Claim C5: `add_const(v)` returns the index of an already-stored
structurally identical constant when one exists (leaving the pool
unchanged) and otherwise appends `v` and returns its new index;
consequently a duplicate-free pool stays duplicate-free, and a second
call with the same value returns the same index and leaves the pool
unchanged. -/
theorem claimC5 (consts : List Value) (v : Value) :
    ((∃ c ∈ consts, c.isIdentical v = true) →
      (addConstList consts v).2 = consts ∧
      ∃ h : (addConstList consts v).1 < consts.length,
        (consts.get ⟨(addConstList consts v).1, h⟩).isIdentical v = true) ∧
    ((∀ c ∈ consts, c.isIdentical v = false) →
      addConstList consts v = (consts.length, consts ++ [v])) ∧
    (IdenticalFree consts → IdenticalFree (addConstList consts v).2) ∧
    (addConstList (addConstList consts v).2 v
      = ((addConstList consts v).1, (addConstList consts v).2)) := by
  rcases h : consts.findIdx? (fun c => c.isIdentical v) with _ | pos
  · have hall : ∀ c ∈ consts, c.isIdentical v = false :=
      List.findIdx?_eq_none_iff.mp h
    refine ⟨?_, ?_, ?_, ?_⟩
    · rintro ⟨c, hc, hid⟩
      rw [hall c hc] at hid
      exact absurd hid (by simp)
    · intro _
      simp [addConstList, h]
    · intro hfree
      simp only [addConstList, h]
      exact List.pairwise_append.mpr
        ⟨hfree, List.pairwise_singleton _ _, by
          intro a ha b hb
          rw [List.mem_singleton.mp hb]
          exact hall a ha⟩
    · simp only [addConstList, h]
      have : (consts ++ [v]).findIdx? (fun c => c.isIdentical v) = some consts.length := by
        rw [List.findIdx?_append, h]
        simp [Value.isIdentical_refl]
      simp [addConstList, this]
  · obtain ⟨hlt, hp, _⟩ := List.findIdx?_eq_some_iff_getElem.mp h
    refine ⟨?_, ?_, ?_, ?_⟩
    · intro _
      refine ⟨by simp [addConstList, h], ?_⟩
      simp only [addConstList, h]
      exact ⟨hlt, by simpa using hp⟩
    · intro hall
      have := hall (consts[pos]) (consts.getElem_mem hlt)
      rw [this] at hp
      exact absurd hp (by simp)
    · intro hfree
      simpa [addConstList, h] using hfree
    · simp [addConstList, h]

/-- Witness for claim C5: a pool holding `7` is unchanged by
`add_const 7`; adding `7` to an empty pool appends it at index 0. -/
theorem claimC5_witness :
    (addConstList [Value.integer 7] (Value.integer 7)).2 = [Value.integer 7] ∧
    addConstList [] (Value.integer 7) = (0, [Value.integer 7]) :=
  ⟨((claimC5 [Value.integer 7] (Value.integer 7)).1
      ⟨Value.integer 7, by simp, by rfl⟩).1,
    (claimC5 [] (Value.integer 7)).2.1 (by simp)⟩

/-! ### Claim C6 — module-registry caching -/

/-- Claim C6: a second `get_module(name)` call after a successful first
call returns the identical cached module value without touching the
registry (in particular without invoking the loader again); a cache
miss invokes the loader exactly once; a cache hit invokes it not at
all; and a failed load is not cached. -/
theorem claimC6 (loader : Name → Except Unit Module) (name : Name) (r : RegistryState) :
    (∀ m r', registryGetModule loader name r = (.ok m, r') →
      registryGetModule loader name r' = (.ok m, r')) ∧
    (r.cache.lookup name = none →
      (registryGetModule loader name r).2.calls = r.calls ++ [name]) ∧
    (∀ m, r.cache.lookup name = some m →
      registryGetModule loader name r = (.ok m, r)) ∧
    (∀ e, r.cache.lookup name = none → loader name = .error e →
      registryGetModule loader name r = (.error e, ⟨r.cache, r.calls ++ [name]⟩)) := by
  refine ⟨?_, ?_, ?_, ?_⟩
  · intro m r' hfirst
    rcases hc : r.cache.lookup name with _ | m₀
    · rcases hl : loader name with e | m₁
      · simp [registryGetModule, hc, hl] at hfirst
      · simp only [registryGetModule, hc, hl] at hfirst
        obtain ⟨hm, hr⟩ := Prod.mk.injEq .. ▸ hfirst
        cases Except.ok.injEq .. ▸ hm
        subst hr
        simp [registryGetModule, nmInsert_lookup]
    · simp only [registryGetModule, hc] at hfirst
      obtain ⟨hm, hr⟩ := Prod.mk.injEq .. ▸ hfirst
      cases Except.ok.injEq .. ▸ hm
      subst hr
      simp [registryGetModule, hc]
  · intro hc
    rcases hl : loader name with e | m₁ <;> simp [registryGetModule, hc, hl]
  · intro m hc
    simp [registryGetModule, hc]
  · intro e hc hl
    simp [registryGetModule, hc, hl]

/-- Witness for claim C6 on a concrete loader: the module cached by the
first call is returned unchanged by the second, a fresh load logs one
loader invocation, and a failing loader leaves the cache empty. -/
theorem claimC6_witness :
    registryGetModule (fun _ => .ok ⟨4, ⟨[], [], none⟩⟩) 4
        (⟨[(4, ⟨4, ⟨[], [], none⟩⟩)], [4]⟩ : RegistryState)
      = (.ok ⟨4, ⟨[], [], none⟩⟩, ⟨[(4, ⟨4, ⟨[], [], none⟩⟩)], [4]⟩) ∧
    registryGetModule (fun _ => .error ()) 5 (⟨[], []⟩ : RegistryState)
      = (.error (), ⟨[], [5]⟩) :=
  ⟨(claimC6 (fun _ => .ok ⟨4, ⟨[], [], none⟩⟩) 4 ⟨[], []⟩).1
      ⟨4, ⟨[], [], none⟩⟩ ⟨[(4, ⟨4, ⟨[], [], none⟩⟩)], [4]⟩ (by rfl),
    (claimC6 (fun _ => .error ()) 5 ⟨[], []⟩).2.2.2 () (by rfl) (by rfl)⟩

/-! ### Claim C7 — compiled-file selection -/

/-- Claim C7: the file module loader chooses the compiled file exactly
when it exists and either the source is absent or the compiled file's
modification time is strictly greater (lexicographically on seconds and
nanoseconds); equal modification times select the source. -/
theorem claimC7 (codeMeta srcMeta : Option FileMeta) :
    (useCodeFile codeMeta srcMeta = true ↔
      codeMeta.isSome = true ∧
        (srcMeta = none ∨ ∃ mc ms, codeMeta = some mc ∧ srcMeta = some ms ∧
          (ms.mtime < mc.mtime ∨ (mc.mtime = ms.mtime ∧ ms.mtimeNsec < mc.mtimeNsec)))) ∧
    (∀ mc ms, codeMeta = some mc → srcMeta = some ms →
      mc.mtime = ms.mtime → mc.mtimeNsec = ms.mtimeNsec →
      useCodeFile codeMeta srcMeta = false) := by
  constructor
  · rcases codeMeta with _ | mc <;> rcases srcMeta with _ | ms
    · simp [useCodeFile]
    · simp [useCodeFile]
    · simp [useCodeFile]
    · simp only [useCodeFile, isYoungerImpl, decide_eq_true_iff, Option.isSome_some]
      constructor
      · intro hlt
        exact ⟨by simp, .inr ⟨mc, ms, rfl, rfl, hlt⟩⟩
      · rintro ⟨-, (h | ⟨mc', ms', hmc, hms, hlt⟩)⟩
        · cases h
        · cases hmc; cases hms; exact hlt
  · rintro mc ms rfl rfl h1 h2
    simp [useCodeFile, isYoungerImpl, h1, h2]

/-- Witness for claim C7: equal modification times select the source;
a strictly newer compiled file is selected. -/
theorem claimC7_witness :
    useCodeFile (some ⟨5, 7⟩) (some ⟨5, 7⟩) = false ∧
    useCodeFile (some ⟨6, 0⟩) (some ⟨5, 9⟩) = true :=
  ⟨(claimC7 (some ⟨5, 7⟩) (some ⟨5, 7⟩)).2 ⟨5, 7⟩ ⟨5, 7⟩ rfl rfl rfl rfl,
    (claimC7 (some ⟨6, 0⟩) (some ⟨5, 9⟩)).1.mpr
      ⟨rfl, .inr ⟨⟨6, 0⟩, ⟨5, 9⟩, rfl, rfl, .inl (by norm_num)⟩⟩⟩

/-! ### Claim C9 — import-guard chain restoration -/

/-- Claim C9: `guard_import` leaves the import path chain exactly as it
found it whether the guarded load succeeds or fails: provided the load
`f` itself returns the chain as it received it (nested guards are
balanced), the pushed path is popped on both outcomes, and when the
path is not already on the chain the guard's own cycle check never
fires — so a failed earlier attempt cannot make a later, independent
load of the same module fail with `ImportCycle`. -/
theorem claimC9 (α : Type) (chain : List String) (name : Name) (path : String)
    (f : List String → Except Err α × List String) :
    (chain.contains path = false →
      (f (chain ++ [path])).2 = chain ++ [path] →
      (guardImport chain name path f).2 = chain ∧
      (guardImport chain name path f).1 = (f (chain ++ [path])).1) ∧
    (chain.contains path = true →
      guardImport chain name path f
        = (.error (.compileErr (.importCycle name)), chain)) := by
  constructor
  · intro hmem hbal
    unfold guardImport
    rw [if_neg (by rw [hmem]; simp)]
    exact ⟨by simp [hbal], rfl⟩
  · intro hmem
    unfold guardImport
    rw [if_pos hmem]

/-- Witness for claim C9: a failing guarded load of path `"a"` from an
empty chain restores the empty chain and surfaces the load's error. -/
theorem claimC9_witness :
    (guardImport [] 3 "a" (fun c => ((.error .runtimeErr : Except Err Nat), c))).2 = [] ∧
    (guardImport [] 3 "a" (fun c => ((.error .runtimeErr : Except Err Nat), c))).1
      = .error .runtimeErr :=
  (claimC9 Nat [] 3 "a" (fun c => (.error .runtimeErr, c))).1 (by rfl) (by rfl)

/-! ### Claim C1 — macro recursion depth -/

/-- Claim C1 (corrected): the recursion counter is incremented before
`expand_macro` checks it, so the `k`-th nested expansion is checked
against counter value `k`: an expansion whose (incremented) counter is
still below the limit passes the depth check and re-enters the VM,
while the expansion that brings the counter to 100 — the 100th of a
nested chain, not the 101st — fails with `MacroRecursionExceeded`. -/
theorem claimC1 (env : Env) (nm : Name) (args : List Value) (st : CompState) :
    (st.comp.macroRecursion ≥ maxMacroRecursion →
      expandMacroFn env nm args st = cerr .macroRecursionExceeded) ∧
    (st.comp.macroRecursion < maxMacroRecursion →
      ∀ lam v, st.scope.getMacro nm = some lam → env.execLambda lam args = .ok v →
        expandMacroFn env nm args st = .ok (v, st)) := by
  constructor
  · intro hge
    unfold expandMacroFn
    rw [if_pos hge]
  · intro hlt lam v hm hv
    unfold expandMacroFn
    rw [if_neg (by omega), hm]
    dsimp only
    rw [hv]

set_option maxRecDepth 10000

/-- Claim C1's counterexample: under a macro whose expansion is the
same macro call again, compiling from a fresh compiler (counter 0)
fails with `MacroRecursionExceeded`; the 100th nested expansion (which
runs with the counter already incremented to 100) is rejected, where
the spec says the first 100 expansions succeed, while the 99th-counter
expansion still passes. -/
theorem claimC1_counterexample :
    (match compileValue 150 envCyc (.list [.name nmM]) (stM 0) with
      | .error e => some e
      | .ok _ => none) = some (.compileErr .macroRecursionExceeded) ∧
    (stM 0).comp.macroRecursion = 0 ∧
    (match expandMacroFn envCyc nmM [] (stM 100) with
      | .error e => some e
      | .ok _ => none) = some (.compileErr .macroRecursionExceeded) ∧
    (match expandMacroFn envCyc nmM [] (stM 99) with
      | .ok (v, _) => some (Value.isIdentical v (.list [.name nmM]))
      | .error _ => none) = some true := by
  exact ⟨by decide, by decide, by decide, by decide⟩

/-- Witness for claim C1 at concrete states: counter 100 is rejected,
counter 5 expands. -/
theorem claimC1_witness :
    expandMacroFn envCyc nmM [] (stM 100) = cerr .macroRecursionExceeded ∧
    expandMacroFn envCyc nmM [] (stM 5) = .ok (.list [.name nmM], stM 5) :=
  ⟨(claimC1 envCyc nmM [] (stM 100)).1 (by decide),
   (claimC1 envCyc nmM [] (stM 5)).2 (by decide) 0 (.list [.name nmM])
     (by decide) rfl⟩

/-! ### Claim C2 — CommaAt below the quasi-depth -/

/-- Claim C2 (corrected): a `CommaAt` below the current quasi-depth is
spliced only in list position.  In non-list position the source `match`
of `compile_quasiquote` has no arm for it, so the catch-all loads the
entire `,@`-value as a quoted constant — no recursion on the inner
value and no `CommaAt` instruction (first conjunct).  In list position
the loop recurses on the inner value at depth `d - n` and emits
`CommaAt(d - n)` followed by `Push` (second conjunct). -/
theorem claimC2 (fuel : Nat) (env : Env) (x : Value) (n d : Nat) (st : CompState)
    (rest : List Value) (ni nl : Nat) (hlt : n < d) :
    compileQuasiquote (fuel + 1) env (.commaAt x n) d st =
      .ok ((), loadQuotedValue (.commaAt x n) st) ∧
    qqListLoop (fuel + 1) env (.commaAt x n :: rest) d ni nl st =
      (cbind (compileQuasiquote fuel env x (d - n) (qqFixup ni nl st)) fun _ st2 =>
        qqListLoop fuel env rest d (ni + 1) nl
          (pushInstruction .push (pushInstruction (.commaAt (d - n)) st2))) := by
  constructor
  · simp only [compileQuasiquote]
    rw [if_neg (by omega), if_neg (by omega)]
  · simp only [qqListLoop]
    rw [if_neg (by omega), if_neg (by omega)]

/-- Claim C2's counterexample: at depth 2, the non-list value `,@7`
(inner depth 1 < 2) compiles to a single `Const 0` whose constant is
the whole `,@`-value: nothing is emitted for the inner `7` and no
`CommaAt(1)` instruction appears. -/
theorem claimC2_counterexample :
    (match compileQuasiquote 5 envNone (.commaAt (.integer 7) 1) 2 stEmpty with
      | .ok (_, st') => some ((st'.comp.blocks.getD 0 CodeBlock.new).instrs,
          Value.isIdenticalList st'.comp.consts [.commaAt (.integer 7) 1])
      | .error _ => none) = some ([.const 0], true) := by
  decide

/-- Witness for claim C2 at `,@7` under depth 2 with empty loop
counters. -/
theorem claimC2_witness :
    (1 : Nat) < 2 ∧
    (compileQuasiquote 4 envNone (.commaAt (.integer 7) 1) 2 stEmpty =
      .ok ((), loadQuotedValue (.commaAt (.integer 7) 1) stEmpty) ∧
     qqListLoop 4 envNone (.commaAt (.integer 7) 1 :: []) 2 0 0 stEmpty =
      (cbind (compileQuasiquote 3 envNone (.integer 7) (2 - 1) (qqFixup 0 0 stEmpty))
        fun _ st2 => qqListLoop 3 envNone [] 2 (0 + 1) 0
          (pushInstruction .push (pushInstruction (.commaAt (2 - 1)) st2)))) :=
  ⟨by decide, claimC2 3 envNone (.integer 7) 1 2 stEmpty [] 0 0 (by decide)⟩

/-! ### Claim C3 — the stack offset across an expression -/

/-- Claim C3 (corrected): the spec says the stack offset ends one
greater than it started for every successfully compiled expression.  In
the code the compiled value is left in the value register, not on the
stack: compiling a constant leaves the offset unchanged (see the
counterexample).  The provable general invariants are that the named
stack is exactly unchanged and that the offset never decreases (it is
not always unchanged either: `push_instruction` makes no adjustment for
`Append`, so the inline `append` arm nets `+1`). -/
theorem claimC3 (fuel : Nat) (env : Env) (v : Value) (st : CompState) (r : Unit)
    (st' : CompState) (h : compileValue fuel env v st = .ok (r, st')) :
    st'.comp.stack = st.comp.stack ∧
    ∃ k : Nat, st'.comp.stackOffset = st.comp.stackOffset + k := by
  have hev := (evolution fuel).1 _ _ _ _ _ h
  refine ⟨hev.2.2, ?_⟩
  obtain ⟨k, hk⟩ := hev.2.1
  exact ⟨k, by rw [hk]; ring⟩

/-- Claim C3's counterexample: compiling the constant `42` succeeds and
leaves the stack offset exactly where it started, not one greater. -/
theorem claimC3_counterexample :
    (match compileValue 5 envNone (.integer 42) stEmpty with
      | .ok (_, st') => some st'.comp.stackOffset
      | .error _ => none) = some stEmpty.comp.stackOffset ∧
    stEmpty.comp.stackOffset + 1 ≠ stEmpty.comp.stackOffset := by
  exact ⟨by decide, by decide⟩

/-- Witness for claim C3 on the compile of the constant `42`. -/
theorem claimC3_witness :
    c3state.comp.stack = stEmpty.comp.stack ∧
    ∃ k : Nat, c3state.comp.stackOffset = stEmpty.comp.stackOffset + k := by
  have hok : (match compileValue 5 envNone (.integer 42) stEmpty with
      | .ok _ => true
      | .error _ => false) = true := by decide
  have hrun : compileValue 5 envNone (.integer 42) stEmpty = .ok ((), c3state) := by
    unfold c3state
    rcases hr : compileValue 5 envNone (.integer 42) stEmpty with e | ⟨u, s⟩
    · rw [hr] at hok
      simp at hok
    · rfl
  exact claimC3 5 envNone (.integer 42) stEmpty () c3state hrun

/-! ### Claim C8 — capture lists and name-resolution preference -/

/-- Claim C8: a compiled lambda's capture list holds each captured name
exactly once (`Nodup`, and `closure_value` appends a name only when it
is absent, at the end — first-reference order); name resolution prefers
the local stack, taking the rightmost match, over the self-name
(`load_local_name` answers a stack hit with `Load` of the rightmost
position and touches no captures), and the self-name over enclosing
captures (a self-name hit returns before `closure_value` is consulted,
capturing nothing). -/
theorem claimC8 :
    (∀ fuel env name? args body st lamId caps st',
      makeLambda fuel env name? args body st = .ok ((lamId, caps), st') →
      caps.Nodup) ∧
    (∀ (n : Name) (st : CompState) (m : Name) (pos : Int),
      st.comp.stack.reverse.find? (fun p => p.1 == n) = some (m, pos) →
      loadLocalName n st = (true, pushInstruction (.load pos) st)) ∧
    (∀ (n : Name) (st : CompState),
      st.comp.stack.reverse.find? (fun p => p.1 == n) = none →
      st.comp.selfName = some n →
      loadLocalName n st = (false, st)) ∧
    (∀ (n : Name) (st : CompState), n ∈ st.comp.captures →
      (closureValue n st).2 = st) ∧
    (∀ (n : Name) (st : CompState), n ∉ st.comp.captures →
      st.comp.outer.any (fun os => os.any (fun p => p.1 == n)) = true →
      closureValue n st =
        (some st.comp.captures.length,
         { st with comp.captures := st.comp.captures ++ [n] })) := by
  refine ⟨?_, ?_, ?_, ?_, ?_⟩
  · intro fuel env name? args body st lamId caps st' h
    cases fuel with
    | zero => simp [makeLambda] at h
    | succ f =>
      obtain ⟨_, _, _, _, _, _, _, _, _, _, _, _, _, _, _, _, _, _, _, _, _,
        hCLB, _⟩ := evolution f
      simp only [makeLambda] at h
      repeat' split at h
      all_goals first
        | (exfalso; revert h; simp [cerr]; done)
        | (rename_i cl nestSt heq
           obtain ⟨hcap, hcp⟩ := hCLB _ _ _ _ _ _ _ _ _ _ heq
           have hnd : nestSt.comp.captures.Nodup :=
             hcp.2 (by simp [CompUnit.withOuter])
           have hcaps : caps = cl.2 := by
             cases h
             rfl
           rw [hcaps, hcap]
           exact hnd)
  · intro n st m pos hfind
    simp only [loadLocalName, hfind]
  · intro n st hfind hself
    simp [loadLocalName, hfind, hself]
  · intro n st hmem
    unfold closureValue
    rcases hf : st.comp.captures.findIdx? (fun m => m == n) with _ | pos
    · have := List.findIdx?_eq_none_iff.mp hf n hmem
      simp at this
    · rfl
  · intro n st hmem hout
    unfold closureValue
    have hf : st.comp.captures.findIdx? (fun m => m == n) = none := by
      refine List.findIdx?_eq_none_iff.mpr ?_
      intro a ha
      simp only [beq_eq_false_iff_ne]
      intro hc
      exact hmem (hc ▸ ha)
    rw [hf]
    dsimp only
    rw [if_pos hout]

/-- Witness for claim C8: rightmost-match resolution on a stack with
`7` at offsets 0 and 3 picks offset 3. -/
theorem claimC8_witness :
    loadLocalName 7 c8state = (true, pushInstruction (.load 3) c8state) :=
  claimC8.2.1 7 c8state 7 3 (by decide)

/-! ### Claim C10 — intrinsics at the wrong arity -/

/-- A unary intrinsic arm of `inline_call` at any arity other than 1
declines: `Ok(false)` with the state untouched. -/
theorem inlineUnary_decline (fuel : Nat) (env : Env) (i : Instruction)
    (args : List Value) (st : CompState) (h : args.length ≠ 1) :
    inlineUnary (fuel + 1) env i args st = .ok (false, st) := by
  rcases args with _ | ⟨a, _ | ⟨b, r⟩⟩
  · rfl
  · exact absurd rfl h
  · rfl

/-- A comparison arm (`eq`, `/=`) at any arity other than 2 declines. -/
theorem inlineCmp_decline (fuel : Nat) (env : Env) (cInstr : Nat → Instruction)
    (plain : Instruction) (args : List Value) (st : CompState)
    (h : args.length ≠ 2) :
    inlineCmp fuel.succ env cInstr plain args st = .ok (false, st) := by
  rcases args with _ | ⟨a, _ | ⟨b, _ | ⟨c, r⟩⟩⟩
  · rfl
  · rfl
  · exact absurd rfl h
  · rfl

/-- A zero-argument constant arm (`inf`, `nan`) at a nonzero arity
declines. -/
theorem inlineConst0_decline (v : Value) (args : List Value) (st : CompState)
    (h : args.length ≠ 0) : inlineConst0 v args st = .ok (false, st) := by
  rcases args with _ | ⟨a, r⟩
  · exact absurd rfl h
  · rfl

/-- The `append` arm at any arity other than 2 declines. -/
theorem inlineAppendForm_decline (fuel : Nat) (env : Env) (args : List Value)
    (st : CompState) (h : args.length ≠ 2) :
    inlineAppendForm (fuel + 1) env args st = .ok (false, st) := by
  rcases args with _ | ⟨a, _ | ⟨b, _ | ⟨c, r⟩⟩⟩
  · rfl
  · rfl
  · exact absurd rfl h
  · rfl

/-- The `id` arm at any arity other than 1 declines. -/
theorem inlineIdForm_decline (fuel : Nat) (env : Env) (args : List Value)
    (st : CompState) (h : args.length ≠ 1) :
    inlineIdForm (fuel + 1) env args st = .ok (false, st) := by
  rcases args with _ | ⟨a, _ | ⟨b, r⟩⟩
  · rfl
  · exact absurd rfl h
  · rfl

/-- `inline_call` on any intrinsic head applied at an arity other than
its inline form returns `false` with the compiler state — hence the
emitted code — exactly unchanged. -/
theorem inlineCall_declines (fuel : Nat) (env : Env) (nm : Name) (k : Nat)
    (args : List Value) (st : CompState)
    (hmem : (nm, k) ∈ intrinsicArities) (hlen : args.length ≠ k) :
    inlineCall (fuel + 2) env nm args st = .ok (false, st) := by
  simp [intrinsicArities] at hmem
  rcases hmem with hc | hc | hc | hc | hc | hc | hc | hc | hc | hc | hc | hc <;>
    obtain ⟨rfl, rfl⟩ := hc
  · simp only [inlineCall]
    rw [if_pos trivial]
    exact inlineUnary_decline fuel env _ args st hlen
  · simp only [inlineCall]
    iterate 1 rw [if_neg (by decide)]
    rw [if_pos trivial]
    exact inlineCmp_decline fuel env _ _ args st hlen
  · simp only [inlineCall]
    iterate 2 rw [if_neg (by decide)]
    rw [if_pos trivial]
    exact inlineCmp_decline fuel env _ _ args st hlen
  · simp only [inlineCall]
    iterate 3 rw [if_neg (by decide)]
    rw [if_pos trivial]
    exact inlineUnary_decline fuel env _ args st hlen
  · simp only [inlineCall]
    iterate 4 rw [if_neg (by decide)]
    rw [if_pos trivial]
    exact inlineConst0_decline _ args st hlen
  · simp only [inlineCall]
    iterate 5 rw [if_neg (by decide)]
    rw [if_pos trivial]
    exact inlineConst0_decline _ args st hlen
  · simp only [inlineCall]
    iterate 6 rw [if_neg (by decide)]
    rw [if_pos trivial]
    exact inlineAppendForm_decline fuel env args st hlen
  · simp only [inlineCall]
    iterate 7 rw [if_neg (by decide)]
    rw [if_pos trivial]
    exact inlineUnary_decline fuel env _ args st hlen
  · simp only [inlineCall]
    iterate 8 rw [if_neg (by decide)]
    rw [if_pos trivial]
    exact inlineUnary_decline fuel env _ args st hlen
  · simp only [inlineCall]
    iterate 9 rw [if_neg (by decide)]
    rw [if_pos trivial]
    exact inlineUnary_decline fuel env _ args st hlen
  · simp only [inlineCall]
    iterate 10 rw [if_neg (by decide)]
    rw [if_pos trivial]
    exact inlineUnary_decline fuel env _ args st hlen
  · simp only [inlineCall]
    iterate 12 rw [if_neg (by decide)]
    rw [if_pos trivial]
    exact inlineIdForm_decline fuel env args st hlen

/-- No intrinsic name is a system operator, so a call headed by one
reaches the `inline_call` dispatch of `compile_value`. -/
theorem intrinsicNotSysOp (nm : Name) (k : Nat)
    (hmem : (nm, k) ∈ intrinsicArities) : isSystemOperator nm = false := by
  simp [intrinsicArities] at hmem
  rcases hmem with hc | hc | hc | hc | hc | hc | hc | hc | hc | hc | hc | hc <;>
    obtain ⟨rfl, rfl⟩ := hc
  all_goals decide

/-- Claim C10: every intrinsic name (per `intrinsicArities`) applied at
an arity other than its inline form makes `inline_call` return `false`
with the state exactly unchanged — no instruction is emitted — and the
call then goes through the general system-function path, whose arity
check rejects it with `ArityError` naming the function.  (The argument
expressions are compiled by that general path before the check;
`inline_call` itself emits nothing.) -/
theorem claimC10 (fuel : Nat) (env : Env) (nm : Name) (k : Nat)
    (args : List Value) (st : CompState) (ar : Arity) (u1 : Unit) (st2 : CompState)
    (hmem : (nm, k) ∈ intrinsicArities)
    (hlen : args.length ≠ k)
    (h1 : (loadLocalName nm st).1 = false)
    (h2 : (loadLocalName nm st).2.comp.selfName ≠ some nm)
    (h3 : (loadLocalName nm st).2.scope.containsMacro nm = false)
    (h4 : env.getSystemFn nm = some ar)
    (h5 : ar.accepts args.length = false)
    (h6 : compileArgsPush (fuel + 1) env args (loadLocalName nm st).2 =
      .ok (u1, st2))
    (h7 : st2.comp.selfName ≠ some nm) :
    inlineCall (fuel + 2) env nm args (loadLocalName nm st).2 =
      .ok (false, (loadLocalName nm st).2) ∧
    compileValue (fuel + 3) env (.list (.name nm :: args)) st =
      .error (.compileErr (.arityError nm ar args.length)) := by
  have hinline := inlineCall_declines fuel env nm k args (loadLocalName nm st).2
    hmem hlen
  refine ⟨hinline, ?_⟩
  have hsys := intrinsicNotSysOp nm k hmem
  simp only [compileValue]
  rw [if_neg (by simp [h1]), if_neg h2, if_neg (by simp [h3]),
      if_neg (by simp [hsys]), hinline]
  simp only [cbind]
  rw [if_neg (by simp)]
  simp only [finishCall]
  rw [h6]
  simp only [cbind]
  rw [if_neg (by simp)]
  rw [if_neg h7, h4]
  dsimp only
  rw [if_neg (by simp [h5])]
  rfl

/-- Witness for claim C10, instantiated at the intrinsic `first` (inline
arity 1) on the call `(first 1 2)` in the standard system-function
environment. -/
theorem claimC10_witness :
    inlineCall 4 envFirst nmFirst [.integer 1, .integer 2]
        (loadLocalName nmFirst stEmpty).2 =
      .ok (false, (loadLocalName nmFirst stEmpty).2) ∧
    compileValue 5 envFirst (.list [.name nmFirst, .integer 1, .integer 2]) stEmpty =
      .error (.compileErr (.arityError nmFirst (.exact 1) 2)) := by
  have hok : (match compileArgsPush 3 envFirst [.integer 1, .integer 2] stEmpty with
      | .ok _ => true
      | .error _ => false) = true := by decide
  have h6 : compileArgsPush 3 envFirst [.integer 1, .integer 2]
      (loadLocalName nmFirst stEmpty).2 = .ok ((), c10state) := by
    show compileArgsPush 3 envFirst [.integer 1, .integer 2] stEmpty =
      .ok ((), c10state)
    unfold c10state
    rcases hr : compileArgsPush 3 envFirst [.integer 1, .integer 2] stEmpty
      with e | ⟨u, s⟩
    · rw [hr] at hok
      simp at hok
    · rfl
  exact claimC10 2 envFirst nmFirst 1 [.integer 1, .integer 2] stEmpty (.exact 1)
    () c10state (by decide) (by decide) (by decide) (by decide) (by decide)
    (by decide) (by decide) h6 (by decide)

end Ketos
